import Mathlib

/-! # byuuML: the line scanner, the header parser and the indentation stack machine

A shallow embedding of `src/byuuML.cc` and `src/byuuML.hh`.

Conventions of the embedding.

* A `char` is a `Char`, a byte string is a `List Char`.
* A pointer pair `p, end` into one line is the list of the bytes from `p` up to
  `end`: `p != end` is `p ≠ []`, `*p` is the head, `++p` is the tail.  The bytes
  stored at `end` and after it, as far as they still belong to the buffer the line
  lies in, travel along as `after`; a read beyond them is the outcome
  `Failure.out_of_bounds`.
* A `throw std::string(...)` is `Failure.thrown`.
* Loops whose progress is not structural carry a fuel argument; the callers pass
  enough of it and `Failure.fuel` marks the exhausted case, which no input reaches
  (`all_lines_total`, `document_not_fuel`).
* A moved-from `std::string` or `std::list` is empty (what the mainstream
  standard libraries leave behind); the `int` of a moved-from node keeps its value.
-/

namespace byuuML

/-- A byte string. -/
abbrev Bytes := List Char

/-- How a run of the parser can stop without a result. -/
inductive Failure where
  | thrown (what : String)
  | out_of_bounds
  | fuel
deriving DecidableEq, Repr

deriving instance DecidableEq for Except

/-! ## `byuuML.hh`: the immutable output -/

/-- The class `node` behind a `std::unique_ptr<node>`: `null` is the empty pointer,
`mk name data children next` a node owning its first child and its next sibling. -/
inductive node where
  | null
  | mk (name data : Bytes) (children next : node)
deriving DecidableEq, Repr

/-! ## `line_getter` -/

/-- The test `*p == '\n' || *p == '\r'` of `get_buf_line` and `read_from_buffer`. -/
def is_terminator (c : Char) : Bool := c == '\n' || c == '\r'

/-- A line handed out by `get_line`: the bytes of `[out_begin, out_end)` and the bytes
that follow `out_end` inside the same buffer. -/
structure Line where
  text : Bytes
  after : Bytes
deriving DecidableEq, Repr

/-- Where `buf_begin` and `buf_end` point.
* `null`: both are `nullptr`.
* `chunk rest`: into the chunk last handed back by the reader; `rest` is the bytes of
  `[buf_begin, buf_end)`.
* `own off`: into the internal vector, `buf_begin = data() + off` and
  `buf_end = data() + size()`. -/
inductive Window where
  | null
  | chunk (rest : Bytes)
  | own (off : Nat)
deriving DecidableEq, Repr

/-- The state of a `line_getter`: the chunks the reader will still hand back, the
`std::vector<char>` base object and the buffered window. -/
structure line_getter where
  reader : List Bytes
  vec : Bytes
  buf : Window
deriving DecidableEq, Repr

/-- The function `reader::read_more`: the next chunk, or the empty span once the reader is exhausted. -/
def read_more (reader : List Bytes) : Bytes × List Bytes :=
  match reader with
  | [] => ([], [])
  | c :: cs => (c, cs)

/-- The bytes of `[buf_begin, buf_end)`. -/
def line_getter.window (g : line_getter) : Bytes :=
  match g.buf with
  | .null => []
  | .chunk rest => rest
  | .own off => g.vec.drop off

/-- The function `line_getter::clean_up`.  A pointer into the reader's chunk is taken to differ from
`data() + size()`. -/
def clean_up (g : line_getter) : line_getter :=
  match g.buf with
  | .null => g
  | .chunk rest => if rest = [] then { g with buf := .null } else g
  | .own off =>
    if g.vec.length ≠ 0 ∧ off = g.vec.length then { g with vec := [], buf := .null }
    else if g.vec.drop off = [] then { g with buf := .null }
    else g

/-- The function `line_getter::read_from_buffer`: `some line` when it returns `true`, `none` when it
returns `false` (more input was buffered and the caller goes through again).

In the second branch `line_begin` and `line_end` are not recomputed after the vector
has been rearranged, so at end of input they are read where they pointed before:
* window in the reader's chunk: the chunk is untouched, the line is the window;
* window in the vector, already at its front: nothing moved;
* window in the vector at offset `lb > 0`: `std::move` has copied the `len` window
  bytes to the front and `resize(len)` has left the storage as it was, so the storage
  now holds `vec.drop lb ++ vec.drop len` and the span `[lb, old size)` of it is
  handed out. -/
def read_from_buffer (g : line_getter) : Option Line × line_getter :=
  let line_begin := g.window.dropWhile is_terminator
  let text := line_begin.takeWhile (fun c => !is_terminator c)
  let line_end := line_begin.dropWhile (fun c => !is_terminator c)
  if line_end ≠ [] then
    let rest := line_end.dropWhile is_terminator
    let buf := match g.buf with
      | .own _ => Window.own (g.vec.length - rest.length)
      | _ => Window.chunk rest
    (some ⟨text, line_end⟩, { g with buf := buf })
  else
    let lb := g.vec.length - line_begin.length
    let len := line_begin.length
    let vec := match g.buf with
      | .own _ => if lb = 0 then g.vec else g.vec.drop lb
      | _ => line_begin
    let out := match g.buf with
      | .own _ => if lb = 0 then g.vec else (g.vec.drop lb ++ g.vec.drop len).drop lb
      | _ => line_begin
    let (incoming, reader) := read_more g.reader
    if incoming = [] then
      (some ⟨out, []⟩, { reader := reader, vec := vec, buf := .null })
    else
      (none, { reader := reader, vec := vec ++ incoming, buf := .own 0 })

/-- The loop `while(!read_from_buffer(out_begin, out_end)) {}` of `get_line`. -/
def read_loop : Nat → line_getter → Except Failure (Line × line_getter)
  | 0, _ => .error .fuel
  | fuel + 1, g =>
    match read_from_buffer g with
    | (some line, g) => .ok (line, g)
    | (none, g) => read_loop fuel g

/-- The test for a commented line in `get_line`. -/
def is_comment (text : Bytes) : Bool :=
  match text with
  | c0 :: c1 :: _ => c0 == '/' && c1 == '/'
  | _ => false

/-- The function `line_getter::get_line` with fuel for its `while(true)`.  A line with empty `text`
is the answer `out_begin == out_end`: no more lines. -/
def get_line_loop : Nat → line_getter → Except Failure (Line × line_getter)
  | 0, _ => .error .fuel
  | fuel + 1, g =>
    let g := clean_up g
    let refill : Option line_getter :=
      if g.window = [] then
        let (incoming, reader) := read_more g.reader
        if incoming = [] then none
        else some { g with reader := reader, buf := .chunk incoming }
      else some g
    match refill with
    | none => .ok (⟨[], []⟩, { g with reader := (read_more g.reader).2, buf := .chunk [] })
    | some g =>
      match read_loop (g.reader.length + 1) g with
      | .error e => .error e
      | .ok (line, g) =>
        if is_comment line.text then get_line_loop fuel g
        else .ok (line, g)

/-- The number of bytes a `line_getter` can still deliver. -/
def line_getter.pending (g : line_getter) : Nat :=
  g.window.length + (g.reader.map List.length).sum

/-- The function `line_getter::get_line`. -/
def get_line (g : line_getter) : Except Failure (Line × line_getter) :=
  get_line_loop (g.pending + 1) g

/-- The lines the constructor's `while(lines.get_line(begin, end), begin != end)` sees,
in order. -/
def get_lines : Nat → line_getter → Except Failure (List Line)
  | 0, _ => .error .fuel
  | fuel + 1, g =>
    match get_line g with
    | .error e => .error e
    | .ok (line, g) =>
      if line.text = [] then .ok []
      else
        match get_lines fuel g with
        | .error e => .error e
        | .ok rest => .ok (line :: rest)

/-- The declaration `line_getter lines(reader)`: nothing buffered yet. -/
def line_getter.init (chunks : List Bytes) : line_getter :=
  { reader := chunks, vec := [], buf := .null }

/-- All lines of a chunked input. -/
def all_lines (chunks : List Bytes) : Except Failure (List Line) :=
  get_lines ((line_getter.init chunks).pending + 1) (line_getter.init chunks)

/-! ## The header parser -/

/-- The struct `node_being_parsed`. -/
structure node_being_parsed where
  name : Bytes
  data : Bytes
  indentation_level : Nat
  children : List node_being_parsed

/-- A value-initialised `node_being_parsed`, as made by `emplace_back()` and by
`resize`. -/
def node_being_parsed.fresh : node_being_parsed :=
  { name := [], data := [], indentation_level := 0, children := [] }

/-- The loop of `parse_indentation`: the number of leading spaces and tabs, and the
line from the first other byte on. -/
def parse_indentation (begin : Bytes) : Nat × Bytes :=
  ((begin.takeWhile (fun c => c == ' ' || c == '\t')).length,
   begin.dropWhile (fun c => c == ' ' || c == '\t'))

/-- The function `is_valid_name_char`. -/
def is_valid_name_char (c : Char) : Bool :=
  if 'A' ≤ c ∧ c ≤ 'Z' then true
  else if 'a' ≤ c ∧ c ≤ 'z' then true
  else if '0' ≤ c ∧ c ≤ '9' then true
  else if c = '-' ∨ c = '.' then true
  else false

/-- The function `close_node`. -/
def close_node (dying_node : node_being_parsed) : node_being_parsed :=
  if dying_node.data ≠ [] then { dying_node with data := dying_node.data.dropLast }
  else dying_node

/-- The chain `if(p == end) ... else if(*p == '=') ... else if(*p == ':') ...
else if(*p == ' ') ...` of `parse_node`, entered with `p` behind the name: the data of
the node and the line from the new `p` on. -/
def parse_data (in_node : node_being_parsed) (p : Bytes) (is_attribute_node : Bool) :
    Except Failure (node_being_parsed × Bytes) :=
  let spurious : Bytes := if is_attribute_node then [] else ['\n']
  match p with
  | [] => .ok (in_node, [])
  | c :: p =>
    if c = '=' then
      match p with
      | [] => .ok ({ in_node with data := spurious }, [])
      | q :: p1 =>
        if q = '"' then
          match p1.dropWhile (fun c => c != '"') with
          | [] => .error (.thrown "Unterminated quoted data")
          | _ :: p2 =>
            .ok ({ in_node with data := p1.takeWhile (fun c => c != '"') ++ spurious }, p2)
        else
          .ok ({ in_node with data := p.takeWhile (fun c => c != ' ') ++ spurious },
               p.dropWhile (fun c => c != ' '))
    else if c = ':' then .ok ({ in_node with data := p ++ spurious }, [])
    else if c = ' ' then .ok (in_node, p)
    else .ok (in_node, c :: p)

/-- The part of `parse_node` before `if(!is_attribute_node)`: the name and the data.
`begin` is the line from `_begin` to `end`; the result carries the line from `p` to `end`.

With `begin == end` the byte `*begin` is the first of `after`.  When it is a name
character the `do ++p while` loop has left the line for good; lines of `get_line` are
never followed by a name character inside their buffer, and the run is not followed
further: it counts as `out_of_bounds`. -/
def parse_header (in_node : node_being_parsed) (begin after : Bytes)
    (is_attribute_node : Bool) : Except Failure (node_being_parsed × Bytes) :=
  match begin with
  | [] =>
    match after with
    | [] => .error .out_of_bounds
    | c :: _ =>
      if !is_valid_name_char c then .error (.thrown "Invalid node name")
      else .error .out_of_bounds
  | c :: rest =>
    if !is_valid_name_char c then .error (.thrown "Invalid node name")
    else
      parse_data { in_node with name := c :: rest.takeWhile is_valid_name_char }
        (rest.dropWhile is_valid_name_char) is_attribute_node

/-- The test `p + 1 != end && p[0] == '/' && p[1] == '/'` of `parse_node`.  With
`p == end` the first conjunct holds and `p[0]`, `p[1]` are bytes of `after`. -/
def comment_follows (p after : Bytes) : Except Failure Bool :=
  match p with
  | [] =>
    match after with
    | [] => .error .out_of_bounds
    | c0 :: after1 =>
      if c0 = '/' then
        match after1 with
        | [] => .error .out_of_bounds
        | c1 :: _ => .ok (c1 == '/')
      else .ok false
  | [_] => .ok false
  | c0 :: c1 :: _ => .ok (c0 == '/' && c1 == '/')

/-- The loop `while(p != end)` of `parse_node`, run for a node that is not an attribute
node; every attribute is parsed by `parse_node(..., true)`, which is `parse_header`. -/
def parse_attributes : Nat → node_being_parsed → Bytes → Bytes →
    Except Failure (node_being_parsed × Bytes)
  | 0, _, _, _ => .error .fuel
  | fuel + 1, in_node, p, after =>
    if p = [] then .ok (in_node, [])
    else
      let p := p.dropWhile (fun c => c == ' ')
      match comment_follows p after with
      | .error e => .error e
      | .ok true => .ok (in_node, [])
      | .ok false =>
        match parse_header node_being_parsed.fresh p after true with
        | .error e => .error e
        | .ok (child, p) =>
          parse_attributes fuel { in_node with children := in_node.children ++ [child] } p after

/-- The function `parse_node`. -/
def parse_node (in_node : node_being_parsed) (begin after : Bytes)
    (is_attribute_node : Bool) : Except Failure (node_being_parsed × Bytes) :=
  match parse_header in_node begin after is_attribute_node with
  | .error e => .error e
  | .ok (in_node, p) =>
    if !is_attribute_node then parse_attributes (p.length + 1) in_node p after
    else .ok (in_node, p)

/-- The function `parse_datacont`. -/
def parse_datacont (in_node : node_being_parsed) (begin : Bytes) : node_being_parsed :=
  { in_node with data := in_node.data ++ begin ++ ['\n'] }

/-! ## The tree freezer -/

mutual
/-- The body of the loop of `cook_nodes`:
`std::make_unique<node>(it->name, it->data, cook_nodes(it->children), std::move(next_node))`. -/
def cook_node : node_being_parsed → node → node
  | ⟨name, data, _, children⟩, next_node => .mk name data (cook_nodes children) next_node
/-- The function `cook_nodes`: the list is walked from its last element to its first, and every node
is given the chain built so far as its successor. -/
def cook_nodes : List node_being_parsed → node
  | [] => .null
  | it :: rest => cook_node it (cook_nodes rest)
end

/-! ## `document::document` -/

/-- The two vectors of the constructor.  `open_nodes` is kept innermost first: its head
is `*open_nodes.rbegin()`, its last element `open_nodes[0]`; the slot that
`open_nodes.resize(open_nodes.size()+1)` adds for the incoming line is not stored. -/
structure Vectors where
  open_nodes : List node_being_parsed
  document_nodes : List node_being_parsed

/-- What a stack slot holds once its node has been moved out and its `children` have
been cleared: empty strings, no children, the old `indentation_level`. -/
def moved_from (n : node_being_parsed) : node_being_parsed :=
  { node_being_parsed.fresh with indentation_level := n.indentation_level }

/-- The `do ... while` of the ancestor branch, entered after `--n` with `cur` the node
`open_nodes[n]` and `below` the nodes `open_nodes[n-1], ..., open_nodes[0]`.  It
returns the `indentation_level` of the slot `n` it stops at, the nodes below that
slot and the root list. -/
def close_ancestors (level : Nat) : node_being_parsed → List node_being_parsed →
    List node_being_parsed → Nat × List node_being_parsed × List node_being_parsed
  | cur, [], document_nodes =>
    (cur.indentation_level, [], document_nodes ++ [close_node cur])
  | cur, parent :: below, document_nodes =>
    let parent := { parent with children := parent.children ++ [close_node cur] }
    if level < cur.indentation_level then close_ancestors level parent below document_nodes
    else (cur.indentation_level, parent :: below, document_nodes)

/-- The body of the constructor's `while` loop for one line. -/
def document_line (max_depth : Nat) (v : Vectors) (line : Line) : Except Failure Vectors :=
  let (level, begin) := parse_indentation line.text
  if begin = [] then .error (.thrown "Blank indented line.")
  else
    let in_node := { node_being_parsed.fresh with indentation_level := level }
    let step : Except Failure Vectors :=
      match v.open_nodes with
      | [] =>
        if level ≠ 0 then .error (.thrown "Indented node has no parent")
        else
          match parse_node in_node begin line.after false with
          | .error e => .error e
          | .ok (in_node, _) => .ok { v with open_nodes := [in_node] }
      | recent_node :: below =>
        if level < recent_node.indentation_level then
          let (target_level, below, document_nodes) :=
            close_ancestors level recent_node below v.document_nodes
          if level ≠ target_level then .error (.thrown "Invalid indentation level")
          else
            match parse_node { node_being_parsed.fresh with indentation_level := target_level }
                begin line.after false with
            | .error e => .error e
            | .ok (target_node, _) =>
              .ok { open_nodes := target_node :: below, document_nodes := document_nodes }
        else if level > recent_node.indentation_level then
          if begin.head? = some ':' then
            .ok { v with open_nodes := parse_datacont recent_node begin.tail :: below }
          else
            match parse_node in_node begin line.after false with
            | .error e => .error e
            | .ok (in_node, _) => .ok { v with open_nodes := in_node :: recent_node :: below }
        else
          let closed := close_node recent_node
          let (below, document_nodes) :=
            match below with
            | [] => ([], v.document_nodes ++ [closed])
            | parent :: rest =>
              ({ parent with children := parent.children ++ [closed] } :: rest, v.document_nodes)
          match parse_node (moved_from recent_node) begin line.after false with
          | .error e => .error e
          | .ok (recent_node, _) =>
            .ok { open_nodes := recent_node :: below, document_nodes := document_nodes }
    match step with
    | .error e => .error e
    | .ok v =>
      if v.open_nodes.length > max_depth then .error (.thrown "Document too deep")
      else .ok v

/-- The constructor's `while` loop over the lines of `get_line`. -/
def document_loop (max_depth : Nat) : Vectors → List Line → Except Failure Vectors
  | v, [] => .ok v
  | v, line :: lines =>
    match document_line max_depth v line with
    | .error e => .error e
    | .ok v => document_loop max_depth v lines

/-- The loop "Close all remaining nodes", entered with `cur` the node `open_nodes[n]`
and `below` the nodes under it. -/
def close_all : node_being_parsed → List node_being_parsed → List node_being_parsed →
    List node_being_parsed
  | cur, [], document_nodes => document_nodes ++ [close_node cur]
  | cur, parent :: below, document_nodes =>
    close_all { parent with children := parent.children ++ [close_node cur] } below
      document_nodes

/-- The constructor after its `while` loop: the finished `document_nodes`. -/
def document_finish (v : Vectors) : Except Failure (List node_being_parsed) :=
  match v.open_nodes with
  | [] => .error (.thrown "Empty document")
  | cur :: below => .ok (close_all cur below v.document_nodes)

/-- The constructor run on the lines of `get_line`: the root list handed to
`cook_nodes`. -/
def document_nodes (lines : List Line) (max_depth : Nat) :
    Except Failure (List node_being_parsed) :=
  match document_loop max_depth { open_nodes := [], document_nodes := [] } lines with
  | .error e => .error e
  | .ok v => document_finish v

/-- The constructor run on the lines of `get_line`: the member `nodes`. -/
def document_of_lines (lines : List Line) (max_depth : Nat) : Except Failure node :=
  match document_nodes lines max_depth with
  | .error e => .error e
  | .ok roots => .ok (cook_nodes roots)

/-- The constructor `document::document(reader&, size_t max_depth)` for a reader that hands back
`chunks` one by one and then the empty span: the member `nodes`, or how the
constructor fails.  The scanner does not depend on the parser, so the lines are
computed first. -/
def document (chunks : List Bytes) (max_depth : Nat) : Except Failure node :=
  match all_lines chunks with
  | .error e => .error e
  | .ok lines => document_of_lines lines max_depth

/-! ## Vocabulary of the statements -/

/-- An inline attribute as it is written on a node line: a bare name `a`, `a=v`, or
`a="q"`. -/
inductive Attribute where
  | bare (a : Bytes)
  | plain (a v : Bytes)
  | quoted (a q : Bytes)

/-- The name written in an attribute. -/
def Attribute.name : Attribute → Bytes
  | .bare a => a
  | .plain a _ => a
  | .quoted a _ => a

/-- The data written in an attribute, empty for a bare name. -/
def Attribute.data : Attribute → Bytes
  | .bare _ => []
  | .plain _ v => v
  | .quoted _ q => q

/-- The bytes of an attribute on the line. -/
def Attribute.text : Attribute → Bytes
  | .bare a => a
  | .plain a v => a ++ '=' :: v
  | .quoted a q => a ++ '=' :: '"' :: (q ++ ['"'])

/-- A well-formed attribute: a non-empty name over `[A-Za-z0-9.-]`; a plain value has
no space and does not start with a quote; a quoted value has no quote. -/
def Attribute.well_formed : Attribute → Prop
  | .bare a => a ≠ [] ∧ ∀ c ∈ a, is_valid_name_char c = true
  | .plain a v => (a ≠ [] ∧ ∀ c ∈ a, is_valid_name_char c = true) ∧ ' ' ∉ v ∧
      v.head? ≠ some '"'
  | .quoted a q => (a ≠ [] ∧ ∀ c ∈ a, is_valid_name_char c = true) ∧ '"' ∉ q

instance (t : Attribute) : Decidable t.well_formed := by
  cases t <;> unfold Attribute.well_formed <;> infer_instance

/-- The part of a node line behind the node's name: every attribute preceded by one
space and `extra` further spaces. -/
def attribute_tail : List (Nat × Attribute) → Bytes
  | [] => []
  | (extra, t) :: ts => ' ' :: (List.replicate extra ' ' ++ (t.text ++ attribute_tail ts))

/-- The node an attribute is parsed into: no children, never closed. -/
def Attribute.node (t : Attribute) : node_being_parsed :=
  { name := t.name, data := t.data, indentation_level := 0, children := [] }

/-- Whether `parse_node` entered at `begin` takes the branch `else if(*p == ':')`: the
byte behind the name is a colon. -/
def takes_colon_data (begin : Bytes) : Bool :=
  match begin with
  | [] => false
  | _ :: rest => (rest.dropWhile is_valid_name_char).head? == some ':'

/-- Whether one of the attributes met by the loop `while(p != end)` takes `:` data; the
walk is the one of `parse_attributes`. -/
def attribute_takes_colon_data : Nat → Bytes → Bytes → Bool
  | 0, _, _ => false
  | fuel + 1, p, after =>
    if p = [] then false
    else
      let p := p.dropWhile (fun c => c == ' ')
      match comment_follows p after with
      | .ok false =>
        match parse_header node_being_parsed.fresh p after true with
        | .ok (_, q) => takes_colon_data p || attribute_takes_colon_data fuel q after
        | .error _ => false
      | _ => false

/-- Whether the node of a line, or one of its inline attributes, takes `:` data. -/
def line_takes_colon_data (line after : Bytes) : Bool :=
  takes_colon_data line ||
    match parse_header node_being_parsed.fresh line after false with
    | .ok (_, p) => attribute_takes_colon_data (p.length + 1) p after
    | .error _ => false

/-- The maximal runs of bytes other than line terminators in `text`, in order, every
run with the bytes that follow it; `cur` is the run collected so far. -/
def split_lines : Bytes → Bytes → List Line
  | [], cur => if cur = [] then [] else [⟨cur, []⟩]
  | c :: cs, cur =>
    if is_terminator c then
      if cur = [] then split_lines cs [] else ⟨cur, c :: cs⟩ :: split_lines cs []
    else split_lines cs (cur ++ [c])

/-- The logical lines of `text`: its maximal terminator-free runs, without those that
begin with `//`. -/
def logical_lines (text : Bytes) : List Line :=
  (split_lines text []).filter (fun l => !is_comment l.text)

/-- The indentation of a line: the number of its leading spaces and tabs. -/
def Line.indentation (l : Line) : Nat := (parse_indentation l.text).1

/-- The content of a line behind its indentation. -/
def Line.content (l : Line) : Bytes := (parse_indentation l.text).2

/-- A line whose content begins with `:`.  The other lines are the node lines. -/
def Line.is_continuation (l : Line) : Bool := l.content.head? == some ':'

/-- The name declared on a node line: the leading name characters of its content. -/
def Line.declared_name (l : Line) : Bytes := l.content.takeWhile is_valid_name_char

/-- The node of a node line that is followed by the continuation lines `conts`: the
header of the line with its inline attributes, the texts of the continuation lines
appended to its data, closed. -/
def line_node (l : Line) (conts : List Line) : Except Failure node_being_parsed :=
  match parse_node { node_being_parsed.fresh with indentation_level := l.indentation }
      l.content l.after false with
  | .error e => .error e
  | .ok (in_node, _) =>
    .ok (close_node (conts.foldl (fun n c => parse_datacont n c.content.tail) in_node))

/-- One entry per node line, in the order of the lines: the node of the line together
with the continuation lines that directly follow it. -/
def entries : List Line → List (Except Failure node_being_parsed)
  | [] => []
  | l :: ls =>
    if l.is_continuation then entries ls
    else line_node l (ls.takeWhile Line.is_continuation) :: entries ls

/-- A tree of node lines: `head` is the node of one line, with its name, data,
indentation and inline attributes, `nested` are the trees of the lines nested under it. -/
inductive Tree where
  | mk (head : node_being_parsed) (nested : List Tree)

/-- The node of the line at the root of a tree. -/
def Tree.head : Tree → node_being_parsed
  | .mk h _ => h

/-- The trees under the root of a tree. -/
def Tree.nested : Tree → List Tree
  | .mk _ ts => ts

/-- The indentation of the line at the root of a tree. -/
def Tree.level (t : Tree) : Nat := t.head.indentation_level

mutual
/-- The `node_being_parsed` of a tree: the nested nodes come behind the inline
attributes of the line. -/
def Tree.to_node : Tree → node_being_parsed
  | .mk h ts => { h with children := h.children ++ Tree.to_nodes ts }
/-- The `node_being_parsed` list of a list of trees. -/
def Tree.to_nodes : List Tree → List node_being_parsed
  | [] => []
  | t :: ts => t.to_node :: Tree.to_nodes ts
end

mutual
/-- The nodes of the lines of a tree in document order. -/
def Tree.preorder : Tree → List node_being_parsed
  | .mk h ts => h :: Tree.preorder_all ts
/-- The nodes of the lines of a list of trees in document order. -/
def Tree.preorder_all : List Tree → List node_being_parsed
  | [] => []
  | t :: ts => t.preorder ++ Tree.preorder_all ts
end

/-- Every node of the tree, the root apart, is a child of the nearest preceding line
with a strictly smaller indentation: a child `c` of `h` is indented strictly deeper than
`h`, and every line between `h` and `c` in document order (the lines of the trees `pre`
of the children before `c`) is indented at least as deep as `c`. -/
inductive Tree.nested_by_indentation : Tree → Prop where
  | mk (h : node_being_parsed) (ts : List Tree) :
    (∀ pre c post, ts = pre ++ c :: post →
      h.indentation_level < c.level ∧
        ∀ x ∈ Tree.preorder_all pre, c.level ≤ x.indentation_level) →
    (∀ t ∈ ts, Tree.nested_by_indentation t) →
    Tree.nested_by_indentation (.mk h ts)

/-- The names along the `next` links of a chain of nodes. -/
def node.sibling_names : node → List Bytes
  | .null => []
  | .mk name _ _ next => name :: node.sibling_names next

/-! ## The open nodes seen as trees under construction -/

/-- An open node seen as a tree under construction: `head` is the node of its line as
parsed so far, `done` are the finished trees under it. -/
structure Frame where
  head : node_being_parsed
  done : List Tree

/-- The indentation of the line of a frame. -/
def Frame.level (f : Frame) : Nat := f.head.indentation_level

/-- The open node of a frame, as it sits in `open_nodes`. -/
def Frame.to_open (f : Frame) : node_being_parsed :=
  { f.head with children := f.head.children ++ Tree.to_nodes f.done }

/-- The tree a frame becomes when its node is closed. -/
def Frame.close (f : Frame) : Tree := .mk (close_node f.head) f.done

/-- A frame with one more finished tree under it. -/
def Frame.absorb (f : Frame) (t : Tree) : Frame := { f with done := f.done ++ [t] }

/-- All children of every node have one indentation, deeper than that of the node. -/
inductive Tree.regular : Tree → Prop where
  | mk (h : node_being_parsed) (ts : List Tree) :
    (∀ t ∈ ts, h.indentation_level < t.level) →
    (∀ t ∈ ts, Tree.regular t) →
    (∀ t ∈ ts, ∀ u ∈ ts, t.level = u.level) →
    Tree.regular (.mk h ts)

/-- The function `close_ancestors` on frames. -/
def close_frames (level : Nat) : Frame → List Frame → List Tree → Nat × List Frame × List Tree
  | cur, [], finished => (cur.level, [], finished ++ [cur.close])
  | cur, parent :: below, finished =>
    if level < cur.level then close_frames level (parent.absorb cur.close) below finished
    else (cur.level, parent.absorb cur.close :: below, finished)

/-- The function `close_all` on frames. -/
def close_all_frames : Frame → List Frame → List Tree → List Tree
  | cur, [], finished => finished ++ [cur.close]
  | cur, parent :: below, finished => close_all_frames (parent.absorb cur.close) below finished

/-- The frames of the open nodes, innermost first, are well formed under a frame of
indentation `up` (`none`: there is no frame above): the finished trees of every frame
are regular and have the indentation of the frame above, which is deeper than that of
the frame itself; the innermost frame has no finished tree; the outermost frame has
indentation 0. -/
def stack_ok : Option Nat → List Frame → Prop
  | _, [] => True
  | up, f :: rest =>
    (match up with
      | none => f.done = []
      | some u => f.level < u ∧ ∀ s ∈ f.done, s.level = u) ∧
    (∀ s ∈ f.done, Tree.regular s) ∧ (rest = [] → f.level = 0) ∧ stack_ok (some f.level) rest

/-- The finished roots are regular trees of indentation 0. -/
def forest_ok (finished : List Tree) : Prop :=
  ∀ t ∈ finished, t.level = 0 ∧ Tree.regular t

/-- The nodes of the lines held by the frames, in document order, every head closed. -/
def spine : List Frame → List node_being_parsed
  | [] => []
  | f :: rest => spine rest ++ (close_node f.head :: Tree.preorder_all f.done)

/-- The data of continuation lines appended to a node. -/
def absorb_lines (in_node : node_being_parsed) (conts : List Line) : node_being_parsed :=
  conts.foldl (fun n c => parse_datacont n c.content.tail) in_node

/-! ## Vocabulary of the statements on errors, depth and the frozen tree -/

/-- The ways in which `parse_node` can stop without a result: its two `throw`s and a
read at or behind `end`. -/
def parser_failure (e : Failure) : Prop :=
  e = .thrown "Invalid node name" ∨ e = .thrown "Unterminated quoted data" ∨
    e = .out_of_bounds

mutual
/-- The number of lines on the longest path from the root of a tree down to a line
nested in it. -/
def Tree.height : Tree → Nat
  | .mk _ ts => 1 + Tree.height_all ts
/-- The largest height among a list of trees, 0 for no tree. -/
def Tree.height_all : List Tree → Nat
  | [] => 0
  | t :: ts => max t.height (Tree.height_all ts)
end

/-- The largest depth of a node in a chain of siblings, the nodes of the chain counted
as depth 1; 0 for the null chain. -/
def node.height : node → Nat
  | .null => 0
  | .mk _ _ children next => max (1 + children.height) next.height

/-- The frames of the open nodes, innermost first, respect `max_depth`: the position of
every frame in the stack, counted from 1 at the bottom, plus the height of the finished
trees under it does not exceed `max_depth`. -/
def depth_ok (max_depth : Nat) : List Frame → Prop
  | [] => True
  | f :: rest =>
    rest.length + 1 + Tree.height_all f.done ≤ max_depth ∧ depth_ok max_depth rest

/-- The children a node line has received from `parse_node` are inline attributes:
value-initialised nodes that got a name and possibly data, so their
`indentation_level` is 0 and they have no children. -/
def inline_ok (x : node_being_parsed) : Prop :=
  ∀ c ∈ x.children, c.indentation_level = 0 ∧ c.children = []

/-- The state of the constructor between two lines as frames: `open_nodes` are the
open nodes of the frames `fs`, `document_nodes` the nodes of the trees `finished`.  The
frames are well formed, respect `max_depth`, and every child a line has received from
`parse_node` is an inline attribute. -/
def frames_of (max_depth : Nat) (v : Vectors) (fs : List Frame) (finished : List Tree) :
    Prop :=
  v = ⟨fs.map Frame.to_open, Tree.to_nodes finished⟩ ∧ stack_ok none fs ∧
    forest_ok finished ∧ depth_ok max_depth fs ∧
    (∀ t ∈ finished, t.height ≤ max_depth) ∧
    (∀ x ∈ Tree.preorder_all finished ++ spine fs, inline_ok x) ∧
    (fs = [] → finished = [])

/-- A chain of nested single-child nodes without data, named top down by `names`. -/
def chain_node : List Bytes → node
  | [] => .null
  | n :: ns => .mk n [] (chain_node ns) .null

/-- The nodes along the `next` links of a chain, each with its name, its data and its
child chain. -/
def node.chain : node → List (Bytes × Bytes × node)
  | .null => []
  | .mk name data children next => (name, data, children) :: node.chain next

/-- The names and data met by a traversal of a chain of nodes that visits every node
before its children and its children before its next sibling. -/
def node.traversal : node → List (Bytes × Bytes)
  | .null => []
  | .mk name data children next =>
    (name, data) :: (node.traversal children ++ node.traversal next)

mutual
/-- The names and data met by the same traversal of a `node_being_parsed`. -/
def node_being_parsed.traversal : node_being_parsed → List (Bytes × Bytes)
  | ⟨name, data, _, children⟩ => (name, data) :: node_being_parsed.traversal_all children
/-- The names and data met by the same traversal of a list of `node_being_parsed`. -/
def node_being_parsed.traversal_all : List node_being_parsed → List (Bytes × Bytes)
  | [] => []
  | n :: ns => n.traversal ++ node_being_parsed.traversal_all ns
end

/-- The indentation invariant of a `node_being_parsed`: its `children` are its inline
attributes, nodes of `indentation_level` 0 without children, followed by the nodes of
the lines nested under it, which all have one `indentation_level`, greater than that
of the node, and satisfy the invariant themselves. -/
inductive node_being_parsed.well_indented : node_being_parsed → Prop where
  | mk (n : node_being_parsed) (attrs nested : List node_being_parsed) :
    n.children = attrs ++ nested →
    (∀ c ∈ attrs, c.indentation_level = 0 ∧ c.children = []) →
    (∀ c ∈ nested, n.indentation_level < c.indentation_level) →
    (∀ c ∈ nested, ∀ d ∈ nested, c.indentation_level = d.indentation_level) →
    (∀ c ∈ nested, node_being_parsed.well_indented c) →
    node_being_parsed.well_indented n

/-! ## The line scanner on an input delivered in one chunk -/

theorem split_lines_run (a : Bytes) (ha : ∀ c ∈ a, is_terminator c = false) :
    ∀ (cur rest : Bytes), (∀ c, rest.head? = some c → is_terminator c = true) →
      split_lines (a ++ rest) cur =
        match rest with
        | [] => if cur ++ a = [] then [] else [⟨cur ++ a, []⟩]
        | t :: r =>
          if cur ++ a = [] then split_lines r [] else ⟨cur ++ a, t :: r⟩ :: split_lines r [] := by
  induction a with
  | nil =>
    intro cur rest hr
    cases rest with
    | nil => simp [split_lines]
    | cons t r =>
      have ht : is_terminator t = true := hr t rfl
      simp [split_lines, ht]
  | cons c a ih =>
    intro cur rest hr
    have hc : is_terminator c = false := ha c (List.mem_cons_self _ _)
    have ha' : ∀ x ∈ a, is_terminator x = false := fun x hx => ha x (List.mem_cons_of_mem _ hx)
    have h := ih ha' (cur ++ [c]) rest hr
    simp only [List.append_assoc, List.singleton_append] at h
    simp only [List.cons_append, split_lines, hc, Bool.false_eq_true, if_false]
    exact h

theorem split_lines_skip (ts : Bytes) (hts : ∀ c ∈ ts, is_terminator c = true) (w : Bytes) :
    split_lines (ts ++ w) [] = split_lines w [] := by
  induction ts with
  | nil => rfl
  | cons t ts ih =>
    have ht : is_terminator t = true := hts t (List.mem_cons_self _ _)
    simp only [List.cons_append, split_lines, ht, if_true]
    exact ih (fun x hx => hts x (List.mem_cons_of_mem _ hx))

theorem dropWhile_head_false (p : Char → Bool) (w : Bytes) :
    ∀ c, (w.dropWhile p).head? = some c → p c = false := by
  intro c h
  induction w with
  | nil => simp at h
  | cons x xs ih =>
    by_cases hx : p x = true
    · rw [List.dropWhile_cons_of_pos hx] at h
      exact ih h
    · rw [List.dropWhile_cons_of_neg hx] at h
      simp only [List.head?_cons, Option.some.injEq] at h
      subst h
      simpa using hx

theorem takeWhile_all (p : Char → Bool) (w : Bytes) : ∀ c ∈ w.takeWhile p, p c = true := by
  intro c hc
  exact (List.mem_takeWhile_imp hc)

/-- One step of the splitting, in the terms `read_from_buffer` computes. -/
theorem split_lines_step (w : Bytes) :
    split_lines w [] =
      (if w.dropWhile is_terminator = [] then []
       else if (w.dropWhile is_terminator).dropWhile (fun c => !is_terminator c) = [] then
         [⟨w.dropWhile is_terminator, []⟩]
       else ⟨(w.dropWhile is_terminator).takeWhile (fun c => !is_terminator c),
           (w.dropWhile is_terminator).dropWhile (fun c => !is_terminator c)⟩ ::
         split_lines (((w.dropWhile is_terminator).dropWhile
           (fun c => !is_terminator c)).dropWhile is_terminator) []) := by
  have hw : w = w.takeWhile is_terminator ++ w.dropWhile is_terminator :=
    (List.takeWhile_append_dropWhile _ _).symm
  conv_lhs => rw [hw]
  rw [split_lines_skip _ (takeWhile_all _ _)]
  have hb0 := dropWhile_head_false is_terminator w
  generalize w.dropWhile is_terminator = b at hb0
  have hb : b = b.takeWhile (fun c => !is_terminator c) ++
      b.dropWhile (fun c => !is_terminator c) := (List.takeWhile_append_dropWhile _ _).symm
  have hrun : ∀ c ∈ b.takeWhile (fun c => !is_terminator c), is_terminator c = false := by
    intro c hc
    have := takeWhile_all (fun c => !is_terminator c) b c hc
    simpa using this
  have hhead : ∀ c, (b.dropWhile (fun c => !is_terminator c)).head? = some c →
      is_terminator c = true := by
    intro c hc
    have := dropWhile_head_false (fun c => !is_terminator c) b c hc
    simpa using this
  conv_lhs => rw [hb]
  rw [split_lines_run _ hrun [] _ hhead]
  simp only [List.nil_append]
  cases he : b.dropWhile (fun c => !is_terminator c) with
  | nil =>
    have hb2 : b.takeWhile (fun c => !is_terminator c) = b := by
      rw [he, List.append_nil] at hb
      exact hb.symm
    simp [hb2]
  | cons t r =>
    have ht : is_terminator t = true := hhead t (by rw [he]; rfl)
    have hbne : b ≠ [] := by
      intro h
      rw [h] at he
      simp at he
    have htk : b.takeWhile (fun c => !is_terminator c) ≠ [] := by
      cases b with
      | nil => exact absurd rfl hbne
      | cons x xs =>
        have hx : is_terminator x = false := hb0 x rfl
        simp [List.takeWhile_cons, hx]
    have hskip : split_lines r [] = split_lines (r.dropWhile is_terminator) [] := by
      conv_lhs => rw [← List.takeWhile_append_dropWhile is_terminator r]
      rw [split_lines_skip _ (takeWhile_all _ _)]
    simp only [hbne, if_false, List.dropWhile_cons_of_pos ht, htk, reduceCtorEq, hskip]

theorem read_from_buffer_chunk (vec w : Bytes) :
    read_from_buffer ⟨[], vec, .chunk w⟩ =
      (if (w.dropWhile is_terminator).dropWhile (fun c => !is_terminator c) ≠ [] then
        (some ⟨(w.dropWhile is_terminator).takeWhile (fun c => !is_terminator c),
            (w.dropWhile is_terminator).dropWhile (fun c => !is_terminator c)⟩,
          ⟨[], vec, .chunk (((w.dropWhile is_terminator).dropWhile
            (fun c => !is_terminator c)).dropWhile is_terminator)⟩)
      else
        (some ⟨w.dropWhile is_terminator, []⟩, ⟨[], w.dropWhile is_terminator, .null⟩)) := by
  simp only [read_from_buffer, line_getter.window, read_more]
  split <;> simp_all

theorem get_line_loop_done (fuel : Nat) (vec : Bytes) (buf : Window)
    (hbuf : buf = .null ∨ buf = .chunk []) :
    get_line_loop (fuel + 1) ⟨[], vec, buf⟩ = .ok (⟨[], []⟩, ⟨[], vec, .chunk []⟩) := by
  rcases hbuf with h | h <;> subst h <;>
    simp [get_line_loop, clean_up, line_getter.window, read_more]

theorem split_lines_text_ne (w : Bytes) :
    ∀ cur, ∀ l ∈ split_lines w cur, l.text ≠ [] := by
  induction w with
  | nil =>
    intro cur l hl
    by_cases hc : cur = []
    · simp [split_lines, hc] at hl
    · simp only [split_lines, hc, if_false, List.mem_singleton] at hl
      subst hl
      exact hc
  | cons c cs ih =>
    intro cur l hl
    simp only [split_lines] at hl
    by_cases ht : is_terminator c = true
    · by_cases hc : cur = []
      · simp only [ht, hc, if_true] at hl
        exact ih [] l hl
      · simp only [ht, hc, if_true, if_false, List.mem_cons] at hl
        rcases hl with h | h
        · subst h
          exact hc
        · exact ih [] l h
    · simp only [ht, Bool.false_eq_true, if_false] at hl
      exact ih _ l hl

theorem dropWhile_length_le (p : Char → Bool) (w : Bytes) :
    (w.dropWhile p).length ≤ w.length :=
  (List.dropWhile_sublist p).length_le

/-- The function `get_line` on a window into the only chunk, the reader being
exhausted: it hands out the first logical line of the window and leaves a window holding
the others. -/
theorem get_line_loop_chunk :
    ∀ (n : Nat) (w : Bytes), w.length ≤ n → ∀ (vec : Bytes) (fuel : Nat), w.length < fuel →
      ∃ l g, get_line_loop fuel ⟨[], vec, .chunk w⟩ = .ok (l, g) ∧
        ((logical_lines w = [] ∧ l.text = []) ∨
          (l.text ≠ [] ∧ ∃ w' vec', logical_lines w = l :: logical_lines w' ∧
            w'.length < w.length ∧
            (g = ⟨[], vec', .chunk w'⟩ ∨ (g = ⟨[], vec', .null⟩ ∧ w' = [])))) := by
  intro n
  induction n with
  | zero =>
    intro w hw vec fuel hfuel
    have hw0 : w = [] := List.length_eq_zero.mp (Nat.le_zero.mp hw)
    subst hw0
    cases fuel with
    | zero => exact absurd hfuel (Nat.lt_irrefl _)
    | succ fuel =>
      exact ⟨_, _, get_line_loop_done fuel vec _ (Or.inr rfl), Or.inl ⟨rfl, rfl⟩⟩
  | succ n ih =>
    intro w hw vec fuel hfuel
    cases fuel with
    | zero => exact absurd hfuel (Nat.not_lt_zero _)
    | succ fuel =>
      by_cases hw0 : w = []
      · subst hw0
        exact ⟨_, _, get_line_loop_done fuel vec _ (Or.inr rfl), Or.inl ⟨rfl, rfl⟩⟩
      · have hstep := split_lines_step w
        have hrfb := read_from_buffer_chunk vec w
        have hb0 := dropWhile_head_false is_terminator w
        have hblen := dropWhile_length_le is_terminator w
        generalize w.dropWhile is_terminator = b at hstep hrfb hb0 hblen
        have he0 := dropWhile_head_false (fun c => !is_terminator c) b
        have helen := dropWhile_length_le (fun c => !is_terminator c) b
        generalize hedef : b.dropWhile (fun c => !is_terminator c) = e at hstep hrfb he0 helen
        have hunfold : get_line_loop (fuel + 1) ⟨[], vec, .chunk w⟩ =
            match read_from_buffer ⟨[], vec, .chunk w⟩ with
            | (some line, g) =>
              if is_comment line.text then get_line_loop fuel g else .ok (line, g)
            | (none, g) => .error .fuel := by
          simp only [get_line_loop, clean_up, hw0, if_false, line_getter.window, read_loop]
          cases read_from_buffer ⟨[], vec, .chunk w⟩ with
          | mk o g =>
            cases o with
            | none => simp [read_loop]
            | some line => simp
        rw [hunfold, hrfb]
        by_cases he : e = []
        · -- the window ends inside the last line
          simp only [he, ne_eq, not_true_eq_false, if_false]
          simp only [he, if_true] at hstep
          by_cases hb : b = []
          · subst hb
            simp only [if_true] at hstep
            refine ⟨⟨[], []⟩, ⟨[], [], .null⟩, ?_, Or.inl ⟨?_, rfl⟩⟩
            · simp [is_comment]
            · simp [logical_lines, hstep]
          · simp only [hb, if_false] at hstep
            by_cases hc : is_comment b = true
            · cases fuel with
              | zero =>
                exfalso
                have : 1 ≤ b.length := List.length_pos.mpr hb
                omega
              | succ fuel =>
                refine ⟨⟨[], []⟩, ⟨[], b, .chunk []⟩, ?_, Or.inl ⟨?_, rfl⟩⟩
                · simp only [hc, if_true]
                  exact get_line_loop_done fuel b _ (Or.inl rfl)
                · simp [logical_lines, hstep, hc]
            · refine ⟨⟨b, []⟩, ⟨[], b, .null⟩, ?_, Or.inr ⟨hb, [], b, ?_, ?_, Or.inr ⟨rfl, rfl⟩⟩⟩
              · simp [hc]
              · simp [logical_lines, hstep, hc, split_lines]
              · exact List.length_pos.mpr hw0
        · -- a terminator closes the line inside the window
          have hb : b ≠ [] := by
            intro h
            subst h
            simp at hedef
            exact he hedef
          simp only [he, ne_eq, not_false_eq_true, if_true]
          simp only [hb, he, if_false] at hstep
          have hw1 : (e.dropWhile is_terminator).length < w.length := by
            cases e with
            | nil => exact absurd rfl he
            | cons t r =>
              have ht : is_terminator t = true := by
                have := he0 t rfl
                simpa using this
              rw [List.dropWhile_cons_of_pos ht]
              have := dropWhile_length_le is_terminator r
              simp only [List.length_cons] at helen
              omega
          have htext : b.takeWhile (fun c => !is_terminator c) ≠ [] := by
            cases b with
            | nil => exact absurd rfl hb
            | cons x xs =>
              have hx : is_terminator x = false := hb0 x rfl
              simp [List.takeWhile_cons, hx]
          by_cases hc : is_comment (b.takeWhile (fun c => !is_terminator c)) = true
          · simp only [hc, if_true]
            obtain ⟨l, g, hg, hres⟩ := ih (e.dropWhile is_terminator) (by omega) vec fuel
              (by omega)
            refine ⟨l, g, hg, ?_⟩
            have hll : logical_lines w = logical_lines (e.dropWhile is_terminator) := by
              simp [logical_lines, hstep, hc]
            rw [hll]
            rcases hres with h | ⟨h1, w', vec', h2, h3, h4⟩
            · exact Or.inl h
            · exact Or.inr ⟨h1, w', vec', h2, by omega, h4⟩
          · refine ⟨⟨b.takeWhile (fun c => !is_terminator c), e⟩,
              ⟨[], vec, .chunk (e.dropWhile is_terminator)⟩, ?_,
              Or.inr ⟨htext, e.dropWhile is_terminator, vec, ?_, hw1, Or.inl rfl⟩⟩
            · simp [hc]
            · simp [logical_lines, hstep, hc]

theorem get_lines_chunk :
    ∀ (n : Nat) (w : Bytes), w.length ≤ n → ∀ (vec : Bytes) (fuel : Nat), w.length < fuel →
      get_lines fuel ⟨[], vec, .chunk w⟩ = .ok (logical_lines w) := by
  intro n
  induction n with
  | zero =>
    intro w hw vec fuel hfuel
    have hw0 : w = [] := List.length_eq_zero.mp (Nat.le_zero.mp hw)
    subst hw0
    cases fuel with
    | zero => exact absurd hfuel (Nat.lt_irrefl _)
    | succ fuel =>
      simp only [get_lines, get_line, line_getter.pending, line_getter.window]
      simp [get_line_loop_done 0 vec (.chunk []) (Or.inr rfl), logical_lines, split_lines]
  | succ n ih =>
    intro w hw vec fuel hfuel
    cases fuel with
    | zero => exact absurd hfuel (Nat.not_lt_zero _)
    | succ fuel =>
      obtain ⟨l, g, hg, hres⟩ := get_line_loop_chunk w.length w (Nat.le_refl _) vec
        (w.length + 1) (Nat.lt_succ_self _)
      have hgl : get_line ⟨[], vec, .chunk w⟩ = .ok (l, g) := by
        simp only [get_line, line_getter.pending, line_getter.window, List.map_nil,
          List.sum_nil, Nat.add_zero]
        exact hg
      simp only [get_lines, hgl]
      rcases hres with ⟨h1, h2⟩ | ⟨h1, w', vec', h2, h3, h4⟩
      · simp [h1, h2]
      · simp only [h1, if_false, h2]
        rcases h4 with h4 | ⟨h4, h5⟩
        · subst h4
          rw [ih w' (by omega) vec' fuel (by omega)]
        · subst h4 h5
          cases fuel with
          | zero =>
            exfalso
            omega
          | succ fuel =>
            have : get_lines (fuel + 1) ⟨[], vec', .null⟩ = .ok [] := by
              simp only [get_lines, get_line, line_getter.pending, line_getter.window]
              simp [get_line_loop_done 0 vec' .null (Or.inl rfl)]
            rw [this]
            simp [logical_lines, split_lines]

/-- The scanner on an input delivered in one chunk: the logical lines of the input. -/
theorem all_lines_one_chunk (text : Bytes) : all_lines [text] = .ok (logical_lines text) := by
  by_cases ht : text = []
  · subst ht
    simp [all_lines, line_getter.init, line_getter.pending, line_getter.window, get_lines,
      get_line, get_line_loop, clean_up, read_more, logical_lines, split_lines]
  · have hfirst : ∀ fuel, get_line_loop (fuel + 1) ⟨[text], [], .null⟩ =
        get_line_loop (fuel + 1) ⟨[], [], .chunk text⟩ := by
      intro fuel
      simp [get_line_loop, clean_up, line_getter.window, read_more, ht]
    have hch := get_lines_chunk text.length text (Nat.le_refl _) [] (text.length + 1)
      (Nat.lt_succ_self _)
    rw [← hch]
    simp only [all_lines, line_getter.init, line_getter.pending, line_getter.window,
      List.map_cons, List.map_nil, List.sum_cons, List.sum_nil, Nat.add_zero, Nat.zero_add,
      List.length_nil, get_lines, get_line, hfirst]

/-! ## Lemmas on the header parser -/

theorem scan_run (p : Char → Bool) (n rest : Bytes) (hn : ∀ c ∈ n, p c = true)
    (hr : ∀ c, rest.head? = some c → p c = false) :
    (n ++ rest).takeWhile p = n ∧ (n ++ rest).dropWhile p = rest := by
  rw [List.takeWhile_append_of_pos hn, List.dropWhile_append_of_pos hn]
  cases rest with
  | nil => simp
  | cons c r =>
    have h := hr c rfl
    simp [List.takeWhile_cons, List.dropWhile_cons, h]

/-- The header parser on a line that starts with the name `n`, followed by `rest` which
is empty or starts with a byte that cannot be part of a name. -/
theorem parse_header_name (in_node : node_being_parsed) (n rest after : Bytes) (attr : Bool)
    (hne : n ≠ []) (hn : ∀ c ∈ n, is_valid_name_char c = true)
    (hr : ∀ c, rest.head? = some c → is_valid_name_char c = false) :
    parse_header in_node (n ++ rest) after attr =
      parse_data { in_node with name := n } rest attr := by
  cases n with
  | nil => exact absurd rfl hne
  | cons c n' =>
    have hc : is_valid_name_char c = true := hn c (List.mem_cons_self _ _)
    have hn' : ∀ x ∈ n', is_valid_name_char x = true :=
      fun x hx => hn x (List.mem_cons_of_mem _ hx)
    obtain ⟨h1, h2⟩ := scan_run is_valid_name_char n' rest hn' hr
    simp only [List.cons_append, parse_header, hc, Bool.not_true, Bool.false_eq_true,
      if_false, h1, h2]

theorem parse_header_colon (in_node : node_being_parsed) (n d after : Bytes) (attr : Bool)
    (hne : n ≠ []) (hn : ∀ c ∈ n, is_valid_name_char c = true) :
    parse_header in_node (n ++ ':' :: d) after attr =
      .ok ({ in_node with name := n, data := d ++ if attr then [] else ['\n'] }, []) := by
  rw [parse_header_name in_node n _ after attr hne hn (by simp; decide)]
  simp [parse_data]

theorem parse_header_quoted (in_node : node_being_parsed) (n q rest after : Bytes)
    (attr : Bool) (hne : n ≠ []) (hn : ∀ c ∈ n, is_valid_name_char c = true)
    (hq : '"' ∉ q) :
    parse_header in_node (n ++ '=' :: '"' :: (q ++ '"' :: rest)) after attr =
      .ok ({ in_node with name := n, data := q ++ if attr then [] else ['\n'] }, rest) := by
  rw [parse_header_name in_node n _ after attr hne hn (by simp; decide)]
  have hq' : ∀ c ∈ q, (fun c => c != '"') c = true := by
    intro c hc
    simp only [bne_iff_ne, ne_eq]
    intro h
    exact hq (h ▸ hc)
  obtain ⟨h1, h2⟩ := scan_run (fun c => c != '"') q ('"' :: rest) hq' (by simp)
  simp [parse_data, h1, h2]

theorem parse_header_plain (in_node : node_being_parsed) (n v rest after : Bytes)
    (attr : Bool) (hne : n ≠ []) (hn : ∀ c ∈ n, is_valid_name_char c = true)
    (hv : ' ' ∉ v) (hv0 : v.head? ≠ some '"')
    (hr : ∀ c, rest.head? = some c → c = ' ') :
    parse_header in_node (n ++ '=' :: (v ++ rest)) after attr =
      .ok ({ in_node with name := n, data := v ++ if attr then [] else ['\n'] }, rest) := by
  rw [parse_header_name in_node n _ after attr hne hn (by simp; decide)]
  have hv' : ∀ c ∈ v, (fun c => c != ' ') c = true := by
    intro c hc
    simp only [bne_iff_ne, ne_eq]
    intro h
    exact hv (h ▸ hc)
  obtain ⟨h1, h2⟩ := scan_run (fun c => c != ' ') v rest hv'
    (by intro c hc; simp [hr c hc])
  cases hvr : v ++ rest with
  | nil =>
    have hv_nil : v = [] := (List.append_eq_nil.mp hvr).1
    have hr_nil : rest = [] := (List.append_eq_nil.mp hvr).2
    simp [parse_data, hv_nil, hr_nil]
  | cons c t =>
    have hc : c ≠ '"' := by
      intro h
      subst h
      cases v with
      | nil =>
        simp only [List.nil_append] at hvr
        have := hr '"' (by simp [hvr])
        exact absurd this (by decide)
      | cons c' v' =>
        simp only [List.cons_append, List.cons.injEq] at hvr
        exact hv0 (by simp [hvr.1])
    rw [hvr] at h1 h2
    simp [parse_data, hc, h1, h2]

theorem parse_header_space (in_node : node_being_parsed) (n rest after : Bytes)
    (attr : Bool) (hne : n ≠ []) (hn : ∀ c ∈ n, is_valid_name_char c = true) :
    parse_header in_node (n ++ ' ' :: rest) after attr =
      .ok ({ in_node with name := n }, rest) := by
  rw [parse_header_name in_node n _ after attr hne hn (by simp; decide)]
  simp [parse_data]

theorem parse_header_bare (in_node : node_being_parsed) (n after : Bytes)
    (attr : Bool) (hne : n ≠ []) (hn : ∀ c ∈ n, is_valid_name_char c = true) :
    parse_header in_node n after attr = .ok ({ in_node with name := n }, []) := by
  have h := parse_header_name in_node n [] after attr hne hn (by simp)
  rw [List.append_nil] at h
  rw [h]
  simp [parse_data]

theorem parse_attributes_nil (fuel : Nat) (in_node : node_being_parsed) (after : Bytes) :
    parse_attributes (fuel + 1) in_node [] after = .ok (in_node, []) := by
  simp [parse_attributes]

theorem Attribute.text_head (t : Attribute) (ht : t.well_formed) :
    ∃ c r, t.text = c :: r ∧ is_valid_name_char c = true := by
  cases t with
  | bare a =>
    obtain ⟨hne, hv⟩ := ht
    cases a with
    | nil => exact absurd rfl hne
    | cons c r => exact ⟨c, r, rfl, hv c (List.mem_cons_self _ _)⟩
  | plain a v =>
    obtain ⟨⟨hne, hv⟩, _⟩ := ht
    cases a with
    | nil => exact absurd rfl hne
    | cons c r => exact ⟨c, _, rfl, hv c (List.mem_cons_self _ _)⟩
  | quoted a q =>
    obtain ⟨⟨hne, hv⟩, _⟩ := ht
    cases a with
    | nil => exact absurd rfl hne
    | cons c r => exact ⟨c, _, rfl, hv c (List.mem_cons_self _ _)⟩

theorem attribute_tail_head (ts : List (Nat × Attribute)) :
    ∀ c, (attribute_tail ts).head? = some c → c = ' ' := by
  intro c h
  cases ts with
  | nil => simp [attribute_tail] at h
  | cons x xs =>
    obtain ⟨e, t⟩ := x
    simp [attribute_tail] at h
    exact h.symm

/-- One attribute parsed by `parse_node(..., true)`: what is left of the line is the
tail behind it, without its first space when the attribute is a bare name. -/
theorem parse_header_attribute (t : Attribute) (ht : t.well_formed)
    (ts : List (Nat × Attribute)) (after : Bytes) :
    ∃ p, parse_header node_being_parsed.fresh (t.text ++ attribute_tail ts) after true =
        .ok (t.node, p) ∧
      (p = attribute_tail ts ∨ ∃ e t' ts', ts = (e, t') :: ts' ∧
        p = List.replicate e ' ' ++ (t'.text ++ attribute_tail ts')) := by
  cases t with
  | bare a =>
    obtain ⟨hne, hv⟩ := ht
    cases ts with
    | nil =>
      refine ⟨[], ?_, Or.inl rfl⟩
      simp only [Attribute.text, attribute_tail, List.append_nil]
      rw [parse_header_bare _ a after true hne hv]
      rfl
    | cons x xs =>
      obtain ⟨e, t'⟩ := x
      refine ⟨_, ?_, Or.inr ⟨e, t', xs, rfl, rfl⟩⟩
      simp only [Attribute.text, attribute_tail]
      rw [parse_header_space _ a _ after true hne hv]
      rfl
  | plain a v =>
    obtain ⟨⟨hne, hv⟩, hsp, hq⟩ := ht
    refine ⟨_, ?_, Or.inl rfl⟩
    simp only [Attribute.text, List.append_assoc, List.cons_append]
    rw [parse_header_plain _ a v _ after true hne hv hsp hq (attribute_tail_head ts)]
    simp [Attribute.node, Attribute.name, Attribute.data, node_being_parsed.fresh]
  | quoted a q =>
    obtain ⟨⟨hne, hv⟩, hq⟩ := ht
    refine ⟨_, ?_, Or.inl rfl⟩
    simp only [Attribute.text, List.append_assoc, List.cons_append, List.nil_append]
    rw [parse_header_quoted _ a q _ after true hne hv hq]
    simp [Attribute.node, Attribute.name, Attribute.data, node_being_parsed.fresh]

theorem dropWhile_spaces (e : Nat) (c : Char) (r : Bytes) (hc : c ≠ ' ') :
    (List.replicate e ' ' ++ c :: r).dropWhile (fun c => c == ' ') = c :: r := by
  rw [List.dropWhile_append_of_pos]
  · simp [List.dropWhile_cons, hc]
  · intro a ha
    simp [List.eq_of_mem_replicate ha]

theorem comment_follows_name (c : Char) (r after : Bytes) (hc : is_valid_name_char c = true) :
    comment_follows (c :: r) after = .ok false := by
  have h : c ≠ '/' := by
    intro h
    subst h
    exact absurd hc (by decide)
  cases r with
  | nil => rfl
  | cons d r => simp [comment_follows, h]

/-- The attribute loop over a tail of well-formed attributes. -/
theorem parse_attributes_tail (after : Bytes) :
    ∀ (ts : List (Nat × Attribute)), (∀ x ∈ ts, x.2.well_formed) →
    ∀ (e : Nat) (t : Attribute), t.well_formed →
    ∀ (fuel : Nat) (in_node : node_being_parsed),
      (List.replicate e ' ' ++ (t.text ++ attribute_tail ts)).length < fuel →
      parse_attributes fuel in_node (List.replicate e ' ' ++ (t.text ++ attribute_tail ts))
          after =
        .ok ({ in_node with children :=
          in_node.children ++ (t :: ts.map Prod.snd).map Attribute.node }, []) := by
  intro ts
  induction ts with
  | nil =>
    intro _ e t ht fuel in_node hfuel
    obtain ⟨c, r, hcr, hc⟩ := Attribute.text_head t ht
    have hcsp : c ≠ ' ' := by
      intro h
      subst h
      exact absurd hc (by decide)
    obtain ⟨p, hp, hrest⟩ := parse_header_attribute t ht [] after
    have hp_nil : p = [] := by
      rcases hrest with h | ⟨_, _, _, h, _⟩
      · simpa [attribute_tail] using h
      · exact absurd h (by simp)
    subst hp_nil
    cases fuel with
    | zero => exact absurd hfuel (Nat.not_lt_zero _)
    | succ fuel =>
      cases fuel with
      | zero =>
        simp [hcr] at hfuel
      | succ fuel =>
        rw [parse_attributes]
        have hne : List.replicate e ' ' ++ (t.text ++ attribute_tail []) ≠ [] := by
          simp [hcr]
        rw [if_neg hne]
        simp only [hcr, List.cons_append, dropWhile_spaces e c _ hcsp,
          comment_follows_name c _ after hc]
        rw [hcr] at hp
        simp only [List.cons_append] at hp
        rw [hp]
        simp [parse_attributes]
  | cons x xs ih =>
    intro hts e t ht fuel in_node hfuel
    obtain ⟨c, r, hcr, hc⟩ := Attribute.text_head t ht
    have hcsp : c ≠ ' ' := by
      intro h
      subst h
      exact absurd hc (by decide)
    obtain ⟨p, hp, hrest⟩ := parse_header_attribute t ht (x :: xs) after
    obtain ⟨e', t'⟩ := x
    have ht' : t'.well_formed := hts (e', t') (List.mem_cons_self _ _)
    have hxs : ∀ y ∈ xs, y.2.well_formed := fun y hy => hts y (List.mem_cons_of_mem _ hy)
    cases fuel with
    | zero => exact absurd hfuel (Nat.not_lt_zero _)
    | succ fuel =>
      rw [parse_attributes]
      have hne : List.replicate e ' ' ++ (t.text ++ attribute_tail ((e', t') :: xs)) ≠ [] := by
        simp [hcr]
      rw [if_neg hne]
      rw [hcr] at hp
      simp only [List.cons_append] at hp
      simp only [hcr, List.cons_append, dropWhile_spaces e c _ hcsp,
        comment_follows_name c _ after hc, hp]
      have hlen : (t.text ++ attribute_tail ((e', t') :: xs)).length ≤ fuel := by
        simp only [List.length_append, List.length_replicate] at hfuel
        simp only [List.length_append]
        omega
      rcases hrest with h | ⟨e2, t2, ts2, h, h2⟩
      · have hp2 : p = List.replicate (e' + 1) ' ' ++ (t'.text ++ attribute_tail xs) := by
          rw [h]
          simp [attribute_tail, List.replicate_succ]
        rw [hp2, ih hxs (e' + 1) t' ht' fuel _ ?_]
        · simp
        · have : (attribute_tail ((e', t') :: xs)).length =
              (List.replicate (e' + 1) ' ' ++ (t'.text ++ attribute_tail xs)).length := by
            simp [attribute_tail, List.replicate_succ]
          rw [← this]
          simp only [List.length_append, hcr, List.length_cons] at hlen
          omega
      · simp only [List.cons.injEq, Prod.mk.injEq] at h
        obtain ⟨⟨he, ht2⟩, hts2⟩ := h
        subst he ht2 hts2
        rw [h2, ih hxs e' t' ht' fuel _ ?_]
        · simp
        · have : (attribute_tail ((e', t') :: xs)).length =
              (List.replicate e' ' ' ++ (t'.text ++ attribute_tail xs)).length + 1 := by
            simp [attribute_tail]
          simp only [List.length_append, hcr, List.length_cons] at hlen
          simp only [List.length_append] at this ⊢
          omega

/-! ## Bytes of names -/

theorem valid_not_terminator (c : Char) (hc : is_valid_name_char c = true) :
    is_terminator c = false := by
  by_cases h1 : c = '\n'
  · subst h1
    exact absurd hc (by decide)
  · by_cases h2 : c = '\r'
    · subst h2
      exact absurd hc (by decide)
    · simp [is_terminator, h1, h2]

theorem valid_not_blank (c : Char) (hc : is_valid_name_char c = true) :
    (c == ' ' || c == '\t') = false := by
  by_cases h1 : c = ' '
  · subst h1
    exact absurd hc (by decide)
  · by_cases h2 : c = '\t'
    · subst h2
      exact absurd hc (by decide)
    · simp [h1, h2]

theorem valid_not_slash (c : Char) (hc : is_valid_name_char c = true) : c ≠ '/' := by
  intro h
  subst h
  exact absurd hc (by decide)

/-! ## The line scanner on one line delivered in any chunks -/

theorem dropWhile_none (p : Char → Bool) (w : Bytes) (h : ∀ c ∈ w, p c = false) :
    w.dropWhile p = w := by
  cases w with
  | nil => rfl
  | cons c r => simp [List.dropWhile_cons, h c (List.mem_cons_self _ _)]

theorem scan_all (p : Char → Bool) (w : Bytes) (h : ∀ c ∈ w, p c = true) :
    w.takeWhile p = w ∧ w.dropWhile p = [] := by
  have := scan_run p w [] h (by simp)
  simpa using this

/-- The function `read_from_buffer` on a terminator-free window: it hands the window
out when the reader is exhausted, and otherwise appends the next chunk to it in the
vector; when the window lies in the vector it lies at its front, so nothing is moved. -/
theorem read_from_buffer_run (reader : List Bytes) (vec acc : Bytes) (buf : Window)
    (hbuf : (buf = .chunk acc) ∨ (buf = .own 0 ∧ vec = acc))
    (hacc : ∀ c ∈ acc, is_terminator c = false) (hreader : ∀ c ∈ reader, c ≠ []) :
    read_from_buffer ⟨reader, vec, buf⟩ =
      match reader with
      | [] => (some ⟨acc, []⟩, ⟨[], acc, .null⟩)
      | c :: rest => (none, ⟨rest, acc ++ c, .own 0⟩) := by
  have hwin : (⟨reader, vec, buf⟩ : line_getter).window = acc := by
    rcases hbuf with h | ⟨h, hv⟩
    · simp [line_getter.window, h]
    · simp [line_getter.window, h, hv]
  have hacc' : ∀ c ∈ acc, (fun c => !is_terminator c) c = true := by
    intro c hc
    simp [hacc c hc]
  obtain ⟨h1, h2⟩ := scan_all (fun c => !is_terminator c) acc hacc'
  simp only [read_from_buffer, hwin, dropWhile_none is_terminator acc hacc, h1, h2, ne_eq,
    not_true_eq_false, if_false]
  rcases hbuf with h | ⟨h, hv⟩
  · subst h
    cases reader with
    | nil => simp [read_more]
    | cons c rest =>
      have hc : c ≠ [] := hreader c (List.mem_cons_self _ _)
      simp [read_more, hc]
  · subst h hv
    cases reader with
    | nil => simp [read_more]
    | cons c rest =>
      have hc : c ≠ [] := hreader c (List.mem_cons_self _ _)
      simp [read_more, hc]

theorem read_loop_run :
    ∀ (reader : List Bytes) (vec acc : Bytes) (buf : Window) (fuel : Nat),
      ((buf = .chunk acc) ∨ (buf = .own 0 ∧ vec = acc)) →
      (∀ c ∈ acc, is_terminator c = false) →
      (∀ c ∈ reader, c ≠ [] ∧ ∀ x ∈ c, is_terminator x = false) →
      reader.length < fuel →
      read_loop fuel ⟨reader, vec, buf⟩ =
        .ok (⟨acc ++ reader.flatten, []⟩, ⟨[], acc ++ reader.flatten, .null⟩) := by
  intro reader
  induction reader with
  | nil =>
    intro vec acc buf fuel hbuf hacc _ hfuel
    cases fuel with
    | zero => exact absurd hfuel (Nat.lt_irrefl _)
    | succ fuel =>
      rw [read_loop, read_from_buffer_run [] vec acc buf hbuf hacc (by simp)]
      simp
  | cons c rest ih =>
    intro vec acc buf fuel hbuf hacc hreader hfuel
    cases fuel with
    | zero => exact absurd hfuel (Nat.not_lt_zero _)
    | succ fuel =>
      rw [read_loop, read_from_buffer_run (c :: rest) vec acc buf hbuf hacc
        (fun x hx => (hreader x hx).1)]
      simp only
      have hc := hreader c (List.mem_cons_self _ _)
      rw [ih (acc ++ c) (acc ++ c) (.own 0) fuel (Or.inr ⟨rfl, rfl⟩) ?_
        (fun x hx => hreader x (List.mem_cons_of_mem _ hx)) ?_]
      · simp
      · intro x hx
        rcases List.mem_append.mp hx with h | h
        · exact hacc x h
        · exact hc.2 x h
      · simp only [List.length_cons] at hfuel
        omega

/-- A terminator-free line that starts with a name character, delivered in any
non-empty chunks, is handed out as the one line of the input. -/
theorem all_lines_single_line (chunks : List Bytes) (c : Char) (r : Bytes)
    (hchunks : ∀ x ∈ chunks, x ≠ []) (hflat : chunks.flatten = c :: r)
    (hc : is_valid_name_char c = true) (hr : ∀ x ∈ r, is_terminator x = false) :
    all_lines chunks = .ok [⟨c :: r, []⟩] := by
  have hline : ∀ x ∈ c :: r, is_terminator x = false := by
    intro x hx
    rcases List.mem_cons.mp hx with h | h
    · subst h
      exact valid_not_terminator x hc
    · exact hr x h
  have hcom : is_comment (c :: r) = false := by
    cases r with
    | nil => rfl
    | cons d r => simp [is_comment, valid_not_slash c hc]
  cases chunks with
  | nil => simp at hflat
  | cons c1 rest =>
    have hc1 : c1 ≠ [] := hchunks c1 (List.mem_cons_self _ _)
    have hall : ∀ x ∈ c1 :: rest, ∀ y ∈ x, is_terminator y = false := by
      intro x hx y hy
      apply hline
      rw [← hflat]
      exact List.mem_flatten.mpr ⟨x, hx, hy⟩
    have hloop := read_loop_run rest [] c1 (.chunk c1) (rest.length + 1) (Or.inl rfl)
      (hall c1 (List.mem_cons_self _ _))
      (fun x hx => ⟨hchunks x (List.mem_cons_of_mem _ hx),
        hall x (List.mem_cons_of_mem _ hx)⟩) (Nat.lt_succ_self _)
    have hflat' : c1 ++ rest.flatten = c :: r := by simpa using hflat
    rw [hflat'] at hloop
    have hpend : (line_getter.init (c1 :: rest)).pending = (c :: r).length := by
      simp only [line_getter.pending, line_getter.init, line_getter.window, List.length_nil,
        Nat.zero_add]
      rw [← hflat, List.length_flatten]
    have hfirst : get_line (line_getter.init (c1 :: rest)) =
        .ok (⟨c :: r, []⟩, ⟨[], c :: r, .null⟩) := by
      rw [get_line, hpend]
      simp only [List.length_cons, get_line_loop, line_getter.init, clean_up,
        line_getter.window, read_more, hc1, if_true, if_false, hloop, hcom,
        Bool.false_eq_true]
    have hsecond : get_line ⟨[], c :: r, .null⟩ = .ok (⟨[], []⟩, ⟨[], c :: r, .chunk []⟩) := by
      rw [get_line]
      exact get_line_loop_done _ _ _ (Or.inl rfl)
    rw [all_lines, hpend]
    simp only [List.length_cons, get_lines, hfirst, reduceCtorEq, if_false]
    cases hr' : r.length with
    | zero =>
      have := List.length_eq_zero.mp hr'
      subst this
      simp only [get_lines, hsecond, if_true]
    | succ k =>
      simp only [get_lines, hsecond, if_true]

/-- The document of a single terminator-free line that starts with a name character,
delivered in any non-empty chunks: one root, the closed node of the line. -/
theorem document_single_line (chunks : List Bytes) (c : Char) (r : Bytes) (max_depth : Nat)
    (in_node : node_being_parsed) (p : Bytes)
    (hchunks : ∀ x ∈ chunks, x ≠ []) (hflat : chunks.flatten = c :: r)
    (hc : is_valid_name_char c = true) (hr : ∀ x ∈ r, is_terminator x = false)
    (hd : 1 ≤ max_depth)
    (hp : parse_node node_being_parsed.fresh (c :: r) [] false = .ok (in_node, p)) :
    document chunks max_depth = .ok (cook_nodes [close_node in_node]) := by
  have hind : parse_indentation (c :: r) = (0, c :: r) := by
    simp [parse_indentation, List.takeWhile_cons, List.dropWhile_cons, valid_not_blank c hc]
  have hfresh : ({ node_being_parsed.fresh with indentation_level := 0 } : node_being_parsed) =
      node_being_parsed.fresh := rfl
  have hdepth : ¬ (1 > max_depth) := by omega
  simp [document, all_lines_single_line chunks c r hchunks hflat hc hr, document_of_lines,
    document_nodes, document_loop, document_line, hind, hfresh, hp, hdepth, document_finish,
    close_all]

/-! ## Trailing comments -/

theorem scan_append_stop (p : Char → Bool) (ys : Bytes)
    (hy : ∀ c, ys.head? = some c → p c = false) :
    ∀ xs : Bytes, (xs ++ ys).takeWhile p = xs.takeWhile p ∧
      (xs ++ ys).dropWhile p = xs.dropWhile p ++ ys := by
  intro xs
  induction xs with
  | nil =>
    cases ys with
    | nil => simp
    | cons y ys =>
      have := hy y rfl
      simp [List.takeWhile_cons, List.dropWhile_cons, this]
  | cons x xs ih =>
    by_cases hx : p x = true
    · simp [List.takeWhile_cons, List.dropWhile_cons, hx, ih.1, ih.2]
    · simp [List.takeWhile_cons, List.dropWhile_cons, hx]

theorem scan_append_found (p : Char → Bool) (xs ys : Bytes) (h : xs.dropWhile p ≠ []) :
    (xs ++ ys).takeWhile p = xs.takeWhile p ∧
      (xs ++ ys).dropWhile p = xs.dropWhile p ++ ys := by
  induction xs with
  | nil => simp at h
  | cons x xs ih =>
    by_cases hx : p x = true
    · rw [List.dropWhile_cons_of_pos hx] at h
      simp [List.takeWhile_cons, List.dropWhile_cons, hx, (ih h).1, (ih h).2]
    · simp [List.takeWhile_cons, List.dropWhile_cons, hx]

theorem parse_data_length (in_node : node_being_parsed) (p0 : Bytes) (attr : Bool)
    (r : node_being_parsed × Bytes) (h : parse_data in_node p0 attr = .ok r) :
    r.2.length ≤ p0.length := by
  unfold parse_data at h
  cases p0 with
  | nil =>
    simp only [Except.ok.injEq] at h
    subst h
    simp
  | cons c q =>
    simp only at h
    split at h
    · cases q with
      | nil =>
        simp only [Except.ok.injEq] at h
        subst h
        simp
      | cons q0 p1 =>
        simp only at h
        split at h
        · split at h
          · exact absurd h (by simp)
          · rename_i x p2 hp2
            simp only [Except.ok.injEq] at h
            subst h
            have := dropWhile_length_le (fun c => c != '"') p1
            rw [hp2] at this
            simp only [List.length_cons] at this ⊢
            omega
        · simp only [Except.ok.injEq] at h
          subst h
          have := dropWhile_length_le (fun c => c != ' ') (q0 :: p1)
          simp only [List.length_cons] at this ⊢
          omega
    · split at h
      · simp only [Except.ok.injEq] at h
        subst h
        simp
      · split at h
        · simp only [Except.ok.injEq] at h
          subst h
          simp
        · simp only [Except.ok.injEq] at h
          subst h
          simp

theorem parse_header_length (in_node : node_being_parsed) (begin after : Bytes) (attr : Bool)
    (r : node_being_parsed × Bytes) (h : parse_header in_node begin after attr = .ok r) :
    r.2.length < begin.length := by
  unfold parse_header at h
  cases begin with
  | nil =>
    simp only at h
    cases after with
    | nil => exact absurd h (by simp)
    | cons c _ =>
      simp only at h
      split at h <;> exact absurd h (by simp)
  | cons c rest =>
    simp only at h
    split at h
    · exact absurd h (by simp)
    · have h1 := parse_data_length _ _ _ _ h
      have h2 := dropWhile_length_le is_valid_name_char rest
      simp only [List.length_cons]
      omega

/-- The data chain on a line that got a trailing comment appended: same node, and the
comment is left over (with its space unless the space was taken as the one behind a
bare name). -/
theorem parse_data_comment (in_node : node_being_parsed) (p0 t : Bytes) (attr : Bool)
    (r : node_being_parsed × Bytes) (h : parse_data in_node p0 attr = .ok r)
    (hcolon : p0.head? ≠ some ':') :
    ∃ p', parse_data in_node (p0 ++ ' ' :: '/' :: '/' :: t) attr = .ok (r.1, p') ∧
      (p' = r.2 ++ ' ' :: '/' :: '/' :: t ∨ (r.2 = [] ∧ p' = '/' :: '/' :: t)) := by
  unfold parse_data at h
  cases p0 with
  | nil =>
    simp only [Except.ok.injEq] at h
    subst h
    exact ⟨_, by simp [parse_data], Or.inr ⟨rfl, rfl⟩⟩
  | cons c q =>
    simp only at h
    by_cases hc : c = '='
    · subst hc
      simp only [if_true] at h
      cases q with
      | nil =>
        simp only [Except.ok.injEq] at h
        subst h
        exact ⟨_, by simp [parse_data, List.takeWhile_cons, List.dropWhile_cons], Or.inl rfl⟩
      | cons q0 p1 =>
        simp only at h
        by_cases hq : q0 = '"'
        · subst hq
          simp only [if_true] at h
          split at h
          · exact absurd h (by simp)
          · rename_i x p2 hp2
            simp only [Except.ok.injEq] at h
            subst h
            have hne : p1.dropWhile (fun c => c != '"') ≠ [] := by simp [hp2]
            obtain ⟨h1, h2⟩ := scan_append_found (fun c => c != '"') p1
              (' ' :: '/' :: '/' :: t) hne
            refine ⟨_, ?_, Or.inl rfl⟩
            simp only [parse_data, List.cons_append, if_true, h1, h2, hp2]
        · simp only [hq, if_false, Except.ok.injEq] at h
          subst h
          obtain ⟨h1, h2⟩ := scan_append_stop (fun c => c != ' ') (' ' :: '/' :: '/' :: t)
            (by simp) (q0 :: p1)
          refine ⟨_, ?_, Or.inl rfl⟩
          simp only [List.cons_append] at h1 h2
          simp only [parse_data, List.cons_append, if_true, hq, if_false, h1, h2]
    · by_cases hc2 : c = ':'
      · subst hc2
        exact absurd rfl hcolon
      · by_cases hc3 : c = ' '
        · subst hc3
          simp only [hc, hc2, if_false, if_true, Except.ok.injEq] at h
          subst h
          exact ⟨_, by simp [parse_data], Or.inl rfl⟩
        · simp only [hc, hc2, hc3, if_false, Except.ok.injEq] at h
          subst h
          exact ⟨_, by simp [parse_data, hc, hc2, hc3], Or.inl rfl⟩

/-- The header parser on a line that got a trailing comment appended. -/
theorem parse_header_comment (in_node : node_being_parsed) (line t after after' : Bytes)
    (attr : Bool) (r : node_being_parsed × Bytes)
    (h : parse_header in_node line after attr = .ok r)
    (hcolon : takes_colon_data line = false) :
    ∃ p', parse_header in_node (line ++ ' ' :: '/' :: '/' :: t) after' attr = .ok (r.1, p') ∧
      (p' = r.2 ++ ' ' :: '/' :: '/' :: t ∨ (r.2 = [] ∧ p' = '/' :: '/' :: t)) := by
  unfold parse_header at h
  cases line with
  | nil =>
    simp only at h
    cases after with
    | nil => exact absurd h (by simp)
    | cons c _ =>
      simp only at h
      split at h <;> exact absurd h (by simp)
  | cons c rest =>
    simp only at h
    by_cases hc : is_valid_name_char c = true
    · simp only [hc, Bool.not_true, Bool.false_eq_true, if_false] at h
      have hcolon' : (rest.dropWhile is_valid_name_char).head? ≠ some ':' := by
        simpa [takes_colon_data] using hcolon
      obtain ⟨p', hp', hrest⟩ := parse_data_comment _ _ t attr r h hcolon'
      obtain ⟨h1, h2⟩ := scan_append_stop is_valid_name_char (' ' :: '/' :: '/' :: t)
        (by simp; decide) rest
      refine ⟨p', ?_, hrest⟩
      simp only [List.cons_append, parse_header, hc, Bool.not_true, Bool.false_eq_true,
        if_false, h1, h2]
      exact hp'
    · simp [hc] at h

theorem parse_data_rest (in1 in2 : node_being_parsed) (p0 : Bytes) (attr : Bool) :
    (parse_data in1 p0 attr).map Prod.snd = (parse_data in2 p0 attr).map Prod.snd := by
  unfold parse_data
  cases p0 with
  | nil => rfl
  | cons c q =>
    simp only
    by_cases hc : c = '='
    · simp only [hc, if_true]
      cases q with
      | nil => rfl
      | cons q0 p1 =>
        simp only
        by_cases hq : q0 = '"'
        · simp only [hq, if_true]
          cases p1.dropWhile (fun c => c != '"') with
          | nil => rfl
          | cons x p2 => rfl
        · simp only [hq, if_false]
          rfl
    · by_cases hc2 : c = ':'
      · simp only [hc, hc2, if_false, if_true]
        rfl
      · by_cases hc3 : c = ' '
        · simp only [hc, hc2, hc3, if_false, if_true]
          rfl
        · simp only [hc, hc2, hc3, if_false]
          rfl

theorem parse_header_rest (in1 in2 : node_being_parsed) (line after : Bytes) (attr : Bool)
    (r : node_being_parsed × Bytes) (h : parse_header in1 line after attr = .ok r) :
    ∃ n, parse_header in2 line after attr = .ok (n, r.2) := by
  have hmap : (parse_header in1 line after attr).map Prod.snd =
      (parse_header in2 line after attr).map Prod.snd := by
    unfold parse_header
    cases line with
    | nil => rfl
    | cons c rest =>
      simp only
      by_cases hc : is_valid_name_char c = true
      · simp only [hc, Bool.not_true, Bool.false_eq_true, if_false]
        exact parse_data_rest _ _ _ _
      · simp [hc]
  rw [h] at hmap
  cases h2 : parse_header in2 line after attr with
  | error e =>
    rw [h2] at hmap
    exact absurd hmap (by simp [Except.map])
  | ok r2 =>
    rw [h2] at hmap
    simp only [Except.map, Except.ok.injEq] at hmap
    exact ⟨r2.1, by rw [hmap]⟩

theorem parse_attributes_at_comment (fuel : Nat) (in_node : node_being_parsed)
    (t after : Bytes) :
    parse_attributes (fuel + 1) in_node ('/' :: '/' :: t) after = .ok (in_node, []) := by
  simp [parse_attributes, List.dropWhile_cons, comment_follows]

theorem parse_attributes_spaces_comment (fuel : Nat) (in_node : node_being_parsed)
    (sp t after : Bytes) (hsp : ∀ c ∈ sp, c = ' ') :
    parse_attributes (fuel + 1) in_node (sp ++ ' ' :: '/' :: '/' :: t) after =
      .ok (in_node, []) := by
  have hd : (sp ++ ' ' :: '/' :: '/' :: t).dropWhile (fun c => c == ' ') = '/' :: '/' :: t := by
    rw [List.dropWhile_append_of_pos (by intro c hc; simp [hsp c hc])]
    simp [List.dropWhile_cons]
  rw [parse_attributes, if_neg (by simp)]
  simp only [hd]
  simp [comment_follows]

theorem comment_follows_append (c : Char) (ps t after after' : Bytes) :
    comment_follows (c :: ps ++ ' ' :: '/' :: '/' :: t) after' =
      comment_follows (c :: ps) after := by
  cases ps with
  | nil => simp [comment_follows]
  | cons d ps => simp [comment_follows]

/-- The attribute loop on a line that got a trailing comment appended. -/
theorem parse_attributes_comment (t after after' : Bytes) :
    ∀ (fuel : Nat) (in_node : node_being_parsed) (p : Bytes) (r : node_being_parsed × Bytes),
      parse_attributes fuel in_node p after = .ok r →
      attribute_takes_colon_data fuel p after = false →
      ∀ fuel', (p ++ ' ' :: '/' :: '/' :: t).length < fuel' →
        parse_attributes fuel' in_node (p ++ ' ' :: '/' :: '/' :: t) after' = .ok r := by
  intro fuel
  induction fuel with
  | zero =>
    intro in_node p r h
    simp [parse_attributes] at h
  | succ fuel ih =>
    intro in_node p r h hcolon fuel' hfuel'
    cases fuel' with
    | zero => exact absurd hfuel' (Nat.not_lt_zero _)
    | succ f' =>
      rw [parse_attributes] at h
      rw [attribute_takes_colon_data] at hcolon
      by_cases hp : p = []
      · subst hp
        simp only [if_true, Except.ok.injEq] at h
        subst h
        exact parse_attributes_spaces_comment f' in_node [] t after' (by simp)
      · simp only [hp, if_false] at h hcolon
        cases hps : p.dropWhile (fun c => c == ' ') with
        | nil =>
          have hall : ∀ c ∈ p, c = ' ' := by
            intro c hc
            have := List.dropWhile_eq_nil_iff.mp hps c hc
            simpa using this
          rw [hps] at h
          have hr : r = (in_node, []) := by
            cases hcf : comment_follows [] after with
            | error e => rw [hcf] at h; exact absurd h (by simp)
            | ok b =>
              rw [hcf] at h
              cases b with
              | true => simp only [Except.ok.injEq] at h; exact h.symm
              | false =>
                simp only at h
                cases hph : parse_header node_being_parsed.fresh [] after true with
                | error e => rw [hph] at h; exact absurd h (by simp)
                | ok x =>
                  have := parse_header_length _ _ _ _ _ hph
                  exact absurd this (Nat.not_lt_zero _)
          rw [hr]
          exact parse_attributes_spaces_comment f' in_node p t after' hall
        | cons c ps =>
          rw [hps] at h hcolon
          have hne : p.dropWhile (fun c => c == ' ') ≠ [] := by simp [hps]
          have hdrop := (scan_append_found (fun c => c == ' ') p (' ' :: '/' :: '/' :: t) hne).2
          rw [hps] at hdrop
          rw [parse_attributes, if_neg (by simp)]
          simp only [hdrop]
          rw [comment_follows_append c ps t after after']
          cases hcf : comment_follows (c :: ps) after with
          | error e => rw [hcf] at h; exact absurd h (by simp)
          | ok b =>
            rw [hcf] at h hcolon
            cases b with
            | true => simpa using h
            | false =>
              simp only at h hcolon ⊢
              cases hph : parse_header node_being_parsed.fresh (c :: ps) after true with
              | error e => rw [hph] at h; exact absurd h (by simp)
              | ok x =>
                obtain ⟨child, q⟩ := x
                rw [hph] at h hcolon
                simp only [Bool.or_eq_false_iff] at h hcolon
                obtain ⟨hc1, hc2⟩ := hcolon
                obtain ⟨q', hq', hrest⟩ := parse_header_comment _ _ t after after' true _ hph hc1
                rw [hq']
                simp only
                have hqlen := parse_header_length _ _ _ _ _ hph
                have hpslen := dropWhile_length_le (fun c => c == ' ') p
                rw [hps] at hpslen
                simp only [List.length_append, List.length_cons] at hfuel' hqlen hpslen
                rcases hrest with hq2 | ⟨hq2, hq3⟩
                · simp only at hq2
                  rw [hq2]
                  apply ih _ _ _ h hc2
                  simp only [List.length_append, List.length_cons]
                  omega
                · simp only at hq2 hq3
                  subst hq2 hq3
                  cases fuel with
                  | zero => simp [parse_attributes] at h
                  | succ fuel =>
                    rw [parse_attributes_nil] at h
                    cases f' with
                    | zero => omega
                    | succ f'' =>
                      rw [parse_attributes_at_comment]
                      exact h

theorem close_node_spurious (n d : Bytes) (level : Nat) (cs : List node_being_parsed) :
    close_node ⟨n, d ++ ['\n'], level, cs⟩ = ⟨n, d, level, cs⟩ := by
  simp [close_node]

/-! ## Data continuation -/

theorem parse_indentation_blank (ws rest : Bytes) (hws : ∀ c ∈ ws, c = ' ' ∨ c = '\t')
    (hr : ∀ c, rest.head? = some c → (c == ' ' || c == '\t') = false) :
    parse_indentation (ws ++ rest) = (ws.length, rest) := by
  have hws' : ∀ c ∈ ws, (fun c => c == ' ' || c == '\t') c = true := by
    intro c hc
    rcases hws c hc with h | h <;> simp [h]
  obtain ⟨h1, h2⟩ := scan_run (fun c => c == ' ' || c == '\t') ws rest hws' hr
  simp only [parse_indentation, h1, h2]

theorem parse_node_colon (in_node : node_being_parsed) (n d after : Bytes)
    (hne : n ≠ []) (hn : ∀ c ∈ n, is_valid_name_char c = true) :
    parse_node in_node (n ++ ':' :: d) after false =
      .ok ({ in_node with name := n, data := d ++ ['\n'] }, []) := by
  simp only [parse_node, parse_header_colon _ n d after false hne hn]
  simp [parse_attributes]

theorem intercalate_spurious (d0 : Bytes) (ds : List Bytes) :
    (d0 ++ ['\n']) ++ (ds.map (fun d => d ++ ['\n'])).flatten =
      (['\n'] : Bytes).intercalate (d0 :: ds) ++ ['\n'] := by
  induction ds generalizing d0 with
  | nil => simp [List.intercalate]
  | cons d ds ih =>
    have h := ih d
    simp only [List.intercalate, List.intersperse, List.flatten, List.map_cons,
      List.append_assoc] at h ⊢
    rw [h]

/-- Continuation lines under an open node: each appends its text and a line break to the
data of the most recent node and leaves everything else as it is. -/
theorem document_loop_continuation (max_depth : Nat) (k : Bytes) (level : Nat)
    (cs below docs : List node_being_parsed)
    (hdepth : (below.length + 1) ≤ max_depth) :
    ∀ (conts : List (Bytes × Bytes × Bytes)) (data : Bytes),
      (∀ x ∈ conts, (∀ c ∈ x.1, c = ' ' ∨ c = '\t') ∧ level < x.1.length) →
      document_loop max_depth ⟨⟨k, data, level, cs⟩ :: below, docs⟩
          (conts.map fun x => ⟨x.1 ++ ':' :: x.2.1, x.2.2⟩) =
        .ok ⟨⟨k, data ++ (conts.map (fun x => x.2.1 ++ ['\n'])).flatten, level, cs⟩ :: below,
          docs⟩ := by
  intro conts
  induction conts with
  | nil =>
    intro data _
    simp [document_loop]
  | cons x xs ih =>
    intro data hx
    obtain ⟨hws, hlevel⟩ := hx x (List.mem_cons_self _ _)
    have hind := parse_indentation_blank x.1 (':' :: x.2.1) hws (by simp)
    have h1 : ¬ (x.1.length < level) := by omega
    have h2 : ¬ (max_depth < below.length + 1) := by omega
    simp only [List.map_cons, document_loop, document_line, hind]
    simp only [reduceCtorEq, if_false, h1, gt_iff_lt, hlevel, if_true, List.head?_cons,
      List.tail_cons, parse_datacont, List.length_cons, h2]
    rw [ih _ (fun y hy => hx y (List.mem_cons_of_mem _ hy))]
    simp [List.append_assoc]

/-- A node line `k:d0` that `document_line` accepts leaves the node of the line on top
of the open nodes. -/
theorem document_line_colon (max_depth : Nat) (v v1 : Vectors) (ws k d0 after : Bytes)
    (hws : ∀ c ∈ ws, c = ' ' ∨ c = '\t')
    (hne : k ≠ []) (hk : ∀ c ∈ k, is_valid_name_char c = true)
    (hline : document_line max_depth v ⟨ws ++ (k ++ ':' :: d0), after⟩ = .ok v1) :
    ∃ below, v1.open_nodes = ⟨k, d0 ++ ['\n'], ws.length, []⟩ :: below ∧
      below.length + 1 ≤ max_depth := by
  obtain ⟨c, k', hck⟩ : ∃ c k', k = c :: k' := by
    cases k with
    | nil => exact absurd rfl hne
    | cons c k' => exact ⟨c, k', rfl⟩
  have hc : is_valid_name_char c = true := hk c (by simp [hck])
  have hind := parse_indentation_blank ws (k ++ ':' :: d0) hws
    (by intro x hx; simp [hck] at hx; subst hx; exact valid_not_blank _ hc)
  have hhead : (k ++ ':' :: d0).head? ≠ some ':' := by
    simp only [hck, List.cons_append, List.head?_cons, ne_eq, Option.some.injEq]
    intro h
    subst h
    exact absurd hc (by decide)
  have hnil : k ++ ':' :: d0 ≠ [] := by simp
  simp only [document_line, hind, hnil, if_false, parse_node_colon _ k d0 after hne hk] at hline
  cases hopen : v.open_nodes with
  | nil =>
    simp only [hopen] at hline
    by_cases hl : ws.length = 0
    · simp only [hl, ne_eq, not_true_eq_false, if_false, List.length_singleton] at hline
      split at hline
      · exact absurd hline (by simp)
      · simp only [Except.ok.injEq] at hline
        subst hline
        exact ⟨[], by simp [node_being_parsed.fresh, hl], by simp; omega⟩
    · simp [hl] at hline
  | cons recent below =>
    simp only [hopen] at hline
    by_cases h1 : ws.length < recent.indentation_level
    · simp only [h1, if_true] at hline
      generalize close_ancestors ws.length recent below v.document_nodes = res at hline
      obtain ⟨target_level, below', docs⟩ := res
      simp only at hline
      by_cases h2 : ws.length = target_level
      · simp only [h2, ne_eq, not_true_eq_false, if_false] at hline
        split at hline
        · exact absurd hline (by simp)
        · rename_i hd
          simp only [Except.ok.injEq] at hline
          subst hline
          refine ⟨below', by simp [node_being_parsed.fresh, h2], ?_⟩
          simp only [List.length_cons] at hd
          omega
      · simp [h2] at hline
    · simp only [h1, if_false] at hline
      by_cases h3 : ws.length > recent.indentation_level
      · simp only [h3, if_true, hhead, if_false] at hline
        split at hline
        · exact absurd hline (by simp)
        · rename_i hd
          simp only [Except.ok.injEq] at hline
          subst hline
          refine ⟨recent :: below, by simp [node_being_parsed.fresh], ?_⟩
          simp only [List.length_cons] at hd ⊢
          omega
      · simp only [h3, if_false] at hline
        have heq : recent.indentation_level = ws.length := by omega
        split at hline
        · exact absurd hline (by simp)
        · rename_i hd
          simp only [Except.ok.injEq] at hline
          subst hline
          cases below with
          | nil =>
            refine ⟨[], by simp [moved_from, node_being_parsed.fresh, heq], ?_⟩
            simp only [List.length_cons] at hd ⊢
            omega
          | cons parent rest =>
            refine ⟨_, by simp [moved_from, node_being_parsed.fresh, heq]; rfl, ?_⟩
            simp only [List.length_cons] at hd ⊢
            omega

/-! ## Comment lines -/

/-- What follows a line inside its buffer is `benign` when it is empty or starts with a
line terminator. -/
theorem split_lines_after (w : Bytes) :
    ∀ cur, ∀ l ∈ split_lines w cur, ∀ c, l.after.head? = some c → is_terminator c = true := by
  induction w with
  | nil =>
    intro cur l hl c hc
    by_cases h : cur = []
    · simp [split_lines, h] at hl
    · simp only [split_lines, h, if_false, List.mem_singleton] at hl
      subst hl
      simp at hc
  | cons x xs ih =>
    intro cur l hl c hc
    simp only [split_lines] at hl
    by_cases hx : is_terminator x = true
    · by_cases h : cur = []
      · simp only [hx, h, if_true] at hl
        exact ih [] l hl c hc
      · simp only [hx, h, if_true, if_false, List.mem_cons] at hl
        rcases hl with hl | hl
        · subst hl
          simp only [List.head?_cons, Option.some.injEq] at hc
          subst hc
          exact hx
        · exact ih [] l hl c hc
    · simp only [hx, Bool.false_eq_true, if_false] at hl
      exact ih _ l hl c hc

/-- The texts of the runs of `a ++ t :: b`, `t` a terminator: those of `a`, then those
of `b`. -/
theorem split_lines_texts (t : Char) (ht : is_terminator t = true) (b : Bytes) :
    ∀ (a cur : Bytes), (split_lines (a ++ t :: b) cur).map Line.text =
      (split_lines a cur).map Line.text ++ (split_lines b []).map Line.text := by
  intro a
  induction a with
  | nil =>
    intro cur
    by_cases h : cur = []
    · simp [split_lines, ht, h]
    · simp [split_lines, ht, h]
  | cons x xs ih =>
    intro cur
    by_cases hx : is_terminator x = true
    · by_cases h : cur = []
      · simp only [List.cons_append, split_lines, hx, h, if_true]
        exact ih []
      · simp only [List.cons_append, split_lines, hx, h, if_true, if_false, List.map_cons,
          List.cons_append, List.cons.injEq, true_and]
        exact ih []
    · simp only [List.cons_append, split_lines, hx, Bool.false_eq_true, if_false]
      exact ih _

theorem logical_lines_texts (w : Bytes) :
    (logical_lines w).map Line.text =
      ((split_lines w []).map Line.text).filter (fun s => !is_comment s) := by
  simp only [logical_lines, List.filter_map, Function.comp_def]

theorem logical_lines_after (w : Bytes) :
    ∀ l ∈ logical_lines w, ∀ c, l.after.head? = some c → is_terminator c = true := by
  intro l hl
  exact split_lines_after w [] l (List.mem_filter.mp hl).1

theorem split_lines_comment (c : Bytes) (hc : ∀ x ∈ c, is_terminator x = false) :
    (split_lines ('/' :: '/' :: c) []).map Line.text = ['/' :: '/' :: c] := by
  have hrun : ∀ x ∈ '/' :: '/' :: c, is_terminator x = false := by
    intro x hx
    simp only [List.mem_cons] at hx
    rcases hx with h | h | h
    · subst h; decide
    · subst h; decide
    · exact hc x h
  have h := split_lines_run ('/' :: '/' :: c) hrun [] [] (by simp)
  simp only [List.append_nil, List.nil_append] at h
  simp [h]

/-- Inserting a line that begins with `//` at the start of a line of the input, or
after its end, leaves the texts of the logical lines as they are. -/
theorem logical_lines_insert_comment (pre post c : Bytes) (t : Char)
    (hc : ∀ x ∈ c, is_terminator x = false) (ht : is_terminator t = true)
    (hpre : pre = [] ∨ ∃ pre' t0, pre = pre' ++ [t0] ∧ is_terminator t0 = true) :
    (logical_lines (pre ++ ('/' :: '/' :: c ++ t :: post))).map Line.text =
        (logical_lines (pre ++ post)).map Line.text ∧
      (logical_lines (pre ++ post ++ t :: '/' :: '/' :: c)).map Line.text =
        (logical_lines (pre ++ post)).map Line.text := by
  have hcom : is_comment ('/' :: '/' :: c) = true := by simp [is_comment]
  constructor
  · rw [logical_lines_texts, logical_lines_texts]
    rcases hpre with h | ⟨pre', t0, h, ht0⟩
    · subst h
      simp only [List.nil_append]
      rw [split_lines_texts t ht post ('/' :: '/' :: c) [], split_lines_comment c hc]
      simp [hcom]
    · subst h
      have e1 : pre' ++ [t0] ++ ('/' :: '/' :: c ++ t :: post) =
          pre' ++ t0 :: ('/' :: '/' :: c ++ t :: post) := by simp
      have e2 : pre' ++ [t0] ++ post = pre' ++ t0 :: post := by simp
      rw [e1, e2, split_lines_texts t0 ht0 _ pre' [], split_lines_texts t0 ht0 _ pre' [],
        split_lines_texts t ht post ('/' :: '/' :: c) [], split_lines_comment c hc]
      simp [hcom]
  · rw [logical_lines_texts, logical_lines_texts]
    rw [split_lines_texts t ht ('/' :: '/' :: c) (pre ++ post) [], split_lines_comment c hc]
    simp [hcom]

theorem comment_follows_cons (c : Char) (q a a' : Bytes) :
    comment_follows (c :: q) a = comment_follows (c :: q) a' := by
  cases q <;> rfl

theorem parse_header_cons (in_node : node_being_parsed) (c : Char) (q a a' : Bytes)
    (attr : Bool) :
    parse_header in_node (c :: q) a attr = parse_header in_node (c :: q) a' attr := rfl

theorem terminator_not_slash (c : Char) (hc : is_terminator c = true) : c ≠ '/' := by
  intro h
  subst h
  exact absurd hc (by decide)

/-- A successful run of the attribute loop has not looked behind the end of the line, as
long as the line is followed by nothing or by a terminator. -/
theorem parse_attributes_after (a a' : Bytes)
    (ha : ∀ c, a.head? = some c → is_terminator c = true) :
    ∀ (fuel : Nat) (in_node : node_being_parsed) (p : Bytes) (r : node_being_parsed × Bytes),
      parse_attributes fuel in_node p a = .ok r → parse_attributes fuel in_node p a' = .ok r := by
  intro fuel
  induction fuel with
  | zero =>
    intro in_node p r h
    simp [parse_attributes] at h
  | succ fuel ih =>
    intro in_node p r h
    rw [parse_attributes] at h ⊢
    by_cases hp : p = []
    · simpa [hp] using h
    · simp only [hp, if_false] at h ⊢
      cases hps : p.dropWhile (fun c => c == ' ') with
      | nil =>
        rw [hps] at h
        exfalso
        cases a with
        | nil => simp [comment_follows] at h
        | cons t a1 =>
          have ht := terminator_not_slash t (ha t rfl)
          simp only [comment_follows, ht, if_false] at h
          cases hph : parse_header node_being_parsed.fresh [] (t :: a1) true with
          | error e => rw [hph] at h; exact absurd h (by simp)
          | ok x =>
            have := parse_header_length _ _ _ _ _ hph
            exact absurd this (Nat.not_lt_zero _)
      | cons c q =>
        rw [hps] at h
        rw [comment_follows_cons c q a' a, parse_header_cons _ c q a' a]
        cases hcf : comment_follows (c :: q) a with
        | error e => rw [hcf] at h; exact absurd h (by simp)
        | ok b =>
          rw [hcf] at h
          cases b with
          | true => simpa using h
          | false =>
            simp only at h ⊢
            cases hph : parse_header node_being_parsed.fresh (c :: q) a true with
            | error e => rw [hph] at h; exact absurd h (by simp)
            | ok x =>
              rw [hph] at h
              exact ih _ _ _ h

theorem parse_node_after (a a' : Bytes)
    (ha : ∀ c, a.head? = some c → is_terminator c = true)
    (in_node : node_being_parsed) (c : Char) (q : Bytes) (r : node_being_parsed × Bytes)
    (h : parse_node in_node (c :: q) a false = .ok r) :
    parse_node in_node (c :: q) a' false = .ok r := by
  unfold parse_node at h ⊢
  rw [parse_header_cons _ c q a' a]
  cases hph : parse_header in_node (c :: q) a false with
  | error e => rw [hph] at h; exact absurd h (by simp)
  | ok x =>
    rw [hph] at h
    simp only [Bool.not_false, if_true] at h ⊢
    exact parse_attributes_after a a' ha _ _ _ _ h

/-- A line that `document_line` accepts is accepted with the same result when other
bytes follow it in its buffer, as long as it was followed by nothing or by a terminator. -/
theorem document_line_after (max_depth : Nat) (v v1 : Vectors) (text a a' : Bytes)
    (ha : ∀ c, a.head? = some c → is_terminator c = true)
    (h : document_line max_depth v ⟨text, a⟩ = .ok v1) :
    document_line max_depth v ⟨text, a'⟩ = .ok v1 := by
  unfold document_line at h ⊢
  simp only at h ⊢
  generalize (parse_indentation text).1 = level at h ⊢
  cases hb : (parse_indentation text).2 with
  | nil => simp [hb] at h
  | cons c q =>
    have key : ∀ (in_node : node_being_parsed) (r : node_being_parsed × Bytes),
        parse_node in_node (c :: q) a false = .ok r →
        parse_node in_node (c :: q) a' false = .ok r :=
      fun in_node r hr => parse_node_after a a' ha in_node c q r hr
    simp only [hb, reduceCtorEq, if_false] at h ⊢
    cases hopen : v.open_nodes with
    | nil =>
      simp only [hopen] at h ⊢
      by_cases hl : level = 0
      · simp only [hl, ne_eq, not_true_eq_false, if_false] at h ⊢
        cases hpn : parse_node { node_being_parsed.fresh with indentation_level := 0 }
            (c :: q) a false with
        | error e => rw [hpn] at h; exact absurd h (by simp)
        | ok r => rw [hpn] at h; rw [key _ _ hpn]; exact h
      · simp [hl] at h
    | cons recent below =>
      simp only [hopen] at h ⊢
      by_cases h1 : level < recent.indentation_level
      · simp only [h1, if_true] at h ⊢
        generalize close_ancestors level recent below v.document_nodes = res at h ⊢
        obtain ⟨target_level, below', docs⟩ := res
        simp only at h ⊢
        by_cases h2 : level = target_level
        · simp only [h2, ne_eq, not_true_eq_false, if_false] at h ⊢
          cases hpn : parse_node
              { node_being_parsed.fresh with indentation_level := target_level }
              (c :: q) a false with
          | error e => rw [hpn] at h; exact absurd h (by simp)
          | ok r => rw [hpn] at h; rw [key _ _ hpn]; exact h
        · simp [h2] at h
      · simp only [h1, if_false] at h ⊢
        by_cases h3 : level > recent.indentation_level
        · simp only [h3, if_true] at h ⊢
          by_cases h4 : (c :: q).head? = some ':'
          · simpa [h4] using h
          · simp only [h4, if_false] at h ⊢
            cases hpn : parse_node
                { node_being_parsed.fresh with indentation_level := level }
                (c :: q) a false with
            | error e => rw [hpn] at h; exact absurd h (by simp)
            | ok r => rw [hpn] at h; rw [key _ _ hpn]; exact h
        · simp only [h3, if_false] at h ⊢
          cases hpn : parse_node (moved_from recent) (c :: q) a false with
          | error e => rw [hpn] at h; exact absurd h (by simp)
          | ok r => rw [hpn] at h; rw [key _ _ hpn]; exact h

/-- The constructor sees of its lines only their texts, as long as every line it accepts
is followed by nothing or by a terminator. -/
theorem document_loop_texts (max_depth : Nat) :
    ∀ (ls ls' : List Line) (v v1 : Vectors),
      ls.map Line.text = ls'.map Line.text →
      (∀ l ∈ ls, ∀ c, l.after.head? = some c → is_terminator c = true) →
      document_loop max_depth v ls = .ok v1 → document_loop max_depth v ls' = .ok v1 := by
  intro ls
  induction ls with
  | nil =>
    intro ls' v v1 hmap _ h
    cases ls' with
    | nil => exact h
    | cons l' ls' => simp at hmap
  | cons l ls ih =>
    intro ls' v v1 hmap hben h
    cases ls' with
    | nil => simp at hmap
    | cons l' ls' =>
      simp only [List.map_cons, List.cons.injEq] at hmap
      obtain ⟨ht, hmap⟩ := hmap
      simp only [document_loop] at h ⊢
      cases hdl : document_line max_depth v l with
      | error e => rw [hdl] at h; exact absurd h (by simp)
      | ok v2 =>
        rw [hdl] at h
        have hl' : l' = ⟨l.text, l'.after⟩ := by rw [ht]
        have hl : l = ⟨l.text, l.after⟩ := rfl
        rw [hl] at hdl
        rw [hl', document_line_after max_depth v v2 l.text l.after l'.after
          (hben l (List.mem_cons_self _ _)) hdl]
        exact ih ls' v2 v1 hmap (fun x hx => hben x (List.mem_cons_of_mem _ hx)) h

theorem document_texts (max_depth : Nat) (w w' : Bytes) (tree : node)
    (hmap : (logical_lines w).map Line.text = (logical_lines w').map Line.text)
    (h : document [w] max_depth = .ok tree) : document [w'] max_depth = .ok tree := by
  simp only [document, all_lines_one_chunk, document_of_lines, document_nodes] at h ⊢
  cases hloop : document_loop max_depth ⟨[], []⟩ (logical_lines w) with
  | error e => rw [hloop] at h; exact absurd h (by simp)
  | ok v1 =>
    rw [hloop] at h
    rw [document_loop_texts max_depth _ _ _ _ hmap (logical_lines_after w) hloop]
    exact h

/-! ## Chunked delivery -/

/-- The constructor is `document_of_lines` on the lines that `get_line` hands out. -/
theorem document_eq_of_lines (chunks : List Bytes) (lines : List Line) (max_depth : Nat)
    (h : all_lines chunks = .ok lines) :
    document chunks max_depth = document_of_lines lines max_depth := by
  simp [document, h]

/-- An input delivered in one chunk that has no logical line is rejected as an empty
document. -/
theorem document_no_lines (text : Bytes) (max_depth : Nat) (h : logical_lines text = []) :
    document [text] max_depth = .error (.thrown "Empty document") := by
  simp [document, all_lines_one_chunk, h, document_of_lines, document_nodes, document_loop,
    document_finish]

/-! ## The fuel is never exhausted -/

theorem parse_data_not_fuel (in_node : node_being_parsed) (p0 : Bytes) (attr : Bool) :
    parse_data in_node p0 attr ≠ .error .fuel := by
  unfold parse_data
  cases p0 with
  | nil => simp
  | cons c q =>
    simp only
    split
    · cases q with
      | nil => simp
      | cons q0 p1 =>
        simp only
        split
        · split <;> simp
        · simp
    · split
      · simp
      · split <;> simp

theorem parse_header_not_fuel (in_node : node_being_parsed) (begin after : Bytes)
    (attr : Bool) : parse_header in_node begin after attr ≠ .error .fuel := by
  unfold parse_header
  cases begin with
  | nil =>
    cases after with
    | nil => simp
    | cons c _ =>
      simp only
      split <;> simp
  | cons c rest =>
    simp only
    split
    · simp
    · exact parse_data_not_fuel _ _ _

theorem comment_follows_not_fuel (p after : Bytes) :
    comment_follows p after ≠ .error .fuel := by
  unfold comment_follows
  split
  · split
    · simp
    · split
      · split <;> simp
      · simp
  · simp
  · simp

theorem parse_attributes_not_fuel (after : Bytes) :
    ∀ (fuel : Nat) (in_node : node_being_parsed) (p : Bytes), p.length < fuel →
      parse_attributes fuel in_node p after ≠ .error .fuel := by
  intro fuel
  induction fuel with
  | zero =>
    intro in_node p h
    exact absurd h (Nat.not_lt_zero _)
  | succ fuel ih =>
    intro in_node p hlen
    rw [parse_attributes]
    by_cases hp : p = []
    · simp [hp]
    · simp only [hp, if_false]
      cases hcf : comment_follows (p.dropWhile (fun c => c == ' ')) after with
      | error e =>
        simp only
        intro h
        simp only [Except.error.injEq] at h
        exact comment_follows_not_fuel _ _ (by rw [hcf, h])
      | ok b =>
        cases b with
        | true => simp
        | false =>
          simp only
          cases hph : parse_header node_being_parsed.fresh
              (p.dropWhile (fun c => c == ' ')) after true with
          | error e =>
            simp only
            intro h
            simp only [Except.error.injEq] at h
            exact parse_header_not_fuel _ _ _ _ (by rw [hph, h])
          | ok x =>
            simp only
            apply ih
            have h1 := parse_header_length _ _ _ _ _ hph
            have h2 := dropWhile_length_le (fun c => c == ' ') p
            omega

/-- The header parser never runs out of fuel. -/
theorem parse_node_not_fuel (in_node : node_being_parsed) (begin after : Bytes)
    (attr : Bool) : parse_node in_node begin after attr ≠ .error .fuel := by
  unfold parse_node
  cases hph : parse_header in_node begin after attr with
  | error e =>
    simp only
    intro h
    simp only [Except.error.injEq] at h
    exact parse_header_not_fuel _ _ _ _ (by rw [hph, h])
  | ok x =>
    simp only
    split
    · exact parse_attributes_not_fuel after _ _ _ (Nat.lt_succ_self _)
    · simp

theorem document_line_not_fuel (max_depth : Nat) (v : Vectors) (l : Line) :
    document_line max_depth v l ≠ .error .fuel := by
  intro h
  have key : ∀ (in_node : node_being_parsed) (f : node_being_parsed → Vectors),
      (match (match parse_node in_node (parse_indentation l.text).2 l.after false with
          | .error e => (.error e : Except Failure Vectors)
          | .ok (n, _) => .ok (f n)) with
        | .error e => (.error e : Except Failure Vectors)
        | .ok v => if v.open_nodes.length > max_depth then
            .error (.thrown "Document too deep") else .ok v) = .error .fuel → False := by
    intro in_node f hk
    cases hpn : parse_node in_node (parse_indentation l.text).2 l.after false with
    | error e =>
      rw [hpn] at hk
      simp only [Except.error.injEq] at hk
      exact parse_node_not_fuel _ _ _ _ (by rw [hpn, hk])
    | ok x =>
      rw [hpn] at hk
      simp only at hk
      split at hk <;> simp at hk
  unfold document_line at h
  simp only at h
  by_cases hb : (parse_indentation l.text).2 = []
  · simp [hb] at h
  · simp only [hb, if_false] at h
    cases hopen : v.open_nodes with
    | nil =>
      simp only [hopen] at h
      by_cases hl : (parse_indentation l.text).1 = 0
      · simp only [hl, ne_eq, not_true_eq_false, if_false] at h
        exact key _ _ h
      · simp [hl] at h
    | cons recent below =>
      simp only [hopen] at h
      by_cases h1 : (parse_indentation l.text).1 < recent.indentation_level
      · simp only [h1, if_true] at h
        by_cases h2 : (parse_indentation l.text).1 =
            (close_ancestors (parse_indentation l.text).1 recent below v.document_nodes).1
        · simp only [← h2, ne_eq, not_true_eq_false, if_false] at h
          exact key _ _ h
        · simp [h2] at h
      · simp only [h1, if_false] at h
        by_cases h3 : (parse_indentation l.text).1 > recent.indentation_level
        · simp only [h3, if_true] at h
          by_cases h4 : (parse_indentation l.text).2.head? = some ':'
          · simp only [h4, if_true] at h
            split at h <;> simp at h
          · simp only [h4, if_false] at h
            exact key _ _ h
        · simp only [h3, if_false] at h
          exact key _ _ h

theorem document_loop_not_fuel (max_depth : Nat) :
    ∀ (lines : List Line) (v : Vectors), document_loop max_depth v lines ≠ .error .fuel := by
  intro lines
  induction lines with
  | nil => intro v; simp [document_loop]
  | cons l ls ih =>
    intro v
    simp only [document_loop]
    cases hdl : document_line max_depth v l with
    | error e =>
      simp only
      intro h
      simp only [Except.error.injEq] at h
      exact document_line_not_fuel _ _ _ (by rw [hdl, h])
    | ok v2 => exact ih v2

/-- The constructor never runs out of fuel on the lines it is given. -/
theorem document_of_lines_not_fuel (lines : List Line) (max_depth : Nat) :
    document_of_lines lines max_depth ≠ .error .fuel := by
  unfold document_of_lines document_nodes
  cases hl : document_loop max_depth ⟨[], []⟩ lines with
  | error e =>
    simp only
    intro h
    simp only [Except.error.injEq] at h
    exact document_loop_not_fuel _ _ _ (by rw [hl, h])
  | ok v =>
    simp only
    unfold document_finish
    cases v.open_nodes with
    | nil => simp
    | cons cur below => simp

theorem takeWhile_dropWhile_length (p : Char → Bool) (w : Bytes) :
    (w.takeWhile p).length + (w.dropWhile p).length = w.length := by
  rw [← List.length_append, List.takeWhile_append_dropWhile]

theorem read_more_sum (reader : List Bytes) :
    (read_more reader).1.length + ((read_more reader).2.map List.length).sum =
      (reader.map List.length).sum := by
  cases reader with
  | nil => rfl
  | cons c cs => simp [read_more]

theorem read_more_length (reader : List Bytes) (h : (read_more reader).1 ≠ []) :
    (read_more reader).2.length < reader.length := by
  cases reader with
  | nil => simp [read_more] at h
  | cons c cs => simp [read_more]

/-- What `read_from_buffer` consumes, over a window `w` of the given length: a line it
hands out is taken from the pending bytes, and when it asks to be called again the
reader has handed back one more chunk. -/
theorem read_from_buffer_pending (g : line_getter) :
    (∀ line g', read_from_buffer g = (some line, g') →
      g'.pending + line.text.length ≤ g.pending) ∧
    (∀ g', read_from_buffer g = (none, g') →
      g'.pending ≤ g.pending ∧ g'.reader.length < g.reader.length) := by
  have hb := dropWhile_length_le is_terminator g.window
  have hte := takeWhile_dropWhile_length (fun c => !is_terminator c)
    (g.window.dropWhile is_terminator)
  have hrest := dropWhile_length_le is_terminator
    ((g.window.dropWhile is_terminator).dropWhile (fun c => !is_terminator c))
  have hsum := read_more_sum g.reader
  have hlen := read_more_length g.reader
  obtain ⟨reader, vec, buf⟩ := g
  unfold read_from_buffer
  simp only [line_getter.pending] at *
  cases buf with
  | null =>
    simp only [line_getter.window] at *
    refine ⟨?_, ?_⟩
    · intro line g' h
      split at h
      · simp only [Prod.mk.injEq, Option.some.injEq] at h
        obtain ⟨h1, h2⟩ := h
        subst h1 h2
        simp
      · split at h
        · simp only [Prod.mk.injEq, Option.some.injEq] at h
          obtain ⟨h1, h2⟩ := h
          subst h1 h2
          rename_i hinc
          rw [hinc] at hsum
          simp only [List.dropWhile_nil, List.length_nil, Nat.zero_add, Nat.add_zero] at *
          omega
        · simp at h
    · intro g' h
      split at h
      · simp at h
      · split at h
        · simp at h
        · simp only [Prod.mk.injEq, true_and] at h
          subst h
          rename_i hinc
          refine ⟨?_, hlen hinc⟩
          simp only [List.dropWhile_nil, List.drop_zero, List.length_append, List.length_nil,
            Nat.zero_add] at *
          omega
  | chunk w =>
    simp only [line_getter.window] at *
    generalize w.dropWhile is_terminator = b at *
    refine ⟨?_, ?_⟩
    · intro line g' h
      split at h
      · simp only [Prod.mk.injEq, Option.some.injEq] at h
        obtain ⟨h1, h2⟩ := h
        subst h1 h2
        simp only
        omega
      · split at h
        · simp only [Prod.mk.injEq, Option.some.injEq] at h
          obtain ⟨h1, h2⟩ := h
          subst h1 h2
          rename_i hinc
          rw [hinc] at hsum
          simp only [List.length_nil, Nat.zero_add] at *
          omega
        · simp at h
    · intro g' h
      split at h
      · simp at h
      · split at h
        · simp at h
        · simp only [Prod.mk.injEq, true_and] at h
          subst h
          rename_i hinc
          refine ⟨?_, hlen hinc⟩
          simp only [List.drop_zero, List.length_append]
          omega
  | own off =>
    simp only [line_getter.window] at *
    have hw : (vec.drop off).length ≤ vec.length := by
      rw [List.length_drop]
      exact Nat.sub_le _ _
    generalize vec.drop off = w at *
    generalize w.dropWhile is_terminator = b at *
    refine ⟨?_, ?_⟩
    · intro line g' h
      split at h
      · simp only [Prod.mk.injEq, Option.some.injEq] at h
        obtain ⟨h1, h2⟩ := h
        subst h1 h2
        simp only [List.length_drop]
        omega
      · split at h
        · simp only [Prod.mk.injEq, Option.some.injEq] at h
          obtain ⟨h1, h2⟩ := h
          subst h1 h2
          rename_i he hinc
          rw [hinc] at hsum
          simp only [ne_eq, not_not] at he
          simp only [he, List.length_nil, Nat.zero_add, Nat.add_zero] at *
          split
          · omega
          · simp only [List.length_drop, List.length_append]
            omega
        · simp at h
    · intro g' h
      split at h
      · simp at h
      · split at h
        · simp at h
        · simp only [Prod.mk.injEq, true_and] at h
          subst h
          rename_i he hinc
          refine ⟨?_, hlen hinc⟩
          simp only [ne_eq, not_not] at he
          simp only [he, List.length_nil, Nat.add_zero] at hte
          simp only [List.drop_zero, List.length_append]
          split
          · omega
          · simp only [List.length_drop]
            omega

theorem read_loop_total :
    ∀ (fuel : Nat) (g : line_getter), g.reader.length < fuel →
      ∃ line g', read_loop fuel g = .ok (line, g') ∧
        g'.pending + line.text.length ≤ g.pending := by
  intro fuel
  induction fuel with
  | zero =>
    intro g h
    exact absurd h (Nat.not_lt_zero _)
  | succ fuel ih =>
    intro g hlen
    obtain ⟨h1, h2⟩ := read_from_buffer_pending g
    rw [read_loop]
    cases hr : read_from_buffer g with
    | mk o g1 =>
      cases o with
      | some line => exact ⟨line, g1, rfl, h1 line g1 hr⟩
      | none =>
        obtain ⟨h3, h4⟩ := h2 g1 hr
        obtain ⟨line, g', h5, h6⟩ := ih g1 (by omega)
        exact ⟨line, g', h5, by omega⟩

theorem clean_up_pending (g : line_getter) :
    (clean_up g).pending = g.pending ∧ (clean_up g).reader = g.reader := by
  unfold clean_up
  cases hbuf : g.buf with
  | null => simp
  | chunk rest =>
    simp only
    split
    · rename_i h
      simp [line_getter.pending, line_getter.window, hbuf, h]
    · simp
  | own off =>
    simp only
    split
    · rename_i h
      simp [line_getter.pending, line_getter.window, hbuf, h.2]
    · split
      · rename_i h
        simp [line_getter.pending, line_getter.window, hbuf, h]
      · simp

theorem is_comment_length (text : Bytes) (h : is_comment text = true) : 2 ≤ text.length := by
  cases text with
  | nil => simp [is_comment] at h
  | cons a r =>
    cases r with
    | nil => simp [is_comment] at h
    | cons b r => simp

/-- The function `get_line` always returns, and a line it hands out is taken from the
pending bytes. -/
theorem get_line_loop_total :
    ∀ (fuel : Nat) (g : line_getter), g.pending < fuel →
      ∃ line g', get_line_loop fuel g = .ok (line, g') ∧ g'.pending ≤ g.pending ∧
        (line.text ≠ [] → g'.pending < g.pending) := by
  intro fuel
  induction fuel with
  | zero =>
    intro g h
    exact absurd h (Nat.not_lt_zero _)
  | succ fuel ih =>
    intro g hlen
    obtain ⟨hc1, hc2⟩ := clean_up_pending g
    rw [get_line_loop]
    generalize clean_up g = g0 at hc1 hc2
    simp only
    have hsum := read_more_sum g0.reader
    have hstep : ∀ g2 : line_getter, g2.pending ≤ g.pending →
        ∃ line g', (match read_loop (g2.reader.length + 1) g2 with
          | .error e => Except.error e
          | .ok (line, g) =>
            if is_comment line.text then get_line_loop fuel g else Except.ok (line, g)) =
            Except.ok (line, g') ∧ g'.pending ≤ g.pending ∧
          (line.text ≠ [] → g'.pending < g.pending) := by
      intro g2 hg2
      obtain ⟨line, g3, h1, h2⟩ := read_loop_total (g2.reader.length + 1) g2
        (Nat.lt_succ_self _)
      rw [h1]
      simp only
      by_cases hcom : is_comment line.text = true
      · simp only [hcom, if_true]
        have := is_comment_length _ hcom
        obtain ⟨line', g4, h3, h4, h5⟩ := ih g3 (by omega)
        exact ⟨line', g4, h3, by omega, fun hne => by have := h5 hne; omega⟩
      · simp only [hcom, Bool.false_eq_true, if_false]
        refine ⟨line, g3, rfl, by omega, ?_⟩
        intro hne
        have : 1 ≤ line.text.length := List.length_pos.mpr hne
        omega
    have hreader : ∀ (r : List Bytes) (w : Bytes),
        (line_getter.mk r g0.vec (.chunk w)).pending = w.length + (r.map List.length).sum := by
      intro r w
      rfl
    by_cases hw : g0.window = []
    · rw [if_pos hw]
      have hp0 : g0.pending = (g0.reader.map List.length).sum := by
        simp [line_getter.pending, hw]
      by_cases hinc : (read_more g0.reader).1 = []
      · simp only [hinc, if_true]
        refine ⟨_, _, rfl, ?_, by simp⟩
        rw [hinc] at hsum
        simp only [List.length_nil, Nat.zero_add] at hsum
        rw [hreader]
        simp only [List.length_nil, Nat.zero_add]
        omega
      · simp only [hinc, if_false]
        apply hstep
        rw [hreader]
        omega
    · rw [if_neg hw]
      apply hstep
      omega

theorem get_lines_total :
    ∀ (fuel : Nat) (g : line_getter), g.pending < fuel →
      ∃ ls, get_lines fuel g = .ok ls := by
  intro fuel
  induction fuel with
  | zero =>
    intro g h
    exact absurd h (Nat.not_lt_zero _)
  | succ fuel ih =>
    intro g hlen
    obtain ⟨line, g', h1, h2, h3⟩ := get_line_loop_total (g.pending + 1) g (Nat.lt_succ_self _)
    rw [get_lines, get_line, h1]
    simp only
    by_cases hl : line.text = []
    · exact ⟨[], by simp [hl]⟩
    · simp only [hl, if_false]
      have := h3 hl
      obtain ⟨ls, hls⟩ := ih g' (by omega)
      exact ⟨line :: ls, by rw [hls]⟩

/-- The scanner always returns: every chunked input has its list of lines. -/
theorem all_lines_total (chunks : List Bytes) : ∃ ls, all_lines chunks = .ok ls :=
  get_lines_total _ _ (Nat.lt_succ_self _)

/-- The constructor never runs out of fuel: it returns or it stops with a thrown
string or an out-of-bounds read. -/
theorem document_not_fuel (chunks : List Bytes) (max_depth : Nat) :
    document chunks max_depth ≠ .error .fuel := by
  obtain ⟨ls, hls⟩ := all_lines_total chunks
  rw [document_eq_of_lines chunks ls max_depth hls]
  exact document_of_lines_not_fuel ls max_depth

/-! ## Trees and frames -/

theorem Tree.to_nodes_eq_map (ts : List Tree) : Tree.to_nodes ts = ts.map Tree.to_node := by
  induction ts with
  | nil => rfl
  | cons t ts ih => simp [Tree.to_nodes, ih]

theorem Tree.to_nodes_append (a b : List Tree) :
    Tree.to_nodes (a ++ b) = Tree.to_nodes a ++ Tree.to_nodes b := by
  simp [Tree.to_nodes_eq_map]

theorem Tree.preorder_all_append (a b : List Tree) :
    Tree.preorder_all (a ++ b) = Tree.preorder_all a ++ Tree.preorder_all b := by
  induction a with
  | nil => rfl
  | cons t ts ih => simp [Tree.preorder_all, ih]

theorem Tree.mem_preorder_all (ts : List Tree) (x : node_being_parsed)
    (hx : x ∈ Tree.preorder_all ts) : ∃ t ∈ ts, x ∈ t.preorder := by
  induction ts with
  | nil => simp [Tree.preorder_all] at hx
  | cons t ts ih =>
    simp only [Tree.preorder_all, List.mem_append] at hx
    rcases hx with h | h
    · exact ⟨t, List.mem_cons_self _ _, h⟩
    · obtain ⟨u, hu, hxu⟩ := ih h
      exact ⟨u, List.mem_cons_of_mem _ hu, hxu⟩

/-- In a regular tree no line is indented less than the root. -/
theorem Tree.regular_level_le (t : Tree) (ht : t.regular) :
    ∀ x ∈ t.preorder, t.level ≤ x.indentation_level := by
  induction ht with
  | mk h ts hlt _ _ ih =>
    intro x hx
    simp only [Tree.preorder, List.mem_cons] at hx
    rcases hx with hx | hx
    · subst hx
      exact Nat.le_refl _
    · obtain ⟨u, hu, hxu⟩ := Tree.mem_preorder_all ts x hx
      have h1 := ih u hu x hxu
      have h2 := hlt u hu
      simp only [Tree.level, Tree.head] at h1 h2 ⊢
      omega

/-- A regular tree is nested by indentation. -/
theorem Tree.regular_nested (t : Tree) (ht : t.regular) : t.nested_by_indentation := by
  induction ht with
  | mk h ts hlt hreg huni ih =>
    refine Tree.nested_by_indentation.mk h ts ?_ ih
    intro pre c post hsplit
    have hc : c ∈ ts := by rw [hsplit]; simp
    refine ⟨hlt c hc, ?_⟩
    intro x hx
    obtain ⟨s, hs, hxs⟩ := Tree.mem_preorder_all pre x hx
    have hs' : s ∈ ts := by rw [hsplit]; simp [hs]
    have h1 := Tree.regular_level_le s (hreg s hs') x hxs
    have h2 := huni s hs' c hc
    omega

theorem close_node_level (n : node_being_parsed) :
    (close_node n).indentation_level = n.indentation_level := by
  unfold close_node
  split <;> rfl

theorem close_node_children (n : node_being_parsed) :
    (close_node n).children = n.children := by
  unfold close_node
  split <;> rfl

theorem close_node_name (n : node_being_parsed) : (close_node n).name = n.name := by
  unfold close_node
  split <;> rfl

theorem Frame.close_to_node (f : Frame) : f.close.to_node = close_node f.to_open := by
  unfold Frame.close Frame.to_open Tree.to_node close_node
  by_cases h : f.head.data = []
  · simp [h]
  · simp [h]

theorem Frame.absorb_to_open (f : Frame) (t : Tree) :
    (f.absorb t).to_open =
      { f.to_open with children := f.to_open.children ++ [t.to_node] } := by
  simp [Frame.absorb, Frame.to_open, Tree.to_nodes_append, Tree.to_nodes]

theorem Frame.close_level (f : Frame) : f.close.level = f.level := by
  simp [Frame.close, Tree.level, Tree.head, Frame.level, close_node_level]

theorem Frame.to_open_level (f : Frame) : f.to_open.indentation_level = f.level := rfl

theorem Frame.new_to_open (n : node_being_parsed) : (⟨n, []⟩ : Frame).to_open = n := by
  cases n
  simp [Frame.to_open, Tree.to_nodes]

theorem Frame.absorb_close_to_open (parent cur : Frame) :
    (⟨parent.to_open.name, parent.to_open.data, parent.to_open.indentation_level,
        parent.to_open.children ++ [close_node cur.to_open]⟩ : node_being_parsed) =
      (parent.absorb cur.close).to_open := by
  rw [Frame.absorb_to_open, Frame.close_to_node]

/-- The function `close_ancestors` on the open nodes of frames is `close_frames`. -/
theorem close_ancestors_frames (level : Nat) (finished : List Tree) :
    ∀ (below : List Frame) (cur : Frame),
      close_ancestors level cur.to_open (below.map Frame.to_open) (Tree.to_nodes finished) =
        ((close_frames level cur below finished).1,
         (close_frames level cur below finished).2.1.map Frame.to_open,
         Tree.to_nodes (close_frames level cur below finished).2.2) := by
  intro below
  induction below with
  | nil =>
    intro cur
    simp [close_ancestors, close_frames, Tree.to_nodes_append, Tree.to_nodes,
      Frame.close_to_node, Frame.to_open_level]
  | cons parent below ih =>
    intro cur
    simp only [List.map_cons, close_ancestors, close_frames, Frame.absorb_close_to_open]
    by_cases h : level < cur.level
    · have h' : level < cur.to_open.indentation_level := h
      simp only [h, h', if_true]
      exact ih _
    · have h' : ¬ level < cur.to_open.indentation_level := h
      simp only [h, h', if_false, List.map_cons]
      rfl

/-- The function `close_all` on the open nodes of frames is `close_all_frames`. -/
theorem close_all_eq_frames (finished : List Tree) :
    ∀ (below : List Frame) (cur : Frame),
      close_all cur.to_open (below.map Frame.to_open) (Tree.to_nodes finished) =
        Tree.to_nodes (close_all_frames cur below finished) := by
  intro below
  induction below with
  | nil =>
    intro cur
    simp [close_all, close_all_frames, Tree.to_nodes_append, Tree.to_nodes,
      Frame.close_to_node]
  | cons parent below ih =>
    intro cur
    simp only [List.map_cons, close_all, close_all_frames, Frame.absorb_close_to_open]
    exact ih _

theorem Frame.close_regular (f : Frame) (up : Option Nat)
    (hup : match up with
      | none => f.done = []
      | some u => f.level < u ∧ ∀ s ∈ f.done, s.level = u)
    (hreg : ∀ s ∈ f.done, Tree.regular s) : f.close.regular := by
  unfold Frame.close
  cases up with
  | none =>
    simp only at hup
    rw [hup]
    exact Tree.regular.mk _ [] (by simp) (by simp) (by simp)
  | some u =>
    simp only at hup
    obtain ⟨hlt, hall⟩ := hup
    refine Tree.regular.mk _ f.done ?_ hreg ?_
    · intro t ht
      rw [close_node_level, hall t ht]
      exact hlt
    · intro t ht s hs
      rw [hall t ht, hall s hs]

theorem spine_absorb (parent cur : Frame) (below : List Frame) :
    spine (parent.absorb cur.close :: below) = spine (cur :: parent :: below) := by
  simp [spine, Frame.absorb, Frame.close, Tree.preorder_all_append, Tree.preorder_all,
    Tree.preorder]

theorem stack_ok_absorb (parent cur : Frame) (below : List Frame) (up : Option Nat)
    (h : stack_ok up (cur :: parent :: below)) :
    stack_ok (some cur.level) (parent.absorb cur.close :: below) := by
  obtain ⟨hup, hreg, _, hrest⟩ := h
  obtain ⟨⟨hlt, hall⟩, hpreg, hbot, hbelow⟩ := hrest
  refine ⟨⟨hlt, ?_⟩, ?_, hbot, hbelow⟩
  · intro s hs
    simp only [Frame.absorb, List.mem_append, List.mem_singleton] at hs
    rcases hs with hs | hs
    · exact hall s hs
    · rw [hs]
      exact Frame.close_level cur
  · intro s hs
    simp only [Frame.absorb, List.mem_append, List.mem_singleton] at hs
    rcases hs with hs | hs
    · exact hpreg s hs
    · rw [hs]
      exact Frame.close_regular cur up hup hreg

/-- What `close_frames` keeps: the finished roots stay well formed, the frames it leaves
are well formed under the indentation of the last closed frame, and no line is lost or
reordered. -/
theorem close_frames_ok (level : Nat) (finished : List Tree) (hfin : forest_ok finished) :
    ∀ (below : List Frame) (cur : Frame) (up : Option Nat), stack_ok up (cur :: below) →
      forest_ok (close_frames level cur below finished).2.2 ∧
      stack_ok (some (close_frames level cur below finished).1)
        (close_frames level cur below finished).2.1 ∧
      ((close_frames level cur below finished).2.1 = [] →
        (close_frames level cur below finished).1 = 0) ∧
      Tree.preorder_all (close_frames level cur below finished).2.2 ++
          spine (close_frames level cur below finished).2.1 =
        Tree.preorder_all finished ++ spine (cur :: below) := by
  intro below
  induction below with
  | nil =>
    intro cur up h
    obtain ⟨hup, hreg, hbot, _⟩ := h
    simp only [close_frames]
    refine ⟨?_, trivial, fun _ => hbot rfl, ?_⟩
    · intro t ht
      simp only [List.mem_append, List.mem_singleton] at ht
      rcases ht with ht | ht
      · exact hfin t ht
      · rw [ht]
        exact ⟨by rw [Frame.close_level]; exact hbot rfl, Frame.close_regular cur up hup hreg⟩
    · simp [spine, Tree.preorder_all_append, Tree.preorder_all, Frame.close, Tree.preorder]
  | cons parent below ih =>
    intro cur up h
    have habs := stack_ok_absorb parent cur below up h
    simp only [close_frames]
    by_cases hl : level < cur.level
    · simp only [hl, if_true]
      obtain ⟨h1, h2, h3, h4⟩ := ih (parent.absorb cur.close) (some cur.level) habs
      exact ⟨h1, h2, h3, by rw [h4, spine_absorb]⟩
    · simp only [hl, if_false]
      exact ⟨hfin, habs, by simp, by rw [spine_absorb]⟩

/-- What `close_all_frames` gives: well-formed roots holding all lines in order. -/
theorem close_all_frames_ok (finished : List Tree) (hfin : forest_ok finished) :
    ∀ (below : List Frame) (cur : Frame) (up : Option Nat), stack_ok up (cur :: below) →
      forest_ok (close_all_frames cur below finished) ∧
      Tree.preorder_all (close_all_frames cur below finished) =
        Tree.preorder_all finished ++ spine (cur :: below) := by
  intro below
  induction below with
  | nil =>
    intro cur up h
    obtain ⟨hup, hreg, hbot, _⟩ := h
    simp only [close_all_frames]
    refine ⟨?_, ?_⟩
    · intro t ht
      simp only [List.mem_append, List.mem_singleton] at ht
      rcases ht with ht | ht
      · exact hfin t ht
      · rw [ht]
        exact ⟨by rw [Frame.close_level]; exact hbot rfl, Frame.close_regular cur up hup hreg⟩
    · simp [spine, Tree.preorder_all_append, Tree.preorder_all, Frame.close, Tree.preorder]
  | cons parent below ih =>
    intro cur up h
    have habs := stack_ok_absorb parent cur below up h
    simp only [close_all_frames]
    obtain ⟨h1, h2⟩ := ih (parent.absorb cur.close) (some cur.level) habs
    exact ⟨h1, by rw [h2, spine_absorb]⟩

theorem parse_header_ok_head (in_node : node_being_parsed) (begin after : Bytes) (attr : Bool)
    (r : node_being_parsed × Bytes) (h : parse_header in_node begin after attr = .ok r) :
    ∃ c q, begin = c :: q ∧ is_valid_name_char c = true := by
  unfold parse_header at h
  cases begin with
  | nil =>
    simp only at h
    cases after with
    | nil => exact absurd h (by simp)
    | cons c _ =>
      simp only at h
      split at h <;> exact absurd h (by simp)
  | cons c rest =>
    by_cases hc : is_valid_name_char c = true
    · exact ⟨c, rest, rfl, hc⟩
    · simp [hc] at h

theorem parse_node_ok_head (in_node : node_being_parsed) (begin after : Bytes) (attr : Bool)
    (r : node_being_parsed × Bytes) (h : parse_node in_node begin after attr = .ok r) :
    ∃ c q, begin = c :: q ∧ is_valid_name_char c = true := by
  unfold parse_node at h
  cases hph : parse_header in_node begin after attr with
  | error e => rw [hph] at h; exact absurd h (by simp)
  | ok x => exact parse_header_ok_head _ _ _ _ _ hph

theorem parse_node_ok_not_continuation (in_node : node_being_parsed) (begin after : Bytes)
    (r : node_being_parsed × Bytes) (h : parse_node in_node begin after false = .ok r) :
    begin.head? ≠ some ':' := by
  obtain ⟨c, q, hb, hc⟩ := parse_node_ok_head _ _ _ _ _ h
  subst hb
  simp only [List.head?_cons, ne_eq, Option.some.injEq]
  intro h
  subst h
  exact absurd hc (by decide)

/-- One line of the constructor, seen on frames: a continuation line appends to the head
of the innermost frame; a node line deeper than the innermost frame opens a frame on
top; another node line closes frames down to the one of its own indentation and opens
its frame in that place. -/
theorem document_line_frames (max_depth : Nat) (top : Frame) (rest : List Frame)
    (finished : List Tree) (l : Line) (v2 : Vectors)
    (h : document_line max_depth
      ⟨(top :: rest).map Frame.to_open, Tree.to_nodes finished⟩ l = .ok v2) :
    (l.is_continuation = true ∧ top.level < l.indentation ∧
      v2 = ⟨(({ top with head := parse_datacont top.head l.content.tail } : Frame) ::
        rest).map Frame.to_open, Tree.to_nodes finished⟩) ∨
    (l.is_continuation = false ∧ ∃ n p,
      parse_node { node_being_parsed.fresh with indentation_level := l.indentation }
        l.content l.after false = .ok (n, p) ∧
      ((top.level < l.indentation ∧
          v2 = ⟨((⟨n, []⟩ : Frame) :: top :: rest).map Frame.to_open,
            Tree.to_nodes finished⟩) ∨
        (l.indentation ≤ top.level ∧
          (close_frames l.indentation top rest finished).1 = l.indentation ∧
          v2 = ⟨((⟨n, []⟩ : Frame) ::
              (close_frames l.indentation top rest finished).2.1).map Frame.to_open,
            Tree.to_nodes (close_frames l.indentation top rest finished).2.2⟩))) := by
  unfold document_line at h
  simp only [List.map_cons] at h
  have hlev : (parse_indentation l.text).1 = l.indentation := rfl
  have hcon : (parse_indentation l.text).2 = l.content := rfl
  rw [hlev, hcon] at h
  by_cases hb : l.content = []
  · simp [hb] at h
  · simp only [hb, if_false] at h
    by_cases h1 : l.indentation < top.to_open.indentation_level
    · -- the line dedents: the ancestor branch
      simp only [h1, if_true, close_ancestors_frames] at h
      by_cases h2 : l.indentation = (close_frames l.indentation top rest finished).1
      · simp only [← h2, ne_eq, not_true_eq_false, if_false] at h
        cases hpn : parse_node
            { node_being_parsed.fresh with indentation_level := l.indentation }
            l.content l.after false with
        | error e => rw [hpn] at h; exact absurd h (by simp)
        | ok x =>
          obtain ⟨n, p⟩ := x
          rw [hpn] at h
          simp only at h
          split at h
          · exact absurd h (by simp)
          · simp only [Except.ok.injEq] at h
            refine Or.inr ⟨?_, n, p, rfl, Or.inr ⟨Nat.le_of_lt h1, h2.symm, ?_⟩⟩
            · have := parse_node_ok_not_continuation _ _ _ _ hpn
              simpa [Line.is_continuation] using this
            · rw [← h]
              simp [Frame.new_to_open]
      · simp [h2] at h
    · simp only [h1, if_false] at h
      by_cases h3 : l.indentation > top.to_open.indentation_level
      · simp only [h3, if_true] at h
        by_cases h4 : l.content.head? = some ':'
        · -- a data continuation
          simp only [h4, if_true] at h
          split at h
          · exact absurd h (by simp)
          · simp only [Except.ok.injEq] at h
            refine Or.inl ⟨by simp [Line.is_continuation, h4], h3, ?_⟩
            rw [← h]
            simp [Frame.to_open, parse_datacont]
        · -- a child
          simp only [h4, if_false] at h
          cases hpn : parse_node
              { node_being_parsed.fresh with indentation_level := l.indentation }
              l.content l.after false with
          | error e => rw [hpn] at h; exact absurd h (by simp)
          | ok x =>
            obtain ⟨n, p⟩ := x
            rw [hpn] at h
            simp only at h
            split at h
            · exact absurd h (by simp)
            · simp only [Except.ok.injEq] at h
              refine Or.inr ⟨by simp [Line.is_continuation, h4], n, p, rfl,
                Or.inl ⟨h3, ?_⟩⟩
              rw [← h]
              simp [Frame.new_to_open]
      · -- a sibling
        simp only [h3, if_false] at h
        have heq : l.indentation = top.level := by
          have : top.to_open.indentation_level = top.level := rfl
          omega
        have hmoved : moved_from top.to_open =
            { node_being_parsed.fresh with indentation_level := l.indentation } := by
          simp [moved_from, heq, Frame.to_open_level]
        rw [hmoved] at h
        cases hpn : parse_node
            { node_being_parsed.fresh with indentation_level := l.indentation }
            l.content l.after false with
        | error e => rw [hpn] at h; exact absurd h (by simp)
        | ok x =>
          obtain ⟨n, p⟩ := x
          rw [hpn] at h
          simp only at h
          split at h
          · exact absurd h (by simp)
          · simp only [Except.ok.injEq] at h
            have hnl : ¬ (l.indentation < top.level) := by omega
            refine Or.inr ⟨?_, n, p, rfl, Or.inr ⟨Nat.le_of_eq heq, ?_, ?_⟩⟩
            · have := parse_node_ok_not_continuation _ _ _ _ hpn
              simpa [Line.is_continuation] using this
            · cases rest with
              | nil => simp [close_frames, heq]
              | cons parent rest' => simp [close_frames, hnl, heq]
            · rw [← h]
              cases rest with
              | nil =>
                simp [close_frames, Frame.new_to_open, Tree.to_nodes_append, Tree.to_nodes,
                  Frame.close_to_node]
              | cons parent rest' =>
                simp [close_frames, hnl, Frame.new_to_open, Frame.absorb_close_to_open]

theorem parse_data_level (in_node : node_being_parsed) (p0 : Bytes) (attr : Bool)
    (r : node_being_parsed × Bytes) (h : parse_data in_node p0 attr = .ok r) :
    r.1.indentation_level = in_node.indentation_level ∧ r.1.name = in_node.name := by
  unfold parse_data at h
  cases p0 with
  | nil =>
    simp only [Except.ok.injEq] at h
    subst h
    exact ⟨rfl, rfl⟩
  | cons c q =>
    simp only at h
    by_cases hc : c = '='
    · simp only [hc, if_true] at h
      cases q with
      | nil =>
        simp only [Except.ok.injEq] at h
        subst h
        exact ⟨rfl, rfl⟩
      | cons q0 p1 =>
        simp only at h
        by_cases hq : q0 = '"'
        · simp only [hq, if_true] at h
          split at h
          · exact absurd h (by simp)
          · simp only [Except.ok.injEq] at h
            subst h
            exact ⟨rfl, rfl⟩
        · simp only [hq, if_false, Except.ok.injEq] at h
          subst h
          exact ⟨rfl, rfl⟩
    · by_cases hc2 : c = ':'
      · subst hc2
        simp only [hc, if_false, if_true, Except.ok.injEq] at h
        subst h
        exact ⟨rfl, rfl⟩
      · by_cases hc3 : c = ' '
        · subst hc3
          simp only [hc, hc2, if_false, if_true, Except.ok.injEq] at h
          subst h
          exact ⟨rfl, rfl⟩
        · simp only [hc, hc2, hc3, if_false, Except.ok.injEq] at h
          subst h
          exact ⟨rfl, rfl⟩

theorem parse_header_level (in_node : node_being_parsed) (begin after : Bytes) (attr : Bool)
    (r : node_being_parsed × Bytes) (h : parse_header in_node begin after attr = .ok r) :
    r.1.indentation_level = in_node.indentation_level ∧
      r.1.name = begin.takeWhile is_valid_name_char := by
  unfold parse_header at h
  cases begin with
  | nil =>
    simp only at h
    cases after with
    | nil => exact absurd h (by simp)
    | cons c _ =>
      simp only at h
      split at h <;> exact absurd h (by simp)
  | cons c rest =>
    simp only at h
    by_cases hc : is_valid_name_char c = true
    · simp only [hc, Bool.not_true, Bool.false_eq_true, if_false] at h
      obtain ⟨h1, h2⟩ := parse_data_level _ _ _ _ h
      exact ⟨h1, by simp [h2, List.takeWhile_cons, hc]⟩
    · simp [hc] at h

theorem parse_attributes_level (after : Bytes) :
    ∀ (fuel : Nat) (in_node : node_being_parsed) (p : Bytes) (r : node_being_parsed × Bytes),
      parse_attributes fuel in_node p after = .ok r →
      r.1.indentation_level = in_node.indentation_level ∧ r.1.name = in_node.name := by
  intro fuel
  induction fuel with
  | zero =>
    intro in_node p r h
    simp [parse_attributes] at h
  | succ fuel ih =>
    intro in_node p r h
    rw [parse_attributes] at h
    by_cases hp : p = []
    · simp only [hp, if_true, Except.ok.injEq] at h
      subst h
      exact ⟨rfl, rfl⟩
    · simp only [hp, if_false] at h
      cases hcf : comment_follows (p.dropWhile (fun c => c == ' ')) after with
      | error e => rw [hcf] at h; exact absurd h (by simp)
      | ok b =>
        rw [hcf] at h
        cases b with
        | true =>
          simp only [Except.ok.injEq] at h
          subst h
          exact ⟨rfl, rfl⟩
        | false =>
          simp only at h
          cases hph : parse_header node_being_parsed.fresh
              (p.dropWhile (fun c => c == ' ')) after true with
          | error e => rw [hph] at h; exact absurd h (by simp)
          | ok x =>
            rw [hph] at h
            simp only at h
            exact ih { in_node with children := in_node.children ++ [x.1] } _ _ h

/-- A parsed node keeps the indentation it was given and is named by the leading name
characters of the line. -/
theorem parse_node_level (in_node : node_being_parsed) (begin after : Bytes)
    (r : node_being_parsed × Bytes) (h : parse_node in_node begin after false = .ok r) :
    r.1.indentation_level = in_node.indentation_level ∧
      r.1.name = begin.takeWhile is_valid_name_char := by
  unfold parse_node at h
  cases hph : parse_header in_node begin after false with
  | error e => rw [hph] at h; exact absurd h (by simp)
  | ok x =>
    rw [hph] at h
    simp only [Bool.not_false, if_true] at h
    obtain ⟨h1, h2⟩ := parse_header_level _ _ _ _ _ hph
    obtain ⟨h3, h4⟩ := parse_attributes_level _ _ _ _ _ h
    exact ⟨by rw [h3, h1], by rw [h4, h2]⟩

theorem entries_node_line (l : Line) (ls : List Line) (n : node_being_parsed) (p : Bytes)
    (hl : l.is_continuation = false)
    (hpn : parse_node { node_being_parsed.fresh with indentation_level := l.indentation }
      l.content l.after false = .ok (n, p)) :
    entries (l :: ls) =
      .ok (close_node (absorb_lines n (ls.takeWhile Line.is_continuation))) :: entries ls := by
  simp [entries, hl, line_node, hpn, absorb_lines]

/-- The constructor from a state given by frames: its roots are the trees of the frames
completed by the remaining lines. -/
theorem document_frames (max_depth : Nat) :
    ∀ (lines : List Line) (top : Frame) (rest : List Frame) (finished : List Tree)
      (roots : List node_being_parsed),
      stack_ok none (top :: rest) → forest_ok finished →
      (∃ v, document_loop max_depth
          ⟨(top :: rest).map Frame.to_open, Tree.to_nodes finished⟩ lines = .ok v ∧
        document_finish v = .ok roots) →
      ∃ forest, roots = Tree.to_nodes forest ∧ forest_ok forest ∧
        (Tree.preorder_all forest).map Except.ok =
          (Tree.preorder_all finished ++ spine rest).map Except.ok ++
            (.ok (close_node (absorb_lines top.head (lines.takeWhile Line.is_continuation))) ::
              entries lines) := by
  intro lines
  induction lines with
  | nil =>
    intro top rest finished roots hst hfin h
    obtain ⟨v, hv, hroots⟩ := h
    simp only [document_loop, Except.ok.injEq] at hv
    subst hv
    simp only [document_finish, List.map_cons, Except.ok.injEq] at hroots
    rw [close_all_eq_frames] at hroots
    obtain ⟨h1, h2⟩ := close_all_frames_ok finished hfin rest top none hst
    refine ⟨_, hroots.symm, h1, ?_⟩
    have hdone : top.done = [] := hst.1
    rw [h2]
    simp [spine, hdone, Tree.preorder_all, absorb_lines, entries]
  | cons l ls ih =>
    intro top rest finished roots hst hfin h
    obtain ⟨v, hv, hroots⟩ := h
    simp only [document_loop] at hv
    cases hdl : document_line max_depth
        ⟨(top :: rest).map Frame.to_open, Tree.to_nodes finished⟩ l with
    | error e => rw [hdl] at hv; exact absurd hv (by simp)
    | ok v2 =>
      rw [hdl] at hv
      simp only at hv
      have hdone : top.done = [] := hst.1
      rcases document_line_frames max_depth top rest finished l v2 hdl with
        ⟨hc, hlt, hv2⟩ | ⟨hc, n, p, hpn, hcase⟩
      · -- a continuation line
        subst hv2
        have hst' : stack_ok none
            (({ top with head := parse_datacont top.head l.content.tail } : Frame) :: rest) := by
          obtain ⟨h1, h2, h3, h4⟩ := hst
          exact ⟨h1, h2, h3, h4⟩
        obtain ⟨forest, hf1, hf2, hf3⟩ := ih _ rest finished roots hst' hfin ⟨v, hv, hroots⟩
        refine ⟨forest, hf1, hf2, ?_⟩
        rw [hf3]
        simp [entries, hc, absorb_lines, List.takeWhile_cons]
      · have hnlevel : n.indentation_level = l.indentation :=
          (parse_node_level _ _ _ _ hpn).1
        rw [entries_node_line l ls n p hc hpn]
        have htw : (l :: ls).takeWhile Line.is_continuation = [] := by
          simp [List.takeWhile_cons, hc]
        rw [htw]
        rcases hcase with ⟨hlt, hv2⟩ | ⟨hle, hlevel, hv2⟩
        · -- a child
          subst hv2
          have hst' : stack_ok none ((⟨n, []⟩ : Frame) :: top :: rest) := by
            obtain ⟨h1, h2, h3, h4⟩ := hst
            refine ⟨rfl, by simp, by simp, ⟨?_, ?_⟩, h2, h3, h4⟩
            · simp only [Frame.level]
              rw [hnlevel]
              exact hlt
            · simp [hdone]
          obtain ⟨forest, hf1, hf2, hf3⟩ :=
            ih _ (top :: rest) finished roots hst' hfin ⟨v, hv, hroots⟩
          refine ⟨forest, hf1, hf2, ?_⟩
          rw [hf3]
          simp [spine, hdone, Tree.preorder_all, absorb_lines]
        · -- frames are closed down to the indentation of the line
          subst hv2
          obtain ⟨c1, c2, c3, c4⟩ := close_frames_ok l.indentation finished hfin rest top none hst
          rw [hlevel] at c2 c3
          have hst' : stack_ok none
              ((⟨n, []⟩ : Frame) :: (close_frames l.indentation top rest finished).2.1) := by
            refine ⟨rfl, by simp, ?_, ?_⟩
            · intro hnil
              simp only [Frame.level]
              rw [hnlevel]
              exact c3 hnil
            · simp only [Frame.level]
              rw [hnlevel]
              exact c2
          obtain ⟨forest, hf1, hf2, hf3⟩ := ih _ _ _ roots hst' c1 ⟨v, hv, hroots⟩
          refine ⟨forest, hf1, hf2, ?_⟩
          rw [hf3, c4]
          simp [spine, hdone, Tree.preorder_all, absorb_lines]

/-- The constructor on the lines of an input: its roots are regular trees of
indentation 0 whose lines, in document order, are the entries of the node lines. -/
theorem document_nodes_forest (lines : List Line) (max_depth : Nat)
    (roots : List node_being_parsed) (h : document_nodes lines max_depth = .ok roots) :
    ∃ forest, roots = Tree.to_nodes forest ∧ forest_ok forest ∧
      (Tree.preorder_all forest).map Except.ok = entries lines := by
  unfold document_nodes at h
  cases lines with
  | nil => simp [document_loop, document_finish] at h
  | cons l ls =>
    simp only [document_loop] at h
    cases hdl : document_line max_depth ⟨[], []⟩ l with
    | error e => rw [hdl] at h; exact absurd h (by simp)
    | ok v2 =>
      rw [hdl] at h
      simp only at h
      unfold document_line at hdl
      have hlev : (parse_indentation l.text).1 = l.indentation := rfl
      have hcon : (parse_indentation l.text).2 = l.content := rfl
      simp only at hdl
      rw [hlev, hcon] at hdl
      by_cases hb : l.content = []
      · simp [hb] at hdl
      · simp only [hb, if_false] at hdl
        by_cases h0 : l.indentation = 0
        · simp only [h0, ne_eq, not_true_eq_false, if_false] at hdl
          cases hpn : parse_node
              { node_being_parsed.fresh with indentation_level := 0 }
              l.content l.after false with
          | error e => rw [hpn] at hdl; exact absurd hdl (by simp)
          | ok x =>
            obtain ⟨n, p⟩ := x
            rw [hpn] at hdl
            simp only at hdl
            split at hdl
            · exact absurd hdl (by simp)
            · simp only [Except.ok.injEq] at hdl
              have hnlevel : n.indentation_level = 0 := (parse_node_level _ _ _ _ hpn).1
              have hc : l.is_continuation = false := by
                have := parse_node_ok_not_continuation _ _ _ _ hpn
                simpa [Line.is_continuation] using this
              have hst : stack_ok none [(⟨n, []⟩ : Frame)] :=
                ⟨rfl, by simp, fun _ => hnlevel, trivial⟩
              have hv2 : v2 = ⟨[(⟨n, []⟩ : Frame)].map Frame.to_open, Tree.to_nodes []⟩ := by
                rw [← hdl]
                simp [Frame.new_to_open, Tree.to_nodes]
              rw [hv2] at h
              cases hloop : document_loop max_depth
                  ⟨[(⟨n, []⟩ : Frame)].map Frame.to_open, Tree.to_nodes []⟩ ls with
              | error e => rw [hloop] at h; exact absurd h (by simp)
              | ok v =>
                rw [hloop] at h
                simp only at h
                obtain ⟨forest, hf1, hf2, hf3⟩ := document_frames max_depth ls ⟨n, []⟩ [] []
                  roots hst (by intro t ht; simp at ht) ⟨v, hloop, h⟩
                refine ⟨forest, hf1, hf2, ?_⟩
                rw [hf3]
                rw [← h0] at hpn
                rw [entries_node_line l ls n p hc hpn]
                simp [Tree.preorder_all, spine]
        · simp [h0] at hdl

/-- In a regular tree of indentation 0 the root is the only line of indentation 0. -/
theorem Tree.regular_filter_root (t : Tree) (ht : t.regular) (h0 : t.level = 0) :
    t.preorder.filter (fun x => x.indentation_level = 0) = [t.head] := by
  cases ht with
  | mk h ts hlt hreg _ =>
    simp only [Tree.level, Tree.head] at h0
    simp only [Tree.preorder, Tree.head, List.filter_cons, h0, decide_True, if_true,
      List.cons.injEq, true_and, List.filter_eq_nil_iff, decide_eq_true_eq]
    intro x hx
    obtain ⟨u, hu, hxu⟩ := Tree.mem_preorder_all ts x hx
    have h1 := Tree.regular_level_le u (hreg u hu) x hxu
    have h2 := hlt u hu
    omega

theorem forest_ok_filter_roots (forest : List Tree) (hf : forest_ok forest) :
    (Tree.preorder_all forest).filter (fun x => x.indentation_level = 0) =
      forest.map Tree.head := by
  induction forest with
  | nil => rfl
  | cons t ts ih =>
    have ht := hf t (List.mem_cons_self _ _)
    have hts : forest_ok ts := fun u hu => hf u (List.mem_cons_of_mem _ hu)
    simp only [Tree.preorder_all, List.filter_append, List.map_cons,
      Tree.regular_filter_root t ht.2 ht.1, ih hts, List.singleton_append]

theorem Tree.to_node_name (t : Tree) : t.to_node.name = t.head.name := by
  cases t
  rfl

theorem sibling_names_cook (roots : List node_being_parsed) :
    (cook_nodes roots).sibling_names = roots.map (fun n => n.name) := by
  induction roots with
  | nil => rfl
  | cons n ns ih =>
    cases n
    simp [cook_nodes, cook_node, node.sibling_names, ih]

theorem absorb_lines_level (conts : List Line) (n : node_being_parsed) :
    (absorb_lines n conts).indentation_level = n.indentation_level ∧
      (absorb_lines n conts).name = n.name := by
  induction conts generalizing n with
  | nil => exact ⟨rfl, rfl⟩
  | cons c cs ih =>
    simp only [absorb_lines, List.foldl_cons]
    exact ih (parse_datacont n c.content.tail)

/-- The node of a node line has the indentation of the line and the name declared on
it. -/
theorem line_node_level (l : Line) (conts : List Line) (n : node_being_parsed)
    (h : line_node l conts = .ok n) :
    n.indentation_level = l.indentation ∧ n.name = l.declared_name := by
  unfold line_node at h
  cases hpn : parse_node { node_being_parsed.fresh with indentation_level := l.indentation }
      l.content l.after false with
  | error e => rw [hpn] at h; exact absurd h (by simp)
  | ok x =>
    rw [hpn] at h
    simp only [Except.ok.injEq] at h
    obtain ⟨h1, h2⟩ := parse_node_level _ _ _ _ hpn
    obtain ⟨h3, h4⟩ := absorb_lines_level conts x.1
    rw [← h, close_node_level, close_node_name]
    simp only [absorb_lines] at h3 h4
    exact ⟨by rw [h3, h1], by rw [h4, h2]; rfl⟩

theorem entries_levels :
    ∀ (lines : List Line) (ns : List node_being_parsed), entries lines = ns.map Except.ok →
      ns.map (fun n => (n.indentation_level, n.name)) =
        (lines.filter (fun l => !l.is_continuation)).map
          (fun l => (l.indentation, l.declared_name)) := by
  intro lines
  induction lines with
  | nil =>
    intro ns h
    cases ns with
    | nil => rfl
    | cons n ns => simp [entries] at h
  | cons l ls ih =>
    intro ns h
    by_cases hc : l.is_continuation = true
    · simp only [entries, hc, if_true] at h
      simp only [List.filter_cons, hc, Bool.not_true, Bool.false_eq_true, if_false]
      exact ih ns h
    · have hc' : l.is_continuation = false := by simpa using hc
      simp only [entries, hc', Bool.false_eq_true, if_false] at h
      cases ns with
      | nil => simp at h
      | cons n ns =>
        simp only [List.map_cons, List.cons.injEq] at h
        obtain ⟨h1, h2⟩ := line_node_level l _ n h.1
        simp only [List.filter_cons, hc', Bool.not_false, if_true, List.map_cons, h1, h2,
          List.cons.injEq, true_and]
        exact ih ns h.2

/-! ## How the header parser can fail -/

theorem parse_data_error (in_node : node_being_parsed) (p0 : Bytes) (attr : Bool)
    (e : Failure) (h : parse_data in_node p0 attr = .error e) :
    e = .thrown "Unterminated quoted data" := by
  unfold parse_data at h
  cases p0 with
  | nil => simp at h
  | cons c q =>
    simp only at h
    split at h
    · cases q with
      | nil => simp at h
      | cons q0 p1 =>
        simp only at h
        split at h
        · split at h
          · simp only [Except.error.injEq] at h
            exact h.symm
          · simp at h
        · simp at h
    · split at h
      · simp at h
      · split at h <;> simp at h

theorem parse_header_error (in_node : node_being_parsed) (begin after : Bytes)
    (attr : Bool) (e : Failure) (h : parse_header in_node begin after attr = .error e) :
    parser_failure e := by
  unfold parse_header at h
  cases begin with
  | nil =>
    cases after with
    | nil =>
      simp only [Except.error.injEq] at h
      exact Or.inr (Or.inr h.symm)
    | cons c _ =>
      simp only at h
      split at h
      · simp only [Except.error.injEq] at h
        exact Or.inl h.symm
      · simp only [Except.error.injEq] at h
        exact Or.inr (Or.inr h.symm)
  | cons c rest =>
    simp only at h
    split at h
    · simp only [Except.error.injEq] at h
      exact Or.inl h.symm
    · exact Or.inr (Or.inl (parse_data_error _ _ _ _ h))

theorem comment_follows_error (p after : Bytes) (e : Failure)
    (h : comment_follows p after = .error e) : e = .out_of_bounds := by
  unfold comment_follows at h
  split at h
  · split at h
    · simp only [Except.error.injEq] at h
      exact h.symm
    · split at h
      · split at h
        · simp only [Except.error.injEq] at h
          exact h.symm
        · simp at h
      · simp at h
  · simp at h
  · simp at h

theorem parse_attributes_error (after : Bytes) :
    ∀ (fuel : Nat) (in_node : node_being_parsed) (p : Bytes) (e : Failure),
      parse_attributes fuel in_node p after = .error e → e ≠ .fuel → parser_failure e := by
  intro fuel
  induction fuel with
  | zero =>
    intro in_node p e h hne
    simp only [parse_attributes, Except.error.injEq] at h
    exact absurd h.symm hne
  | succ fuel ih =>
    intro in_node p e h hne
    rw [parse_attributes] at h
    by_cases hp : p = []
    · simp [hp] at h
    · simp only [hp, if_false] at h
      cases hcf : comment_follows (p.dropWhile (fun c => c == ' ')) after with
      | error e2 =>
        rw [hcf] at h
        simp only [Except.error.injEq] at h
        subst h
        exact Or.inr (Or.inr (comment_follows_error _ _ _ hcf))
      | ok b =>
        rw [hcf] at h
        cases b with
        | true => simp at h
        | false =>
          simp only at h
          cases hph : parse_header node_being_parsed.fresh
              (p.dropWhile (fun c => c == ' ')) after true with
          | error e2 =>
            rw [hph] at h
            simp only [Except.error.injEq] at h
            subst h
            exact parse_header_error _ _ _ _ _ hph
          | ok x =>
            rw [hph] at h
            simp only at h
            exact ih _ _ _ h hne

/-- The function `parse_node` fails in three ways only: "Invalid node name", "Unterminated quoted
data", or a read at or behind `end`. -/
theorem parse_node_error (in_node : node_being_parsed) (begin after : Bytes)
    (attr : Bool) (e : Failure) (h : parse_node in_node begin after attr = .error e) :
    parser_failure e := by
  have hnf : e ≠ .fuel := by
    intro he
    subst he
    exact parse_node_not_fuel _ _ _ _ h
  unfold parse_node at h
  cases hph : parse_header in_node begin after attr with
  | error e2 =>
    rw [hph] at h
    simp only [Except.error.injEq] at h
    subst h
    exact parse_header_error _ _ _ _ _ hph
  | ok x =>
    rw [hph] at h
    simp only at h
    split at h
    · exact parse_attributes_error _ _ _ _ _ h hnf
    · simp at h

/-! ## The children a line receives from the header parser -/

theorem parse_data_children (in_node : node_being_parsed) (p0 : Bytes) (attr : Bool)
    (r : node_being_parsed × Bytes) (h : parse_data in_node p0 attr = .ok r) :
    r.1.children = in_node.children := by
  unfold parse_data at h
  cases p0 with
  | nil =>
    simp only [Except.ok.injEq] at h
    subst h
    rfl
  | cons c q =>
    simp only at h
    split at h
    · cases q with
      | nil =>
        simp only [Except.ok.injEq] at h
        subst h
        rfl
      | cons q0 p1 =>
        simp only at h
        split at h
        · split at h
          · simp at h
          · simp only [Except.ok.injEq] at h
            subst h
            rfl
        · simp only [Except.ok.injEq] at h
          subst h
          rfl
    · split at h
      · simp only [Except.ok.injEq] at h
        subst h
        rfl
      · split at h
        · simp only [Except.ok.injEq] at h
          subst h
          rfl
        · simp only [Except.ok.injEq] at h
          subst h
          rfl

theorem parse_header_children (in_node : node_being_parsed) (begin after : Bytes)
    (attr : Bool) (r : node_being_parsed × Bytes)
    (h : parse_header in_node begin after attr = .ok r) :
    r.1.children = in_node.children := by
  unfold parse_header at h
  cases begin with
  | nil =>
    simp only at h
    cases after with
    | nil => exact absurd h (by simp)
    | cons c _ =>
      simp only at h
      split at h <;> exact absurd h (by simp)
  | cons c rest =>
    simp only at h
    split at h
    · simp at h
    · rw [parse_data_children _ _ _ _ h]

theorem parse_attributes_children (after : Bytes) :
    ∀ (fuel : Nat) (in_node : node_being_parsed) (p : Bytes) (r : node_being_parsed × Bytes),
      parse_attributes fuel in_node p after = .ok r →
      ∃ attrs, r.1.children = in_node.children ++ attrs ∧
        ∀ c ∈ attrs, c.indentation_level = 0 ∧ c.children = [] := by
  intro fuel
  induction fuel with
  | zero =>
    intro in_node p r h
    simp [parse_attributes] at h
  | succ fuel ih =>
    intro in_node p r h
    rw [parse_attributes] at h
    by_cases hp : p = []
    · simp only [hp, if_true, Except.ok.injEq] at h
      subst h
      exact ⟨[], by simp, by simp⟩
    · simp only [hp, if_false] at h
      cases hcf : comment_follows (p.dropWhile (fun c => c == ' ')) after with
      | error e => rw [hcf] at h; exact absurd h (by simp)
      | ok b =>
        rw [hcf] at h
        cases b with
        | true =>
          simp only [Except.ok.injEq] at h
          subst h
          exact ⟨[], by simp, by simp⟩
        | false =>
          simp only at h
          cases hph : parse_header node_being_parsed.fresh
              (p.dropWhile (fun c => c == ' ')) after true with
          | error e => rw [hph] at h; exact absurd h (by simp)
          | ok x =>
            rw [hph] at h
            simp only at h
            obtain ⟨attrs, h1, h2⟩ :=
              ih { in_node with children := in_node.children ++ [x.1] } _ _ h
            refine ⟨x.1 :: attrs, by simpa using h1, ?_⟩
            intro c hc
            simp only [List.mem_cons] at hc
            rcases hc with hc | hc
            · subst hc
              exact ⟨(parse_header_level _ _ _ _ _ hph).1,
                parse_header_children _ _ _ _ _ hph⟩
            · exact h2 c hc

/-- The children of a parsed node line are the children it had, followed by inline
attributes: nodes of `indentation_level` 0 without children. -/
theorem parse_node_children (in_node : node_being_parsed) (begin after : Bytes)
    (r : node_being_parsed × Bytes) (h : parse_node in_node begin after false = .ok r) :
    ∃ attrs, r.1.children = in_node.children ++ attrs ∧
      ∀ c ∈ attrs, c.indentation_level = 0 ∧ c.children = [] := by
  unfold parse_node at h
  cases hph : parse_header in_node begin after false with
  | error e => rw [hph] at h; exact absurd h (by simp)
  | ok x =>
    rw [hph] at h
    simp only [Bool.not_false, if_true] at h
    obtain ⟨attrs, h1, h2⟩ := parse_attributes_children _ _ _ _ _ h
    exact ⟨attrs, by rw [h1, parse_header_children _ _ _ _ _ hph], h2⟩

theorem parse_node_inline_ok (level : Nat) (begin after : Bytes)
    (r : node_being_parsed × Bytes)
    (h : parse_node { node_being_parsed.fresh with indentation_level := level }
      begin after false = .ok r) : inline_ok r.1 := by
  obtain ⟨attrs, h1, h2⟩ := parse_node_children _ _ _ _ h
  intro c hc
  rw [h1] at hc
  simp only [node_being_parsed.fresh, List.nil_append] at hc
  exact h2 c hc

theorem close_node_inline_ok (n : node_being_parsed) (h : inline_ok n) :
    inline_ok (close_node n) := by
  intro c hc
  rw [close_node_children] at hc
  exact h c hc

/-! ## The state of the constructor between two lines -/

theorem document_loop_append (max_depth : Nat) :
    ∀ (a b : List Line) (v : Vectors),
      document_loop max_depth v (a ++ b) =
        match document_loop max_depth v a with
        | .error e => .error e
        | .ok v1 => document_loop max_depth v1 b := by
  intro a
  induction a with
  | nil => intro b v; rfl
  | cons l ls ih =>
    intro b v
    simp only [List.cons_append, document_loop]
    cases document_line max_depth v l with
    | error e => rfl
    | ok v1 => exact ih b v1

/-- A line is only accepted when it leaves at most `max_depth` open nodes. -/
theorem document_line_depth (max_depth : Nat) (v v2 : Vectors) (l : Line)
    (h : document_line max_depth v l = .ok v2) : v2.open_nodes.length ≤ max_depth := by
  unfold document_line at h
  simp only at h
  split at h
  · simp at h
  · split at h
    · simp at h
    · rename_i v3 _
      split at h
      · simp at h
      · simp only [Except.ok.injEq] at h
        subst h
        omega

/-- The first line, read with no open node: it is a node line of indentation 0 and its
node becomes the only open node. -/
theorem document_line_first (max_depth : Nat) (dn : List node_being_parsed) (l : Line)
    (v2 : Vectors) (h : document_line max_depth ⟨[], dn⟩ l = .ok v2) :
    l.indentation = 0 ∧ l.is_continuation = false ∧ ∃ n p,
      parse_node { node_being_parsed.fresh with indentation_level := l.indentation }
        l.content l.after false = .ok (n, p) ∧ v2 = ⟨[n], dn⟩ := by
  unfold document_line at h
  have hlev : (parse_indentation l.text).1 = l.indentation := rfl
  have hcon : (parse_indentation l.text).2 = l.content := rfl
  simp only at h
  rw [hlev, hcon] at h
  by_cases hb : l.content = []
  · simp [hb] at h
  · simp only [hb, if_false] at h
    by_cases h0 : l.indentation = 0
    · simp only [h0, ne_eq, not_true_eq_false, if_false] at h
      cases hpn : parse_node { node_being_parsed.fresh with indentation_level := 0 }
          l.content l.after false with
      | error e => rw [hpn] at h; exact absurd h (by simp)
      | ok x =>
        obtain ⟨n, p⟩ := x
        rw [hpn] at h
        simp only at h
        split at h
        · exact absurd h (by simp)
        · simp only [Except.ok.injEq] at h
          refine ⟨h0, ?_, n, p, by rw [h0, hpn], h.symm⟩
          have := parse_node_ok_not_continuation _ _ _ _ hpn
          simpa [Line.is_continuation] using this
    · simp [h0] at h

theorem Tree.height_all_append (a b : List Tree) :
    Tree.height_all (a ++ b) = max (Tree.height_all a) (Tree.height_all b) := by
  induction a with
  | nil => simp [Tree.height_all]
  | cons t ts ih => simp [Tree.height_all, ih, Nat.max_assoc]

theorem Tree.height_le_all (ts : List Tree) (t : Tree) (ht : t ∈ ts) :
    t.height ≤ Tree.height_all ts := by
  induction ts with
  | nil => simp at ht
  | cons u us ih =>
    simp only [List.mem_cons] at ht
    simp only [Tree.height_all]
    rcases ht with ht | ht
    · subst ht
      exact Nat.le_max_left _ _
    · exact Nat.le_trans (ih ht) (Nat.le_max_right _ _)

theorem Frame.close_height (f : Frame) : f.close.height = 1 + Tree.height_all f.done := by
  simp [Frame.close, Tree.height]

theorem depth_ok_absorb (max_depth : Nat) (parent cur : Frame) (below : List Frame)
    (h : depth_ok max_depth (cur :: parent :: below)) :
    depth_ok max_depth (parent.absorb cur.close :: below) := by
  obtain ⟨h1, h2, h3⟩ := h
  refine ⟨?_, h3⟩
  simp only [Frame.absorb, Tree.height_all_append, Tree.height_all, Frame.close_height]
  simp only [List.length_cons] at h1
  omega

/-- What `close_frames` keeps of the depth bound. -/
theorem close_frames_depth (max_depth level : Nat) (finished : List Tree)
    (hfin : ∀ t ∈ finished, t.height ≤ max_depth) :
    ∀ (below : List Frame) (cur : Frame), depth_ok max_depth (cur :: below) →
      (∀ t ∈ (close_frames level cur below finished).2.2, t.height ≤ max_depth) ∧
      depth_ok max_depth (close_frames level cur below finished).2.1 := by
  intro below
  induction below with
  | nil =>
    intro cur h
    simp only [close_frames]
    refine ⟨?_, trivial⟩
    intro t ht
    simp only [List.mem_append, List.mem_singleton] at ht
    rcases ht with ht | ht
    · exact hfin t ht
    · rw [ht, Frame.close_height]
      have := h.1
      simp only [List.length_nil] at this
      omega
  | cons parent below ih =>
    intro cur h
    have habs := depth_ok_absorb max_depth parent cur below h
    simp only [close_frames]
    by_cases hl : level < cur.level
    · simp only [hl, if_true]
      exact ih _ habs
    · simp only [hl, if_false]
      exact ⟨hfin, habs⟩

theorem frames_of_init (max_depth : Nat) : frames_of max_depth ⟨[], []⟩ [] [] := by
  refine ⟨rfl, trivial, ?_, trivial, ?_, ?_, fun _ => rfl⟩
  · intro t ht
    simp at ht
  · intro t ht
    simp at ht
  · intro x hx
    simp [Tree.preorder_all, spine] at hx

/-- One accepted line takes a state given by frames to a state given by frames, with at
least one open node. -/
theorem document_line_frames_of (max_depth : Nat) (v v2 : Vectors) (fs : List Frame)
    (finished : List Tree) (l : Line) (hv : frames_of max_depth v fs finished)
    (h : document_line max_depth v l = .ok v2) :
    ∃ fs2 finished2, frames_of max_depth v2 fs2 finished2 ∧ fs2 ≠ [] := by
  obtain ⟨hv1, hst, hfin, hdep, hfh, hin, hnil⟩ := hv
  have hlen := document_line_depth max_depth v v2 l h
  subst hv1
  cases fs with
  | nil =>
    have hf : finished = [] := hnil rfl
    subst hf
    obtain ⟨h0, hc, n, p, hpn, hv2⟩ := document_line_first max_depth _ l v2 h
    subst hv2
    have hnlevel : n.indentation_level = l.indentation := (parse_node_level _ _ _ _ hpn).1
    refine ⟨[⟨n, []⟩], [], ⟨?_, ?_, hfin, ?_, hfh, ?_, by simp⟩, by simp⟩
    · simp [Frame.new_to_open, Tree.to_nodes]
    · exact ⟨rfl, by simp, fun _ => by simp only [Frame.level]; rw [hnlevel, h0], trivial⟩
    · refine ⟨?_, trivial⟩
      simp only [List.length_cons, List.length_nil] at hlen
      simp only [List.length_nil, Tree.height_all]
      omega
    · intro x hx
      simp only [Tree.preorder_all, spine, List.nil_append, List.mem_singleton] at hx
      subst hx
      exact close_node_inline_ok _ (parse_node_inline_ok _ _ _ _ hpn)
  | cons top rest =>
    have hdone : top.done = [] := hst.1
    rcases document_line_frames max_depth top rest finished l v2 h with
      ⟨hc, hlt, hv2⟩ | ⟨hc, n, p, hpn, hcase⟩
    · -- a continuation line
      subst hv2
      refine ⟨({ top with head := parse_datacont top.head l.content.tail } : Frame) :: rest,
        finished, ⟨rfl, ?_, hfin, ?_, hfh, ?_, by simp⟩, by simp⟩
      · obtain ⟨h1, h2, h3, h4⟩ := hst
        exact ⟨h1, h2, h3, h4⟩
      · exact ⟨hdep.1, hdep.2⟩
      · intro x hx
        simp only [spine, List.mem_append, List.mem_cons] at hx
        rcases hx with hx | hx | hx | hx
        · exact hin x (by simp [hx])
        · exact hin x (by simp [spine, hx])
        · subst hx
          have := hin (close_node top.head) (by simp [spine])
          intro c hc2
          rw [close_node_children] at hc2
          exact this c (by rw [close_node_children]; exact hc2)
        · exact hin x (by simp [spine, hx])
    · have hnlevel : n.indentation_level = l.indentation :=
        (parse_node_level _ _ _ _ hpn).1
      have hnin : inline_ok (close_node n) :=
        close_node_inline_ok _ (parse_node_inline_ok _ _ _ _ hpn)
      rcases hcase with ⟨hlt, hv2⟩ | ⟨hle, hlevel, hv2⟩
      · -- a child
        subst hv2
        refine ⟨(⟨n, []⟩ : Frame) :: top :: rest, finished,
          ⟨rfl, ?_, hfin, ?_, hfh, ?_, by simp⟩, by simp⟩
        · obtain ⟨h1, h2, h3, h4⟩ := hst
          refine ⟨rfl, by simp, by simp, ⟨?_, ?_⟩, h2, h3, h4⟩
          · simp only [Frame.level]
            rw [hnlevel]
            exact hlt
          · simp [hdone]
        · refine ⟨?_, hdep⟩
          simp only [List.length_map, List.length_cons] at hlen
          simp only [List.length_cons, Tree.height_all]
          omega
        · intro x hx
          simp only [spine, List.mem_append, List.mem_cons, Tree.preorder_all,
            List.not_mem_nil, or_false] at hx
          rcases hx with hx | hx | hx
          · exact hin x (by simp [hx])
          · exact hin x (by
              simp only [spine, List.mem_append, List.mem_cons]
              rcases hx with hx | hx | hx
              · exact Or.inr (Or.inl hx)
              · exact Or.inr (Or.inr (Or.inl hx))
              · exact Or.inr (Or.inr (Or.inr hx)))
          · subst hx
            exact hnin
      · -- frames are closed down to the indentation of the line
        subst hv2
        obtain ⟨c1, c2, c3, c4⟩ :=
          close_frames_ok l.indentation finished hfin rest top none hst
        obtain ⟨d1, d2⟩ := close_frames_depth max_depth l.indentation finished hfh rest top hdep
        rw [hlevel] at c2 c3
        refine ⟨(⟨n, []⟩ : Frame) :: (close_frames l.indentation top rest finished).2.1,
          (close_frames l.indentation top rest finished).2.2,
          ⟨rfl, ?_, c1, ?_, d1, ?_, by simp⟩, by simp⟩
        · refine ⟨rfl, by simp, ?_, ?_⟩
          · intro hnil2
            simp only [Frame.level]
            rw [hnlevel]
            exact c3 hnil2
          · simp only [Frame.level]
            rw [hnlevel]
            exact c2
        · refine ⟨?_, d2⟩
          simp only [List.length_map, List.length_cons] at hlen
          simp only [Tree.height_all]
          omega
        · intro x hx
          simp only [spine, Tree.preorder_all, List.mem_append, List.mem_cons,
            List.not_mem_nil, or_false] at hx
          have hx2 : x ∈ Tree.preorder_all (close_frames l.indentation top rest finished).2.2 ++
              spine (close_frames l.indentation top rest finished).2.1 ∨ x = close_node n := by
            simp only [List.mem_append]
            rcases hx with hx | hx | hx
            · exact Or.inl (Or.inl hx)
            · exact Or.inl (Or.inr hx)
            · exact Or.inr hx
          rcases hx2 with hx2 | hx2
          · rw [c4] at hx2
            exact hin x hx2
          · subst hx2
            exact hnin

/-- The lines accepted so far leave a state given by frames. -/
theorem document_loop_frames_of (max_depth : Nat) :
    ∀ (lines : List Line) (v v2 : Vectors) (fs : List Frame) (finished : List Tree),
      frames_of max_depth v fs finished → document_loop max_depth v lines = .ok v2 →
      ∃ fs2 finished2, frames_of max_depth v2 fs2 finished2 ∧
        (fs ≠ [] ∨ lines ≠ [] → fs2 ≠ []) := by
  intro lines
  induction lines with
  | nil =>
    intro v v2 fs finished hv h
    simp only [document_loop, Except.ok.injEq] at h
    subst h
    exact ⟨fs, finished, hv, fun h => h.elim id (fun h => absurd rfl h)⟩
  | cons l ls ih =>
    intro v v2 fs finished hv h
    simp only [document_loop] at h
    cases hdl : document_line max_depth v l with
    | error e => rw [hdl] at h; exact absurd h (by simp)
    | ok v1 =>
      rw [hdl] at h
      simp only at h
      obtain ⟨fs1, fin1, hv1, hne⟩ := document_line_frames_of max_depth v v1 fs finished l hv hdl
      obtain ⟨fs2, fin2, hv2, hne2⟩ := ih v1 v2 fs1 fin1 hv1 h
      exact ⟨fs2, fin2, hv2, fun _ => hne2 (Or.inl hne)⟩

/-- After the lines accepted so far the state of the constructor is given by frames. -/
theorem document_loop_reachable (max_depth : Nat) (pre : List Line) (v : Vectors)
    (h : document_loop max_depth ⟨[], []⟩ pre = .ok v) :
    ∃ fs finished, frames_of max_depth v fs finished ∧ (pre ≠ [] → fs ≠ []) := by
  obtain ⟨fs, fin, h1, h2⟩ :=
    document_loop_frames_of max_depth pre _ v [] [] (frames_of_init max_depth) h
  exact ⟨fs, fin, h1, fun hp => h2 (Or.inr hp)⟩

/-! ## The ancestor branch -/

theorem stack_ok_levels :
    ∀ (fs : List Frame) (u : Nat), stack_ok (some u) fs → ∀ f ∈ fs, f.level < u := by
  intro fs
  induction fs with
  | nil =>
    intro u _ f hf
    simp at hf
  | cons g rest ih =>
    intro u h f hf
    obtain ⟨⟨hlt, _⟩, _, _, hrest⟩ := h
    simp only [List.mem_cons] at hf
    rcases hf with hf | hf
    · subst hf
      exact hlt
    · exact Nat.lt_trans (ih g.level hrest f hf) hlt

/-- The slot at which the ancestor loop stops has the indentation of the line exactly
when some open node has that indentation. -/
theorem close_frames_target (level : Nat) (finished : List Tree) :
    ∀ (below : List Frame) (cur : Frame) (up : Option Nat), stack_ok up (cur :: below) →
      ((close_frames level cur below finished).1 = level ↔
        ∃ f ∈ cur :: below, f.level = level) := by
  intro below
  induction below with
  | nil =>
    intro cur up _
    simp [close_frames]
  | cons parent below ih =>
    intro cur up h
    have habs := stack_ok_absorb parent cur below up h
    have hlevels := stack_ok_levels (parent :: below) cur.level h.2.2.2
    simp only [close_frames]
    by_cases hl : level < cur.level
    · simp only [hl, if_true]
      rw [ih _ _ habs]
      constructor
      · rintro ⟨f, hf, hfl⟩
        simp only [List.mem_cons] at hf
        rcases hf with hf | hf
        · subst hf
          exact ⟨parent, by simp, hfl⟩
        · exact ⟨f, by simp [hf], hfl⟩
      · rintro ⟨f, hf, hfl⟩
        simp only [List.mem_cons] at hf
        rcases hf with hf | hf | hf
        · subst hf
          omega
        · subst hf
          exact ⟨f.absorb cur.close, by simp, hfl⟩
        · exact ⟨f, by simp [hf], hfl⟩
    · simp only [hl, if_false]
      constructor
      · intro hc
        exact ⟨cur, by simp, hc⟩
      · rintro ⟨f, hf, hfl⟩
        simp only [List.mem_cons] at hf
        rcases hf with hf | hf | hf
        · subst hf
          exact hfl
        · subst hf
          have := hlevels f (by simp)
          omega
        · have := hlevels f (by simp [hf])
          omega

theorem parser_failure_ne (e : Failure) (h : parser_failure e) :
    e ≠ .thrown "Invalid indentation level" ∧ e ≠ .thrown "Document too deep" ∧
      e ≠ .thrown "Indented node has no parent" ∧ e ≠ .thrown "Blank indented line." ∧
      e ≠ .thrown "Empty document" := by
  rcases h with h | h | h <;> subst h <;> decide

/-- A line that dedents is rejected with "Invalid indentation level" exactly when the
ancestor loop stops at a slot of another indentation. -/
theorem document_line_ancestor (max_depth : Nat) (top : Frame) (rest : List Frame)
    (finished : List Tree) (l : Line) (hcontent : l.content ≠ [])
    (hlt : l.indentation < top.level) :
    document_line max_depth ⟨(top :: rest).map Frame.to_open, Tree.to_nodes finished⟩ l =
        .error (.thrown "Invalid indentation level") ↔
      (close_frames l.indentation top rest finished).1 ≠ l.indentation := by
  unfold document_line
  have hlev : (parse_indentation l.text).1 = l.indentation := rfl
  have hcon : (parse_indentation l.text).2 = l.content := rfl
  simp only [List.map_cons]
  rw [hlev, hcon]
  have h1 : l.indentation < top.to_open.indentation_level := hlt
  simp only [hcontent, if_false, h1, if_true, close_ancestors_frames]
  by_cases h2 : l.indentation = (close_frames l.indentation top rest finished).1
  · simp only [← h2, ne_eq, not_true_eq_false, if_false, iff_false]
    cases hpn : parse_node { node_being_parsed.fresh with indentation_level := l.indentation }
        l.content l.after false with
    | error e =>
      simp only
      intro h
      simp only [Except.error.injEq] at h
      exact (parser_failure_ne e (parse_node_error _ _ _ _ _ hpn)).1 h
    | ok x =>
      simp only
      split
      · simp only [Except.error.injEq, Failure.thrown.injEq]
        decide
      · simp
  · have h3 : ¬ (close_frames l.indentation top rest finished).1 = l.indentation :=
      fun h => h2 h.symm
    simp [h2, h3]

/-! ## The bottom of the stack and lines without content -/

theorem stack_ok_bottom :
    ∀ (fs : List Frame) (up : Option Nat), stack_ok up fs →
      ∀ f, fs.getLast? = some f → f.level = 0 := by
  intro fs
  induction fs with
  | nil =>
    intro up _ f hf
    simp at hf
  | cons g rest ih =>
    intro up h f hf
    obtain ⟨_, _, hbot, hrest⟩ := h
    cases rest with
    | nil =>
      simp only [List.getLast?_singleton, Option.some.injEq] at hf
      subst hf
      exact hbot rfl
    | cons g2 rest2 =>
      rw [List.getLast?_cons_cons] at hf
      exact ih _ hrest f hf

theorem document_of_lines_prefix (max_depth : Nat) (pre rest : List Line) (v : Vectors)
    (l : Line) (e : Failure) (hpre : document_loop max_depth ⟨[], []⟩ pre = .ok v)
    (hl : document_line max_depth v l = .error e) :
    document_of_lines (pre ++ l :: rest) max_depth = .error e := by
  simp [document_of_lines, document_nodes, document_loop_append, hpre, document_loop, hl]

theorem parse_indentation_all_blank (ws : Bytes) (hws : ∀ c ∈ ws, c = ' ' ∨ c = '\t') :
    parse_indentation ws = (ws.length, []) := by
  have h := parse_indentation_blank ws [] hws (by simp)
  rw [List.append_nil] at h
  exact h

/-- A line of spaces and tabs only is rejected in every state. -/
theorem document_line_blank (max_depth : Nat) (v : Vectors) (ws after : Bytes)
    (hws : ∀ c ∈ ws, c = ' ' ∨ c = '\t') :
    document_line max_depth v ⟨ws, after⟩ = .error (.thrown "Blank indented line.") := by
  unfold document_line
  simp [parse_indentation_all_blank ws hws]

/-! ## The forest of a root list is unique -/

/-- Induction on trees: a property holds of every tree when it holds of a tree as soon
as it holds of the trees nested in it. -/
theorem Tree.nested_induction (P : Tree → Prop)
    (h : ∀ head ts, (∀ t ∈ ts, P t) → P (.mk head ts)) (t : Tree) : P t :=
  @Tree.rec P (fun ts => ∀ t ∈ ts, P t) (fun head ts ih => h head ts ih)
    (fun t ht => absurd ht (List.not_mem_nil t))
    (fun t ts iht ihts u hu => by
      rcases List.mem_cons.mp hu with hu | hu
      · rw [hu]
        exact iht
      · exact ihts u hu) t

theorem Tree.mem_preorder_all_of_mem (ts : List Tree) (t : Tree) (x : node_being_parsed)
    (ht : t ∈ ts) (hx : x ∈ t.preorder) : x ∈ Tree.preorder_all ts := by
  induction ts with
  | nil => simp at ht
  | cons u us ih =>
    simp only [Tree.preorder_all, List.mem_append]
    rcases List.mem_cons.mp ht with ht | ht
    · subst ht
      exact Or.inl hx
    · exact Or.inr (ih ht)

theorem Tree.to_node_level (t : Tree) : t.to_node.indentation_level = t.level := by
  cases t
  rfl

/-- A list of nodes splits in one way only into nodes of indentation 0 followed by
nodes of another indentation. -/
theorem split_by_level :
    ∀ (a a' b b' : List node_being_parsed),
      (∀ c ∈ a, c.indentation_level = 0) → (∀ c ∈ a', c.indentation_level = 0) →
      (∀ c ∈ b, 0 < c.indentation_level) → (∀ c ∈ b', 0 < c.indentation_level) →
      a ++ b = a' ++ b' → a = a' ∧ b = b' := by
  intro a
  induction a with
  | nil =>
    intro a' b b' _ ha' hb _ h
    cases a' with
    | nil => exact ⟨rfl, by simpa using h⟩
    | cons y ys =>
      simp only [List.nil_append, List.cons_append] at h
      have h1 := ha' y (List.mem_cons_self _ _)
      have h2 := hb y (by rw [h]; exact List.mem_cons_self _ _)
      omega
  | cons x xs ih =>
    intro a' b b' ha ha' hb hb' h
    cases a' with
    | nil =>
      simp only [List.nil_append, List.cons_append] at h
      have h1 := ha x (List.mem_cons_self _ _)
      have h2 := hb' x (by rw [← h]; exact List.mem_cons_self _ _)
      omega
    | cons y ys =>
      simp only [List.cons_append, List.cons.injEq] at h
      obtain ⟨h1, h2⟩ := ih ys b b' (fun c hc => ha c (List.mem_cons_of_mem _ hc))
        (fun c hc => ha' c (List.mem_cons_of_mem _ hc)) hb hb' h.2
      exact ⟨by rw [h.1, h1], h2⟩

theorem Tree.to_nodes_injective (Q : Tree → Prop) :
    ∀ (ts ts' : List Tree),
      (∀ t ∈ ts, ∀ t', Q t' → t.to_node = t'.to_node → t = t') → (∀ t' ∈ ts', Q t') →
      Tree.to_nodes ts = Tree.to_nodes ts' → ts = ts' := by
  intro ts
  induction ts with
  | nil =>
    intro ts' _ _ h
    cases ts' with
    | nil => rfl
    | cons u us => simp [Tree.to_nodes] at h
  | cons t ts ih =>
    intro ts' hinj hq h
    cases ts' with
    | nil => simp [Tree.to_nodes] at h
    | cons u us =>
      simp only [Tree.to_nodes, List.cons.injEq] at h
      have h1 := hinj t (List.mem_cons_self _ _) u (hq u (List.mem_cons_self _ _)) h.1
      have h2 := ih us (fun t ht => hinj t (List.mem_cons_of_mem _ ht))
        (fun t ht => hq t (List.mem_cons_of_mem _ ht)) h.2
      rw [h1, h2]

/-- A tree whose nested lines are indented deeper than their parents and whose lines have
inline attributes as their own children is determined by its `node_being_parsed`. -/
theorem Tree.to_node_injective (t : Tree) :
    t.regular → (∀ x ∈ t.preorder, inline_ok x) →
    ∀ t' : Tree, (t'.regular ∧ ∀ x ∈ t'.preorder, inline_ok x) →
      t.to_node = t'.to_node → t = t' := by
  induction t using Tree.nested_induction with
  | h head ts ih =>
    intro hreg hin t' ht' heq
    obtain ⟨hreg', hin'⟩ := ht'
    cases t' with
    | mk head' ts' =>
      cases hreg with
      | mk _ _ hlt hregs _ =>
        cases hreg' with
        | mk _ _ hlt' hregs' _ =>
          simp only [Tree.to_node, node_being_parsed.mk.injEq] at heq
          obtain ⟨hname, hdata, hlevel, hchildren⟩ := heq
          have hdeep : ∀ (h0 : node_being_parsed) (us : List Tree),
              (∀ u ∈ us, h0.indentation_level < u.level) →
              ∀ c ∈ Tree.to_nodes us, 0 < c.indentation_level := by
            intro h0 us hus c hc
            rw [Tree.to_nodes_eq_map] at hc
            obtain ⟨u, hu, huc⟩ := List.mem_map.mp hc
            rw [← huc, Tree.to_node_level]
            exact Nat.lt_of_le_of_lt (Nat.zero_le _) (hus u hu)
          obtain ⟨h1, h2⟩ := split_by_level head.children head'.children
            (Tree.to_nodes ts) (Tree.to_nodes ts')
            (fun c hc => (hin head (by simp [Tree.preorder]) c hc).1)
            (fun c hc => (hin' head' (by simp [Tree.preorder]) c hc).1)
            (hdeep head ts hlt) (hdeep head' ts' hlt') hchildren
          have hts : ts = ts' := by
            apply Tree.to_nodes_injective
              (fun u => u.regular ∧ ∀ x ∈ u.preorder, inline_ok x) ts ts' _ _ h2
            · intro u hu u' hu' huu
              exact ih u hu (hregs u hu)
                (fun x hx => hin x (by
                  simp only [Tree.preorder, List.mem_cons]
                  exact Or.inr (Tree.mem_preorder_all_of_mem ts u x hu hx))) u' hu' huu
            · intro u' hu'
              exact ⟨hregs' u' hu', fun x hx => hin' x (by
                simp only [Tree.preorder, List.mem_cons]
                exact Or.inr (Tree.mem_preorder_all_of_mem ts' u' x hu' hx))⟩
          have hhead : head = head' := by
            cases head
            cases head'
            simp only at hname hdata hlevel h1
            simp [hname, hdata, hlevel, h1]
          rw [hts, hhead]

/-- The forest of a root list is unique. -/
theorem forest_unique (forest forest' : List Tree)
    (h1 : ∀ t ∈ forest, t.regular ∧ ∀ x ∈ t.preorder, inline_ok x)
    (h2 : ∀ t ∈ forest', t.regular ∧ ∀ x ∈ t.preorder, inline_ok x)
    (h : Tree.to_nodes forest = Tree.to_nodes forest') : forest = forest' :=
  Tree.to_nodes_injective (fun u => u.regular ∧ ∀ x ∈ u.preorder, inline_ok x) forest forest'
    (fun t ht t' ht' htt => Tree.to_node_injective t (h1 t ht).1 (h1 t ht).2 t' ht' htt)
    h2 h

/-! ## The depth of the finished forest -/

theorem absorb_lines_children (conts : List Line) (n : node_being_parsed) :
    (absorb_lines n conts).children = n.children := by
  induction conts generalizing n with
  | nil => rfl
  | cons c cs ih =>
    simp only [absorb_lines, List.foldl_cons]
    exact ih (parse_datacont n c.content.tail)

theorem line_node_inline_ok (l : Line) (conts : List Line) (x : node_being_parsed)
    (h : line_node l conts = .ok x) : inline_ok x := by
  unfold line_node at h
  cases hpn : parse_node { node_being_parsed.fresh with indentation_level := l.indentation }
      l.content l.after false with
  | error e => rw [hpn] at h; exact absurd h (by simp)
  | ok r =>
    rw [hpn] at h
    simp only [Except.ok.injEq] at h
    subst h
    apply close_node_inline_ok
    have h1 := parse_node_inline_ok _ _ _ _ hpn
    have h2 := absorb_lines_children conts r.1
    intro c hc
    simp only [absorb_lines] at h2
    rw [h2] at hc
    exact h1 c hc

/-- The own children of every node of a node line are inline attributes. -/
theorem entries_inline_ok :
    ∀ (lines : List Line) (x : node_being_parsed), .ok x ∈ entries lines → inline_ok x := by
  intro lines
  induction lines with
  | nil =>
    intro x hx
    simp [entries] at hx
  | cons l ls ih =>
    intro x hx
    simp only [entries] at hx
    split at hx
    · exact ih x hx
    · rcases List.mem_cons.mp hx with hx | hx
      · exact line_node_inline_ok l _ x hx.symm
      · exact ih x hx

/-- What `close_all_frames` keeps of the depth bound. -/
theorem close_all_frames_depth (max_depth : Nat) (finished : List Tree)
    (hfin : ∀ t ∈ finished, t.height ≤ max_depth) :
    ∀ (below : List Frame) (cur : Frame), depth_ok max_depth (cur :: below) →
      ∀ t ∈ close_all_frames cur below finished, t.height ≤ max_depth := by
  intro below
  induction below with
  | nil =>
    intro cur h t ht
    simp only [close_all_frames, List.mem_append, List.mem_singleton] at ht
    rcases ht with ht | ht
    · exact hfin t ht
    · rw [ht, Frame.close_height]
      have := h.1
      simp only [List.length_nil] at this
      omega
  | cons parent below ih =>
    intro cur h
    simp only [close_all_frames]
    exact ih _ (depth_ok_absorb max_depth parent cur below h)

/-- The constructor on the lines of an input: its roots are the nodes of one forest of
regular trees of indentation 0, whose lines, in document order, are the entries of the
node lines, have inline attributes as their own children, and are nested at most
`max_depth` deep. -/
theorem document_nodes_forest_depth (lines : List Line) (max_depth : Nat)
    (roots : List node_being_parsed) (h : document_nodes lines max_depth = .ok roots) :
    ∃ forest, roots = Tree.to_nodes forest ∧ forest_ok forest ∧
      (Tree.preorder_all forest).map Except.ok = entries lines ∧
      (∀ x ∈ Tree.preorder_all forest, inline_ok x) ∧
      ∀ t ∈ forest, t.height ≤ max_depth := by
  obtain ⟨forest, h1, h2, h3⟩ := document_nodes_forest lines max_depth roots h
  have h4 : ∀ x ∈ Tree.preorder_all forest, inline_ok x := by
    intro x hx
    apply entries_inline_ok lines x
    rw [← h3]
    exact List.mem_map_of_mem _ hx
  refine ⟨forest, h1, h2, h3, h4, ?_⟩
  unfold document_nodes at h
  cases hloop : document_loop max_depth ⟨[], []⟩ lines with
  | error e => rw [hloop] at h; exact absurd h (by simp)
  | ok v =>
    rw [hloop] at h
    simp only at h
    obtain ⟨fs, finished, hfr, _⟩ := document_loop_reachable max_depth lines v hloop
    obtain ⟨hv, hst, hfin, hdep, hfh, hin, _⟩ := hfr
    subst hv
    cases fs with
    | nil => simp [document_finish] at h
    | cons top rest =>
      simp only [document_finish, List.map_cons, Except.ok.injEq] at h
      rw [close_all_eq_frames] at h
      obtain ⟨c1, c2⟩ := close_all_frames_ok finished hfin rest top none hst
      have hd := close_all_frames_depth max_depth finished hfh rest top hdep
      have huniq : forest = close_all_frames top rest finished := by
        apply forest_unique
        · intro t ht
          exact ⟨(h2 t ht).2, fun x hx =>
            h4 x (Tree.mem_preorder_all_of_mem forest t x ht hx)⟩
        · intro t ht
          refine ⟨(c1 t ht).2, fun x hx => hin x ?_⟩
          rw [← c2]
          exact Tree.mem_preorder_all_of_mem _ t x ht hx
        · rw [← h1, ← h]
      rw [huniq]
      exact hd

theorem Tree.height_all_le (ts : List Tree) (n : Nat) (h : ∀ t ∈ ts, t.height ≤ n) :
    Tree.height_all ts ≤ n := by
  induction ts with
  | nil => simp [Tree.height_all]
  | cons t ts ih =>
    simp only [Tree.height_all, Nat.max_le]
    exact ⟨h t (List.mem_cons_self _ _), ih (fun u hu => h u (List.mem_cons_of_mem _ hu))⟩

theorem cook_nodes_cons (x : node_being_parsed) (rest : List node_being_parsed) :
    cook_nodes (x :: rest) = .mk x.name x.data (cook_nodes x.children) (cook_nodes rest) := by
  cases x
  simp [cook_nodes, cook_node]

theorem node.height_cook_append (a b : List node_being_parsed) :
    (cook_nodes (a ++ b)).height = max (cook_nodes a).height (cook_nodes b).height := by
  induction a with
  | nil => simp [cook_nodes, node.height]
  | cons x xs ih =>
    simp only [List.cons_append, cook_nodes_cons, node.height, ih, Nat.max_assoc]

theorem node.height_cook_leaves (cs : List node_being_parsed)
    (h : ∀ c ∈ cs, c.children = []) : (cook_nodes cs).height ≤ 1 := by
  induction cs with
  | nil => simp [cook_nodes, node.height]
  | cons c cs ih =>
    have hc := h c (List.mem_cons_self _ _)
    have := ih (fun x hx => h x (List.mem_cons_of_mem _ hx))
    rw [cook_nodes_cons, hc]
    simp only [node.height, cook_nodes]
    omega

theorem node.height_cook_trees (ts : List Tree)
    (h : ∀ t ∈ ts, (cook_nodes [t.to_node]).height ≤ t.height + 1) :
    (cook_nodes (Tree.to_nodes ts)).height ≤ Tree.height_all ts + 1 := by
  induction ts with
  | nil => simp [Tree.to_nodes, cook_nodes, node.height]
  | cons t ts ih =>
    have h1 := h t (List.mem_cons_self _ _)
    have h2 := ih (fun u hu => h u (List.mem_cons_of_mem _ hu))
    have h3 := node.height_cook_append [t.to_node] (Tree.to_nodes ts)
    simp only [List.singleton_append] at h3
    simp only [Tree.to_nodes, Tree.height_all, h3]
    omega

/-- Frozen, a tree is at most one level higher than it has nested lines: the extra
level is that of the inline attributes. -/
theorem node.height_cook_tree (t : Tree) :
    (∀ x ∈ t.preorder, inline_ok x) → (cook_nodes [t.to_node]).height ≤ t.height + 1 := by
  induction t using Tree.nested_induction with
  | h head ts ih =>
    intro hin
    have h1 : (cook_nodes head.children).height ≤ 1 :=
      node.height_cook_leaves _ (fun c hc => (hin head (by simp [Tree.preorder]) c hc).2)
    have h2 := node.height_cook_trees ts (fun u hu => ih u hu (fun x hx => hin x (by
      simp only [Tree.preorder, List.mem_cons]
      exact Or.inr (Tree.mem_preorder_all_of_mem ts u x hu hx))))
    rw [cook_nodes_cons]
    simp only [Tree.to_node, cook_nodes, node.height, Tree.height, node.height_cook_append]
    omega

/-! ## A chain of nested lines with bare names -/

theorem parse_node_bare (in_node : node_being_parsed) (n after : Bytes)
    (hne : n ≠ []) (hn : ∀ c ∈ n, is_valid_name_char c = true) :
    parse_node in_node n after false = .ok ({ in_node with name := n }, []) := by
  simp [parse_node, parse_header_bare in_node n after false hne hn, parse_attributes]

/-- A line with a bare name that is the first line at indentation 0, or is indented
deeper than the most recent open node, opens a node on top of the stack, unless the
stack gets higher than `max_depth`. -/
theorem document_line_chain (max_depth : Nat) (stack dn : List node_being_parsed) (l : Line)
    (hne : l.content ≠ []) (hn : ∀ c ∈ l.content, is_valid_name_char c = true)
    (hs : match stack with
      | [] => l.indentation = 0
      | top :: _ => top.indentation_level < l.indentation) :
    document_line max_depth ⟨stack, dn⟩ l =
      if stack.length + 1 > max_depth then .error (.thrown "Document too deep")
      else .ok ⟨⟨l.content, [], l.indentation, []⟩ :: stack, dn⟩ := by
  unfold document_line
  have hlev : (parse_indentation l.text).1 = l.indentation := rfl
  have hcon : (parse_indentation l.text).2 = l.content := rfl
  simp only
  rw [hlev, hcon]
  have hpn : ∀ level : Nat,
      parse_node { node_being_parsed.fresh with indentation_level := level }
        l.content l.after false = .ok (⟨l.content, [], level, []⟩, []) := by
    intro level
    rw [parse_node_bare _ _ _ hne hn]
    rfl
  cases stack with
  | nil =>
    simp only at hs
    simp [hne, hs, hpn]
  | cons top below =>
    simp only at hs
    have h1 : ¬ l.indentation < top.indentation_level := by omega
    have h2 : l.content.head? ≠ some ':' := by
      cases hcont : l.content with
      | nil => exact absurd hcont hne
      | cons c q =>
        have hc := hn c (by rw [hcont]; exact List.mem_cons_self _ _)
        simp only [List.head?_cons, ne_eq, Option.some.injEq]
        intro h
        subst h
        exact absurd hc (by decide)
    simp [hne, h1, hs, h2, hpn]

theorem document_loop_chain (max_depth : Nat) (dn : List node_being_parsed) :
    ∀ (lines : List Line) (stack : List node_being_parsed),
      (∀ l ∈ lines, l.content ≠ [] ∧ ∀ c ∈ l.content, is_valid_name_char c = true) →
      lines.Chain' (fun a b => a.indentation < b.indentation) →
      (∀ l, lines.head? = some l → match stack with
        | [] => l.indentation = 0
        | top :: _ => top.indentation_level < l.indentation) →
      document_loop max_depth ⟨stack, dn⟩ lines =
        if lines = [] ∨ stack.length + lines.length ≤ max_depth then
          .ok ⟨(lines.map (fun l => (⟨l.content, [], l.indentation, []⟩ :
            node_being_parsed))).reverse ++ stack, dn⟩
        else .error (.thrown "Document too deep") := by
  intro lines
  induction lines with
  | nil =>
    intro stack _ _ _
    simp [document_loop]
  | cons l ls ih =>
    intro stack hnames hchain hs
    have hl := hnames l (List.mem_cons_self _ _)
    rw [document_loop, document_line_chain max_depth stack dn l hl.1 hl.2 (hs l rfl)]
    by_cases hd : stack.length + 1 > max_depth
    · have : ¬ (stack.length + (ls.length + 1) ≤ max_depth) := by omega
      simp [hd, this]
    · simp only [hd, if_false]
      rw [ih _ (fun x hx => hnames x (List.mem_cons_of_mem _ hx)) (List.Chain'.tail hchain)]
      · by_cases hls : ls = []
        · subst hls
          have : stack.length + 1 ≤ max_depth := by omega
          simp [this]
        · have hiff : (stack.length + 1 + ls.length ≤ max_depth) ↔
              (stack.length + (ls.length + 1) ≤ max_depth) := by omega
          simp [hls, hiff]
      · intro l2 hl2
        cases ls with
        | nil => simp at hl2
        | cons x xs =>
          simp only [List.head?_cons, Option.some.injEq] at hl2
          subst hl2
          exact (List.chain'_cons.mp hchain).1

/-- The roots left by the loop "Close all remaining nodes" for a stack of open nodes,
innermost first, when there is no finished root yet. -/
theorem close_all_bottom (cur : node_being_parsed) :
    ∀ (below : List node_being_parsed) (bottom : node_being_parsed)
      (dn : List node_being_parsed),
      close_all cur (below ++ [bottom]) dn =
        dn ++ [close_node { bottom with children := bottom.children ++ close_all cur below [] }] := by
  intro below
  induction below generalizing cur with
  | nil =>
    intro bottom dn
    simp [close_all]
  | cons p ps ih =>
    intro bottom dn
    simp only [List.cons_append, close_all]
    exact ih _ bottom dn

/-- Finished and frozen, a stack of nested childless nodes without data is a chain. -/
theorem cook_nodes_chain :
    ∀ (l : Line) (ls : List Line) (stack : List node_being_parsed),
      (l :: ls).reverse.map (fun l => (⟨l.content, [], l.indentation, []⟩ :
        node_being_parsed)) = stack →
      ∃ cur below, stack = cur :: below ∧
        cook_nodes (close_all cur below []) = chain_node ((l :: ls).map Line.content) := by
  intro l ls
  induction ls generalizing l with
  | nil =>
    intro stack h
    simp only [List.reverse_cons, List.reverse_nil, List.nil_append, List.map_cons,
      List.map_nil] at h
    subst h
    exact ⟨_, [], rfl, by simp [close_all, close_node, cook_nodes, cook_node, chain_node]⟩
  | cons l2 ls ih =>
    intro stack h
    obtain ⟨cur, below, h1, h2⟩ := ih l2 _ rfl
    rw [List.reverse_cons, List.map_append, h1] at h
    simp only [List.map_cons, List.map_nil, List.cons_append] at h
    subst h
    refine ⟨cur, _, rfl, ?_⟩
    rw [close_all_bottom]
    simp only [List.nil_append, close_node, ne_eq, not_true_eq_false, if_false]
    rw [cook_nodes_cons]
    simp only [h2, cook_nodes]
    rfl

/-! ## The name and the quoted data of a header -/

theorem parse_attributes_data (after : Bytes) :
    ∀ (fuel : Nat) (in_node : node_being_parsed) (p : Bytes) (r : node_being_parsed × Bytes),
      parse_attributes fuel in_node p after = .ok r → r.1.data = in_node.data := by
  intro fuel
  induction fuel with
  | zero =>
    intro in_node p r h
    simp [parse_attributes] at h
  | succ fuel ih =>
    intro in_node p r h
    rw [parse_attributes] at h
    by_cases hp : p = []
    · simp only [hp, if_true, Except.ok.injEq] at h
      subst h
      rfl
    · simp only [hp, if_false] at h
      cases hcf : comment_follows (p.dropWhile (fun c => c == ' ')) after with
      | error e => rw [hcf] at h; exact absurd h (by simp)
      | ok b =>
        rw [hcf] at h
        cases b with
        | true =>
          simp only [Except.ok.injEq] at h
          subst h
          rfl
        | false =>
          simp only at h
          cases hph : parse_header node_being_parsed.fresh
              (p.dropWhile (fun c => c == ' ')) after true with
          | error e => rw [hph] at h; exact absurd h (by simp)
          | ok x =>
            rw [hph] at h
            simp only at h
            exact ih { in_node with children := in_node.children ++ [x.1] } _ _ h

/-- The leading bytes that satisfy `p` are the longest prefix whose bytes all satisfy
`p`. -/
theorem takeWhile_longest (p : Char → Bool) :
    ∀ (w pre : Bytes), pre <+: w → (∀ x ∈ pre, p x = true) → pre <+: w.takeWhile p := by
  intro w
  induction w with
  | nil =>
    intro pre hpre _
    rw [List.prefix_nil] at hpre
    subst hpre
    exact List.nil_prefix
  | cons c w ih =>
    intro pre hpre hall
    cases pre with
    | nil => exact List.nil_prefix
    | cons d pre =>
      rw [List.cons_prefix_cons] at hpre
      obtain ⟨hd, hpre⟩ := hpre
      subst hd
      have hc := hall d (List.mem_cons_self _ _)
      rw [List.takeWhile_cons, hc]
      simp only [if_true]
      rw [List.cons_prefix_cons]
      exact ⟨rfl, ih pre hpre (fun x hx => hall x (List.mem_cons_of_mem _ hx))⟩

theorem parse_header_invalid (in_node : node_being_parsed) (c : Char) (rest after : Bytes)
    (attr : Bool) (hc : is_valid_name_char c = false) :
    parse_header in_node (c :: rest) after attr = .error (.thrown "Invalid node name") := by
  simp [parse_header, hc]

theorem parse_header_valid (in_node : node_being_parsed) (c : Char) (rest after : Bytes)
    (attr : Bool) (hc : is_valid_name_char c = true) :
    parse_header in_node (c :: rest) after attr =
      parse_data { in_node with name := (c :: rest).takeWhile is_valid_name_char }
        ((c :: rest).dropWhile is_valid_name_char) attr := by
  simp [parse_header, hc, List.takeWhile_cons, List.dropWhile_cons]

/-- The name of a parsed node, attribute or not, is the run of name characters at the
start of the line. -/
theorem parse_node_name (in_node : node_being_parsed) (begin after : Bytes) (attr : Bool)
    (r : node_being_parsed × Bytes) (h : parse_node in_node begin after attr = .ok r) :
    r.1.name = begin.takeWhile is_valid_name_char := by
  cases attr with
  | false => exact (parse_node_level _ _ _ _ h).2
  | true =>
    unfold parse_node at h
    cases hph : parse_header in_node begin after true with
    | error e => rw [hph] at h; exact absurd h (by simp)
    | ok x =>
      rw [hph] at h
      simp only [Bool.not_true, Bool.false_eq_true, if_false, Except.ok.injEq] at h
      subst h
      exact (parse_header_level _ _ _ _ _ hph).2

/-! ## The indentation invariant of the nodes under construction -/

/-- The node of a regular tree whose lines have inline attributes as their own children
satisfies the indentation invariant. -/
theorem Tree.to_node_well_indented (t : Tree) :
    t.regular → (∀ x ∈ t.preorder, inline_ok x) → t.to_node.well_indented := by
  induction t using Tree.nested_induction with
  | h head ts ih =>
    intro hreg hin
    cases hreg with
    | mk _ _ hlt hregs huni =>
      refine node_being_parsed.well_indented.mk _ head.children (Tree.to_nodes ts) rfl
        (hin head (by simp [Tree.preorder])) ?_ ?_ ?_
      · intro c hc
        rw [Tree.to_nodes_eq_map] at hc
        obtain ⟨u, hu, huc⟩ := List.mem_map.mp hc
        rw [← huc]
        have h1 := hlt u hu
        have h2 := Tree.to_node_level u
        have h3 : (Tree.mk head ts).to_node.indentation_level = head.indentation_level := rfl
        simp only [Tree.level, Tree.head] at h1 h2
        omega
      · intro c hc d hd
        rw [Tree.to_nodes_eq_map] at hc hd
        obtain ⟨u, hu, huc⟩ := List.mem_map.mp hc
        obtain ⟨w, hw, hwd⟩ := List.mem_map.mp hd
        rw [← huc, ← hwd, Tree.to_node_level, Tree.to_node_level]
        exact huni u hu w hw
      · intro c hc
        rw [Tree.to_nodes_eq_map] at hc
        obtain ⟨u, hu, huc⟩ := List.mem_map.mp hc
        rw [← huc]
        exact ih u hu (hregs u hu) (fun x hx => hin x (by
          simp only [Tree.preorder, List.mem_cons]
          exact Or.inr (Tree.mem_preorder_all_of_mem ts u x hu hx)))

theorem stack_ok_done :
    ∀ (fs : List Frame) (up : Option Nat), stack_ok up fs →
      ∀ f ∈ fs, (∀ t ∈ f.done, f.level < t.level ∧ t.regular) ∧
        ∀ t ∈ f.done, ∀ u ∈ f.done, t.level = u.level := by
  intro fs
  induction fs with
  | nil =>
    intro up _ f hf
    simp at hf
  | cons g rest ih =>
    intro up h f hf
    obtain ⟨hup, hreg, _, hrest⟩ := h
    rcases List.mem_cons.mp hf with hf | hf
    · subst hf
      cases up with
      | none =>
        simp only at hup
        simp [hup]
      | some u =>
        simp only at hup
        obtain ⟨hlt, hall⟩ := hup
        refine ⟨fun t ht => ⟨by rw [hall t ht]; exact hlt, hreg t ht⟩, ?_⟩
        intro t ht s hs
        rw [hall t ht, hall s hs]
    · exact ih _ hrest f hf

theorem spine_mem :
    ∀ (fs : List Frame) (f : Frame), f ∈ fs →
      close_node f.head ∈ spine fs ∧ ∀ x ∈ Tree.preorder_all f.done, x ∈ spine fs := by
  intro fs
  induction fs with
  | nil =>
    intro f hf
    simp at hf
  | cons g rest ih =>
    intro f hf
    simp only [spine, List.mem_append, List.mem_cons]
    rcases List.mem_cons.mp hf with hf | hf
    · subst hf
      exact ⟨Or.inr (Or.inl rfl), fun x hx => Or.inr (Or.inr hx)⟩
    · obtain ⟨h1, h2⟩ := ih f hf
      exact ⟨Or.inl h1, fun x hx => Or.inl (h2 x hx)⟩

/-- In a state given by frames every open node and every finished root satisfies the
indentation invariant. -/
theorem frames_of_well_indented (max_depth : Nat) (v : Vectors) (fs : List Frame)
    (finished : List Tree) (h : frames_of max_depth v fs finished) :
    ∀ n ∈ v.open_nodes ++ v.document_nodes, n.well_indented := by
  obtain ⟨hv, hst, hfin, _, _, hin, _⟩ := h
  subst hv
  intro n hn
  simp only [List.mem_append, List.mem_map] at hn
  rcases hn with ⟨f, hf, hfn⟩ | hn
  · subst hfn
    obtain ⟨h1, h2⟩ := stack_ok_done fs none hst f hf
    obtain ⟨h3, h4⟩ := spine_mem fs f hf
    have hhead : inline_ok f.head := by
      have := hin (close_node f.head) (by simp [h3])
      intro c hc
      exact this c (by rw [close_node_children]; exact hc)
    refine node_being_parsed.well_indented.mk _ f.head.children (Tree.to_nodes f.done) rfl
      hhead ?_ ?_ ?_
    · intro c hc
      rw [Tree.to_nodes_eq_map] at hc
      obtain ⟨u, hu, huc⟩ := List.mem_map.mp hc
      rw [← huc, Tree.to_node_level]
      exact (h1 u hu).1
    · intro c hc d hd
      rw [Tree.to_nodes_eq_map] at hc hd
      obtain ⟨u, hu, huc⟩ := List.mem_map.mp hc
      obtain ⟨w, hw, hwd⟩ := List.mem_map.mp hd
      rw [← huc, ← hwd, Tree.to_node_level, Tree.to_node_level]
      exact h2 u hu w hw
    · intro c hc
      rw [Tree.to_nodes_eq_map] at hc
      obtain ⟨u, hu, huc⟩ := List.mem_map.mp hc
      rw [← huc]
      exact Tree.to_node_well_indented u (h1 u hu).2 (fun x hx =>
        hin x (by
          simp only [List.mem_append]
          exact Or.inr (h4 x (Tree.mem_preorder_all_of_mem f.done u x hu hx))))
  · rw [Tree.to_nodes_eq_map] at hn
    obtain ⟨t, ht, htn⟩ := List.mem_map.mp hn
    rw [← htn]
    exact Tree.to_node_well_indented t (hfin t ht).2 (fun x hx =>
      hin x (by
        simp only [List.mem_append]
        exact Or.inl (Tree.mem_preorder_all_of_mem finished t x ht hx)))

/-! ## The tree freezer -/

/-- Induction on `node_being_parsed`: a property holds of every node when it holds of a
node as soon as it holds of its children. -/
theorem node_being_parsed.children_induction (P : node_being_parsed → Prop)
    (h : ∀ n : node_being_parsed, (∀ c ∈ n.children, P c) → P n) (n : node_being_parsed) :
    P n :=
  @node_being_parsed.rec P (fun l => ∀ c ∈ l, P c)
    (fun name data level children ih => h ⟨name, data, level, children⟩ ih)
    (fun c hc => absurd hc (List.not_mem_nil c))
    (fun x xs ihx ihxs c hc => by
      rcases List.mem_cons.mp hc with hc | hc
      · rw [hc]
        exact ihx
      · exact ihxs c hc) n

theorem cook_nodes_chain_map (list : List node_being_parsed) :
    (cook_nodes list).chain =
      list.map (fun it => (it.name, it.data, cook_nodes it.children)) := by
  induction list with
  | nil => rfl
  | cons x xs ih => rw [cook_nodes_cons, node.chain, ih, List.map_cons]

theorem node_being_parsed.traversal_eq (n : node_being_parsed) :
    n.traversal = (n.name, n.data) :: node_being_parsed.traversal_all n.children := by
  cases n
  simp [node_being_parsed.traversal]

theorem cook_nodes_traversal_of (list : List node_being_parsed)
    (h : ∀ n ∈ list, (cook_nodes n.children).traversal =
      node_being_parsed.traversal_all n.children) :
    (cook_nodes list).traversal = node_being_parsed.traversal_all list := by
  induction list with
  | nil => rfl
  | cons x xs ih =>
    rw [cook_nodes_cons, node.traversal, h x (List.mem_cons_self _ _),
      ih (fun n hn => h n (List.mem_cons_of_mem _ hn)), node_being_parsed.traversal_all,
      node_being_parsed.traversal_eq]
    rfl

/-- Frozen, a list of nodes is traversed in the same order with the same names and
data. -/
theorem cook_nodes_traversal (list : List node_being_parsed) :
    (cook_nodes list).traversal = node_being_parsed.traversal_all list := by
  apply cook_nodes_traversal_of
  intro n hn
  clear hn
  induction n using node_being_parsed.children_induction with
  | h n ih => exact cook_nodes_traversal_of n.children ih

/-! ## The claims -/

/-- C1. Nesting is determined purely by indentation.  Whenever the constructor succeeds
on the lines of an input (the lines that `get_line` hands out, see
`document_eq_of_lines`), its root list is a forest of trees of node lines such that
* the nodes of the forest, in document order, are exactly the entries of the node lines
  (the lines whose content does not begin with `:`), one node per node line, each with
  the name, data, inline attributes and indentation of its line;
* the nested nodes of every node come behind its inline attribute children
  (`Tree.to_node`), in document order;
* the roots are the lines of indentation 0 and are the only ones;
* every other node is a child of the nearest preceding node line whose indentation is
  strictly smaller (`Tree.nested_by_indentation`).
The statement covers every accepted input, and so the lines that dedent by one level
(the sibling branch) and by several levels (the ancestor branch) alike. -/
theorem C1_nesting_by_indentation (lines : List Line) (max_depth : Nat)
    (roots : List node_being_parsed) (h : document_nodes lines max_depth = .ok roots) :
    ∃ forest : List Tree, roots = forest.map Tree.to_node ∧
      (Tree.preorder_all forest).map Except.ok = entries lines ∧
      (Tree.preorder_all forest).filter (fun x => x.indentation_level = 0) =
        forest.map Tree.head ∧
      (∀ t ∈ forest, t.level = 0 ∧ t.nested_by_indentation) ∧
      document_of_lines lines max_depth = .ok (cook_nodes roots) := by
  obtain ⟨forest, h1, h2, h3⟩ := document_nodes_forest lines max_depth roots h
  refine ⟨forest, by rw [h1, Tree.to_nodes_eq_map], h3, forest_ok_filter_roots forest h2, ?_, ?_⟩
  · intro t ht
    exact ⟨(h2 t ht).1, Tree.regular_nested t (h2 t ht).2⟩
  · simp [document_of_lines, h]

/-- C1, on the lines `a x=1`, `  b`, `    c:1`, `     :2`, `d`: the last line dedents by
two levels. -/
theorem C1_nesting_by_indentation_witness :
    ∃ forest : List Tree,
      [(⟨"a".toList, [], 0, [⟨"x".toList, "1".toList, 0, []⟩,
          ⟨"b".toList, [], 2, [⟨"c".toList, "1\n2".toList, 4, []⟩]⟩]⟩ : node_being_parsed),
        ⟨"d".toList, [], 0, []⟩] = forest.map Tree.to_node ∧
      (Tree.preorder_all forest).map Except.ok =
        entries [⟨"a x=1".toList, []⟩, ⟨"  b".toList, []⟩, ⟨"    c:1".toList, []⟩,
          ⟨"     :2".toList, []⟩, ⟨"d".toList, []⟩] ∧
      (Tree.preorder_all forest).filter (fun x => x.indentation_level = 0) =
        forest.map Tree.head ∧
      (∀ t ∈ forest, t.level = 0 ∧ t.nested_by_indentation) ∧
      document_of_lines [⟨"a x=1".toList, []⟩, ⟨"  b".toList, []⟩, ⟨"    c:1".toList, []⟩,
          ⟨"     :2".toList, []⟩, ⟨"d".toList, []⟩] 50 =
        .ok (cook_nodes
          [⟨"a".toList, [], 0, [⟨"x".toList, "1".toList, 0, []⟩,
            ⟨"b".toList, [], 2, [⟨"c".toList, "1\n2".toList, 4, []⟩]⟩]⟩,
           ⟨"d".toList, [], 0, []⟩]) :=
  C1_nesting_by_indentation
    [⟨"a x=1".toList, []⟩, ⟨"  b".toList, []⟩, ⟨"    c:1".toList, []⟩,
      ⟨"     :2".toList, []⟩, ⟨"d".toList, []⟩] 50 _ (by rfl)

/-- C2. For every input on which the constructor succeeds, the root nodes of the
document, followed along their `next` links, carry the names declared on the node lines
of indentation 0 (among the lines that `get_line` hands out), in the order of these
lines; in particular there are as many root nodes as there are such lines. -/
theorem C2_root_nodes (lines : List Line) (max_depth : Nat) (tree : node)
    (h : document_of_lines lines max_depth = .ok tree) :
    tree.sibling_names =
        (lines.filter (fun l => l.indentation = 0 && !l.is_continuation)).map
          Line.declared_name ∧
      tree.sibling_names.length =
        (lines.filter (fun l => l.indentation = 0 && !l.is_continuation)).length := by
  have hnames : tree.sibling_names =
      (lines.filter (fun l => l.indentation = 0 && !l.is_continuation)).map
        Line.declared_name := by
    unfold document_of_lines at h
    cases hdn : document_nodes lines max_depth with
    | error e => rw [hdn] at h; exact absurd h (by simp)
    | ok roots =>
      rw [hdn] at h
      simp only [Except.ok.injEq] at h
      obtain ⟨forest, h1, h2, h3⟩ := document_nodes_forest lines max_depth roots hdn
      have h4 := forest_ok_filter_roots forest h2
      have h5 := entries_levels lines _ h3.symm
      rw [← h, sibling_names_cook, h1, Tree.to_nodes_eq_map, List.map_map]
      have h6 : forest.map ((fun n => n.name) ∘ Tree.to_node) =
          (forest.map Tree.head).map (fun n => n.name) := by
        rw [List.map_map]
        apply List.map_congr_left
        intro t _
        exact Tree.to_node_name t
      rw [h6, ← h4]
      have h7 : ((Tree.preorder_all forest).filter (fun x => x.indentation_level = 0)).map
          (fun n => n.name) =
          (((Tree.preorder_all forest).map (fun n => (n.indentation_level, n.name))).filter
            (fun x => x.1 = 0)).map Prod.snd := by
        rw [List.filter_map, List.map_map]
        rfl
      rw [h7, h5, List.filter_map, List.map_map, List.filter_filter]
      rfl
  exact ⟨hnames, by rw [hnames, List.length_map]⟩

/-- C2, on the lines `a x=1`, `  b`, `    c:1`, `     :2`, `d`. -/
theorem C2_root_nodes_witness :
    (node.mk "a".toList [] (.mk "x".toList "1".toList .null
        (.mk "b".toList [] (.mk "c".toList "1\n2".toList .null .null) .null))
        (.mk "d".toList [] .null .null)).sibling_names = ["a".toList, "d".toList] ∧
      (node.mk "a".toList [] (.mk "x".toList "1".toList .null
        (.mk "b".toList [] (.mk "c".toList "1\n2".toList .null .null) .null))
        (.mk "d".toList [] .null .null)).sibling_names.length = 2 :=
  C2_root_nodes
    [⟨"a x=1".toList, []⟩, ⟨"  b".toList, []⟩, ⟨"    c:1".toList, []⟩,
      ⟨"     :2".toList, []⟩, ⟨"d".toList, []⟩] 50 _ (by decide)

/-- C3. Quoted data round trip: the document of the single line `n="s"`, where `n` is a
non-empty name over `[A-Za-z0-9.-]` and `s` holds no quote and no line terminator, is
built for every `max_depth >= 1`, in whatever non-empty chunks the line is delivered,
and is exactly one root node with name `n`, data `s` (nothing stripped, no trailing line
break) and no children. -/
theorem C3_quoted_round_trip (n s : Bytes) (chunks : List Bytes) (max_depth : Nat)
    (hne : n ≠ []) (hn : ∀ c ∈ n, is_valid_name_char c = true)
    (hq : '"' ∉ s) (hlf : '\n' ∉ s) (hcr : '\r' ∉ s) (hd : 1 ≤ max_depth)
    (hchunks : ∀ x ∈ chunks, x ≠ [])
    (hflat : chunks.flatten = n ++ '=' :: '"' :: (s ++ ['"'])) :
    document chunks max_depth = .ok (.mk n s .null .null) := by
  have hparse : parse_node node_being_parsed.fresh (n ++ '=' :: '"' :: (s ++ ['"'])) [] false =
      .ok (⟨n, s ++ ['\n'], 0, []⟩, []) := by
    simp only [parse_node, parse_header_quoted node_being_parsed.fresh n s [] [] false hne hn hq]
    simp [parse_attributes, node_being_parsed.fresh]
  cases n with
  | nil => exact absurd rfl hne
  | cons c n' =>
    have hc : is_valid_name_char c = true := hn c (List.mem_cons_self _ _)
    have hterm : ∀ x ∈ n' ++ '=' :: '"' :: (s ++ ['"']), is_terminator x = false := by
      intro x hx
      simp only [List.mem_append, List.mem_cons, List.mem_singleton, List.not_mem_nil,
        or_false] at hx
      rcases hx with h | h | h | h | h
      · exact valid_not_terminator x (hn x (List.mem_cons_of_mem _ h))
      · subst h; decide
      · subst h; decide
      · by_cases h1 : x = '\n'
        · subst h1; exact absurd h hlf
        · by_cases h2 : x = '\r'
          · subst h2; exact absurd h hcr
          · simp [is_terminator, h1, h2]
      · subst h; decide
    have h := document_single_line chunks c (n' ++ '=' :: '"' :: (s ++ ['"'])) max_depth _ _
      hchunks hflat hc hterm hd hparse
    rw [h, close_node_spurious]
    rfl

/-- C3, on the line `name="a b c"` delivered as `name="a` and ` b c"`. -/
theorem C3_quoted_round_trip_witness :
    document ["name=\"a".toList, " b c\"".toList] 1 =
      .ok (.mk "name".toList "a b c".toList .null .null) :=
  C3_quoted_round_trip "name".toList "a b c".toList ["name=\"a".toList, " b c\"".toList] 1
    (by decide) (by decide) (by decide) (by decide) (by decide) (by decide) (by decide)
    (by decide)

/-- C4. Data continuation: when a node line `k:d0` with indentation `ws` is accepted in
some state of the constructor and is followed by any number of lines, each with a longer
indentation and the content `:` followed by `d_i`, then after these lines the node `k`
is still the most recent open node, its data is `d0, d1, ..., dm` each followed by one
line break, closing it leaves `d0, ..., dm` joined by single line breaks with no
trailing one, and nothing else has changed: the open nodes below it and the finished
roots are the same and the node has no child. -/
theorem C4_data_continuation (max_depth : Nat) (v v1 : Vectors) (ws k d0 after : Bytes)
    (conts : List (Bytes × Bytes × Bytes))
    (hws : ∀ c ∈ ws, c = ' ' ∨ c = '\t')
    (hne : k ≠ []) (hk : ∀ c ∈ k, is_valid_name_char c = true)
    (hconts : ∀ x ∈ conts, (∀ c ∈ x.1, c = ' ' ∨ c = '\t') ∧ ws.length < x.1.length)
    (hline : document_line max_depth v ⟨ws ++ (k ++ ':' :: d0), after⟩ = .ok v1) :
    ∃ below, v1.open_nodes = ⟨k, d0 ++ ['\n'], ws.length, []⟩ :: below ∧
      document_loop max_depth v1 (conts.map fun x => ⟨x.1 ++ ':' :: x.2.1, x.2.2⟩) =
        .ok { v1 with open_nodes :=
          ⟨k, (['\n'] : Bytes).intercalate (d0 :: conts.map (fun x => x.2.1)) ++ ['\n'],
            ws.length, []⟩ :: below } ∧
      close_node ⟨k, (['\n'] : Bytes).intercalate (d0 :: conts.map (fun x => x.2.1)) ++ ['\n'],
          ws.length, []⟩ =
        ⟨k, (['\n'] : Bytes).intercalate (d0 :: conts.map (fun x => x.2.1)), ws.length, []⟩ := by
  obtain ⟨below, hopen, hdepth⟩ := document_line_colon max_depth v v1 ws k d0 after hws hne hk
    hline
  refine ⟨below, hopen, ?_, close_node_spurious _ _ _ _⟩
  have hv1 : v1 = ⟨⟨k, d0 ++ ['\n'], ws.length, []⟩ :: below, v1.document_nodes⟩ := by
    cases v1
    simp only at hopen
    simp [hopen]
  rw [hv1, document_loop_continuation max_depth k ws.length [] below _ hdepth conts _ hconts]
  have hj := intercalate_spurious d0 (conts.map (fun x => x.2.1))
  simp only [List.map_map, Function.comp_def] at hj
  simp only [hj]

/-- C4, on `key:line one` followed by the deeper `:line two`. -/
theorem C4_data_continuation_witness :
    document_line 50 ⟨[], []⟩ ⟨"key:line one".toList, "\n  :line two".toList⟩ =
        .ok ⟨[⟨"key".toList, "line one\n".toList, 0, []⟩], []⟩ ∧
      document_loop 50 ⟨[⟨"key".toList, "line one\n".toList, 0, []⟩], []⟩
          [⟨"  :line two".toList, []⟩] =
        .ok ⟨[⟨"key".toList, "line one\nline two\n".toList, 0, []⟩], []⟩ ∧
      close_node ⟨"key".toList, "line one\nline two\n".toList, 0, []⟩ =
        ⟨"key".toList, "line one\nline two".toList, 0, []⟩ := by
  have hline : document_line 50 ⟨[], []⟩ ⟨"key:line one".toList, "\n  :line two".toList⟩ =
      .ok ⟨[⟨"key".toList, "line one\n".toList, 0, []⟩], []⟩ := by rfl
  obtain ⟨below, h1, h2, h3⟩ := C4_data_continuation 50 ⟨[], []⟩
    ⟨[⟨"key".toList, "line one\n".toList, 0, []⟩], []⟩ [] "key".toList "line one".toList
    "\n  :line two".toList [("  ".toList, "line two".toList, [])]
    (by decide) (by decide) (by decide) (by decide) hline
  have hb : below = [] := by
    simp only [List.cons.injEq] at h1
    exact h1.2.symm
  subst hb
  exact ⟨hline, h2, h3⟩

/-- C5. Inline attributes: a line made of a non-empty name `n` over `[A-Za-z0-9.-]`
followed by `k >= 1` well-formed attributes, each preceded by one or more spaces, is
parsed (at any indentation level, whatever follows the line) into a node with name `n`,
empty data and exactly `k` children in the order of the attributes; the `i`-th child has
the name and the data of the `i`-th attribute (empty data for a bare name, no line break
added) and no children.  Closing the node changes nothing. -/
theorem C5_inline_attributes (n after : Bytes) (level : Nat) (ts : List (Nat × Attribute))
    (hne : n ≠ []) (hn : ∀ c ∈ n, is_valid_name_char c = true)
    (hk : 1 ≤ ts.length) (hts : ∀ x ∈ ts, x.2.well_formed) :
    parse_node { node_being_parsed.fresh with indentation_level := level }
        (n ++ attribute_tail ts) after false =
        .ok (⟨n, [], level, ts.map (fun x => x.2.node)⟩, []) ∧
      (ts.map (fun x => x.2.node)).length = ts.length ∧
      close_node ⟨n, [], level, ts.map (fun x => x.2.node)⟩ =
        ⟨n, [], level, ts.map (fun x => x.2.node)⟩ := by
  refine ⟨?_, by simp, by simp [close_node]⟩
  cases ts with
  | nil => simp at hk
  | cons x xs =>
    obtain ⟨e, t⟩ := x
    have ht : t.well_formed := hts (e, t) (List.mem_cons_self _ _)
    have hxs : ∀ y ∈ xs, y.2.well_formed := fun y hy => hts y (List.mem_cons_of_mem _ hy)
    simp only [attribute_tail, parse_node, parse_header_space _ n _ after false hne hn]
    simp only [Bool.not_false, if_true]
    rw [parse_attributes_tail after xs hxs e t ht _ _ (Nat.lt_succ_self _)]
    simp [node_being_parsed.fresh, List.map_map, Function.comp_def]

/-- C5, on the line `node a=1 b="two" c`. -/
theorem C5_inline_attributes_witness :
    parse_node { node_being_parsed.fresh with indentation_level := 0 }
        "node a=1 b=\"two\" c".toList [] false =
        .ok (⟨"node".toList, [], 0,
          [⟨"a".toList, "1".toList, 0, []⟩, ⟨"b".toList, "two".toList, 0, []⟩,
           ⟨"c".toList, [], 0, []⟩]⟩, []) ∧
      [(⟨"a".toList, "1".toList, 0, []⟩ : node_being_parsed),
          ⟨"b".toList, "two".toList, 0, []⟩, ⟨"c".toList, [], 0, []⟩].length = 3 ∧
      close_node ⟨"node".toList, [], 0,
          [⟨"a".toList, "1".toList, 0, []⟩, ⟨"b".toList, "two".toList, 0, []⟩,
           ⟨"c".toList, [], 0, []⟩]⟩ =
        ⟨"node".toList, [], 0,
          [⟨"a".toList, "1".toList, 0, []⟩, ⟨"b".toList, "two".toList, 0, []⟩,
           ⟨"c".toList, [], 0, []⟩]⟩ :=
  C5_inline_attributes "node".toList [] 0
    [(0, .plain "a".toList "1".toList), (0, .quoted "b".toList "two".toList),
     (0, .bare "c".toList)]
    (by decide) (by decide) (by decide) (by decide)

/-- C6 fails on the code. The input `ab`, line feed, `cdefgh` delivered as the chunks
`a` and `b\ncdefgh` gives the lines `ab` and `fghfgh`; delivered in one chunk it gives
`ab` and `cdefgh`.  At end of input `read_from_buffer` hands out `line_begin` and
`line_end` as they were before the buffered bytes were moved to the front of the
vector. -/
theorem C6_chunked_lines_differ :
    all_lines ["a".toList, "b\ncdefgh".toList] =
        .ok [⟨"ab".toList, "\ncdefgh".toList⟩, ⟨"fghfgh".toList, []⟩] ∧
      all_lines ["ab\ncdefgh".toList] =
        .ok [⟨"ab".toList, "\ncdefgh".toList⟩, ⟨"cdefgh".toList, []⟩] ∧
      logical_lines "ab\ncdefgh".toList =
        [⟨"ab".toList, "\ncdefgh".toList⟩, ⟨"cdefgh".toList, []⟩] := by
  refine ⟨by decide, by decide, by decide⟩

/-- C7 (as amended). Comment lines that begin at the first column never affect the
resulting tree: for every input, delivered in one chunk, on which construction succeeds,
and every line `//c` (no leading space or tab, no line terminator in `c`), inserting
that line with a terminator `t` behind it before the first line or between two lines
(that is, behind any `pre` that is empty or ends with a terminator), and inserting it
behind a terminator after the last line, again succeeds and yields an equal tree. -/
theorem C7_comment_lines (pre post c : Bytes) (t : Char) (max_depth : Nat) (tree : node)
    (hc : ∀ x ∈ c, is_terminator x = false) (ht : is_terminator t = true)
    (hpre : pre = [] ∨ ∃ pre' t0, pre = pre' ++ [t0] ∧ is_terminator t0 = true)
    (hok : document [pre ++ post] max_depth = .ok tree) :
    document [pre ++ ('/' :: '/' :: c ++ t :: post)] max_depth = .ok tree ∧
      document [pre ++ post ++ t :: '/' :: '/' :: c] max_depth = .ok tree := by
  obtain ⟨h1, h2⟩ := logical_lines_insert_comment pre post c t hc ht hpre
  exact ⟨document_texts max_depth _ _ tree h1.symm hok,
    document_texts max_depth _ _ tree h2.symm hok⟩

/-- C7, on the input `a`, `  b`, `c` and the comment line `// note`. -/
theorem C7_comment_lines_witness :
    document ["a\n// note\n  b\nc".toList] 50 =
        .ok (.mk "a".toList [] (.mk "b".toList [] .null .null) (.mk "c".toList [] .null .null)) ∧
      document ["a\n  b\nc\n// note".toList] 50 =
        .ok (.mk "a".toList [] (.mk "b".toList [] .null .null) (.mk "c".toList [] .null .null)) :=
  C7_comment_lines "a\n".toList "  b\nc".toList " note".toList '\n' 50 _ (by decide) (by decide)
    (Or.inr ⟨"a".toList, '\n', by decide, by decide⟩) (by decide)

/-- C7 as stated fails for a comment line with leading spaces: the input `a`, `b` is
accepted, and with the line `  //c` between its two lines it is rejected. -/
theorem C7_counterexample :
    document ["a\nb".toList] 50 =
        .ok (.mk "a".toList [] .null (.mk "b".toList [] .null .null)) ∧
      document ["a\n  //c\nb".toList] 50 = .error (.thrown "Invalid node name") ∧
      document ["a\n  //c\nb".toList] 50 ≠ document ["a\nb".toList] 50 := by
  refine ⟨by decide, by decide, by decide⟩

/-- C8 (as amended). Trailing comments do not affect a node that takes no ':' data:
for every non-attribute node line on which parsing succeeds and on which neither the
node nor one of its inline attributes takes its data in the ':' form, appending one
space followed by '//' and arbitrary further text yields a node with the same name, the
same data and the same children, whatever follows either line in its buffer. -/
theorem C8_trailing_comment (in_node : node_being_parsed) (line t after after' : Bytes)
    (r : node_being_parsed × Bytes)
    (hcolon : line_takes_colon_data line after = false)
    (hok : parse_node in_node line after false = .ok r) :
    parse_node in_node (line ++ ' ' :: '/' :: '/' :: t) after' false = .ok r := by
  unfold parse_node at hok ⊢
  cases hph : parse_header in_node line after false with
  | error e => rw [hph] at hok; exact absurd hok (by simp)
  | ok x =>
    obtain ⟨n1, p⟩ := x
    rw [hph] at hok
    simp only [Bool.not_false, if_true] at hok ⊢
    simp only [line_takes_colon_data, Bool.or_eq_false_iff] at hcolon
    obtain ⟨hc1, hc2⟩ := hcolon
    obtain ⟨n2, hn2⟩ := parse_header_rest in_node node_being_parsed.fresh line after false _ hph
    rw [hn2] at hc2
    simp only at hc2
    obtain ⟨p', hp', hrest⟩ := parse_header_comment in_node line t after after' false _ hph hc1
    rw [hp']
    simp only
    rcases hrest with h | ⟨h1, h2⟩
    · simp only at h
      rw [h]
      exact parse_attributes_comment t after after' _ _ _ _ hok hc2 _ (Nat.lt_succ_self _)
    · simp only at h1 h2
      subst h1 h2
      rw [parse_attributes_nil] at hok
      rw [parse_attributes_at_comment]
      exact hok

/-- C8, on the line `node a=1 b="x:y"` and the comment ` // note`. -/
theorem C8_trailing_comment_witness :
    parse_node node_being_parsed.fresh "node a=1 b=\"x:y\" // note".toList [] false =
      .ok (⟨"node".toList, [], 0,
        [⟨"a".toList, "1".toList, 0, []⟩, ⟨"b".toList, "x:y".toList, 0, []⟩]⟩, []) :=
  C8_trailing_comment node_being_parsed.fresh "node a=1 b=\"x:y\"".toList " note".toList
    "\n".toList [] _ (by decide) (by rfl)

/-- C8 as stated fails: the line `a:b` gives the data `b`, and with ` //c` appended
the data is `b //c`, so the two nodes differ. -/
theorem C8_counterexample :
    parse_node node_being_parsed.fresh "a:b".toList [] false =
        .ok (⟨"a".toList, "b\n".toList, 0, []⟩, []) ∧
      parse_node node_being_parsed.fresh "a:b //c".toList [] false =
        .ok (⟨"a".toList, "b //c\n".toList, 0, []⟩, []) ∧
      document ["a:b".toList] 50 = .ok (.mk "a".toList "b".toList .null .null) ∧
      document ["a:b //c".toList] 50 = .ok (.mk "a".toList "b //c".toList .null .null) ∧
      document ["a:b //c".toList] 50 ≠ document ["a:b".toList] 50 := by
  refine ⟨by rfl, by rfl, by decide, by decide, by decide⟩

/-- C9. Colon data is taken verbatim: for every non-empty name `n` over `[A-Za-z0-9.-]`
and every byte string `d`, the node line `n:d` is parsed, at any indentation level and
whatever follows the line in its buffer, into a node with name `n`, data `d` followed by
the one line break that closing the node removes again, and no children; and when `d`
holds no line terminator the document of the single line `n:d`, delivered in any
non-empty chunks, is one root with name `n`, data exactly `d` and no children. -/
theorem C9_colon_data_verbatim (n d after : Bytes) (level max_depth : Nat)
    (chunks : List Bytes)
    (hne : n ≠ []) (hn : ∀ c ∈ n, is_valid_name_char c = true) :
    parse_node { node_being_parsed.fresh with indentation_level := level } (n ++ ':' :: d)
        after false = .ok (⟨n, d ++ ['\n'], level, []⟩, []) ∧
      close_node ⟨n, d ++ ['\n'], level, []⟩ = ⟨n, d, level, []⟩ ∧
      ((∀ c ∈ d, is_terminator c = false) → 1 ≤ max_depth →
        (∀ x ∈ chunks, x ≠ []) → chunks.flatten = n ++ ':' :: d →
        document chunks max_depth = .ok (.mk n d .null .null)) := by
  have hparse : ∀ (level : Nat) (after : Bytes),
      parse_node { node_being_parsed.fresh with indentation_level := level } (n ++ ':' :: d)
        after false = .ok (⟨n, d ++ ['\n'], level, []⟩, []) := by
    intro level after
    simp only [parse_node, parse_header_colon _ n d after false hne hn]
    simp [parse_attributes, node_being_parsed.fresh]
  refine ⟨hparse level after, close_node_spurious n d level [], ?_⟩
  intro hd hdepth hchunks hflat
  cases n with
  | nil => exact absurd rfl hne
  | cons c n' =>
    have hc : is_valid_name_char c = true := hn c (List.mem_cons_self _ _)
    have hterm : ∀ x ∈ n' ++ ':' :: d, is_terminator x = false := by
      intro x hx
      simp only [List.mem_append, List.mem_cons] at hx
      rcases hx with h | h | h
      · exact valid_not_terminator x (hn x (List.mem_cons_of_mem _ h))
      · subst h; decide
      · exact hd x h
    have h := document_single_line chunks c (n' ++ ':' :: d) max_depth _ _ hchunks hflat hc
      hterm hdepth (hparse 0 [])
    rw [h, close_node_spurious]
    rfl

/-- C9, on the line `key:a = "b" // c`. -/
theorem C9_colon_data_verbatim_witness :
    parse_node { node_being_parsed.fresh with indentation_level := 2 }
        "key:a = \"b\" // c".toList [] false =
        .ok (⟨"key".toList, "a = \"b\" // c\n".toList, 2, []⟩, []) ∧
      close_node ⟨"key".toList, "a = \"b\" // c\n".toList, 2, []⟩ =
        ⟨"key".toList, "a = \"b\" // c".toList, 2, []⟩ ∧
      document ["key:a = \"b\" // c".toList] 1 =
        .ok (.mk "key".toList "a = \"b\" // c".toList .null .null) := by
  obtain ⟨h1, h2, h3⟩ := C9_colon_data_verbatim "key".toList "a = \"b\" // c".toList [] 2 1
    ["key:a = \"b\" // c".toList] (by decide) (by decide)
  exact ⟨h1, h2, h3 (by decide) (by decide) (by decide) (by decide)⟩

/-- C10 fails on the code. The input made of the two comment lines `//x` and
`//abcdefgh`, delivered as the chunks `/` and `/x\n//abcdefgh`, is not rejected: the
scanner hands out the bytes `cdefghefgh` as a line and the constructor builds a
document with that root.  Delivered in one chunk the same input is rejected as an empty
document. -/
theorem C10_comments_only_accepted :
    all_lines ["/".toList, "/x\n//abcdefgh".toList] = .ok [⟨"cdefghefgh".toList, []⟩] ∧
      document ["/".toList, "/x\n//abcdefgh".toList] 50 =
        .ok (.mk "cdefghefgh".toList [] .null .null) ∧
      document ["//x\n//abcdefgh".toList] 50 = .error (.thrown "Empty document") := by
  refine ⟨by decide, by decide, by decide⟩

/-- C11. Indentation mismatch is rejected.  Let the lines `pre` be accepted and leave
the open nodes `recent :: below`, and let `l` be a line with non-empty content whose
indentation is smaller than that of `recent`, the most recently opened node.  Then `l` is
rejected with "Invalid indentation level" exactly when no open node has the indentation
of `l`; in that case the constructor fails with this error on every input that
continues `pre` with `l`.  So when some open node has the indentation of `l`, the line
is not rejected with that error. -/
theorem C11_invalid_indentation (max_depth : Nat) (pre : List Line) (v : Vectors) (l : Line)
    (recent : node_being_parsed) (below : List node_being_parsed)
    (hpre : document_loop max_depth ⟨[], []⟩ pre = .ok v)
    (hopen : v.open_nodes = recent :: below)
    (hcontent : l.content ≠ [])
    (hlt : l.indentation < recent.indentation_level) :
    (document_line max_depth v l = .error (.thrown "Invalid indentation level") ↔
      ∀ n ∈ v.open_nodes, n.indentation_level ≠ l.indentation) ∧
    ((∀ n ∈ v.open_nodes, n.indentation_level ≠ l.indentation) →
      ∀ rest, document_of_lines (pre ++ l :: rest) max_depth =
        .error (.thrown "Invalid indentation level")) := by
  obtain ⟨fs, finished, hv, _⟩ := document_loop_reachable max_depth pre v hpre
  obtain ⟨hv1, hst, _⟩ := hv
  subst hv1
  cases fs with
  | nil => simp at hopen
  | cons top rest =>
    simp only [List.map_cons, List.cons.injEq] at hopen
    have hlt2 : l.indentation < top.level := by
      rw [← hopen.1] at hlt
      exact hlt
    have hiff := document_line_ancestor max_depth top rest finished l hcontent hlt2
    have htarget := close_frames_target l.indentation finished rest top none hst
    have hall : (∀ n ∈ (top :: rest).map Frame.to_open, n.indentation_level ≠ l.indentation) ↔
        (close_frames l.indentation top rest finished).1 ≠ l.indentation := by
      rw [ne_eq, htarget]
      constructor
      · rintro h ⟨f, hf, hfl⟩
        exact h f.to_open (List.mem_map_of_mem _ hf) hfl
      · intro h n hn hnl
        obtain ⟨f, hf, hfn⟩ := List.mem_map.mp hn
        subst hfn
        exact h ⟨f, hf, hnl⟩
    refine ⟨hiff.trans hall.symm, ?_⟩
    intro hno rest2
    exact document_of_lines_prefix max_depth pre rest2 _ l _ hpre (hiff.mpr (hall.mp hno))

/-- C11, on the lines `a`, `  b` followed by ` c`: no open node has indentation 1. -/
theorem C11_invalid_indentation_witness :
    document_of_lines
        ([⟨"a".toList, []⟩, ⟨"  b".toList, []⟩] ++ ⟨" c".toList, []⟩ :: [⟨"d".toList, []⟩]) 50 =
      .error (.thrown "Invalid indentation level") :=
  (C11_invalid_indentation 50 [⟨"a".toList, []⟩, ⟨"  b".toList, []⟩]
    ⟨[⟨"b".toList, [], 2, []⟩, ⟨"a".toList, [], 0, []⟩], []⟩ ⟨" c".toList, []⟩
    ⟨"b".toList, [], 2, []⟩ [⟨"a".toList, [], 0, []⟩] (by rfl) rfl (by decide) (by decide)).2
    (by
      intro n hn
      simp only [List.mem_cons, List.mem_singleton, List.not_mem_nil, or_false] at hn
      rcases hn with hn | hn <;> subst hn <;> decide)
    [⟨"d".toList, []⟩]

/-- C12. Depth bound: take `N >= 1` lines, each consisting of an indentation and a bare
name over `[A-Za-z0-9.-]`, the first at indentation 0 and every other one indented
strictly deeper than the line before it.  When `N > max_depth` the constructor fails
with "Document too deep"; when `N <= max_depth` it returns the chain of `N` nested
single-child nodes named by the lines. -/
theorem C12_depth_bound (max_depth : Nat) (lines : List Line) (hne : lines ≠ [])
    (hnames : ∀ l ∈ lines, l.content ≠ [] ∧ ∀ c ∈ l.content, is_valid_name_char c = true)
    (hfirst : ∀ l, lines.head? = some l → l.indentation = 0)
    (hchain : lines.Chain' (fun a b => a.indentation < b.indentation)) :
    (max_depth < lines.length →
      document_of_lines lines max_depth = .error (.thrown "Document too deep")) ∧
    (lines.length ≤ max_depth →
      document_of_lines lines max_depth = .ok (chain_node (lines.map Line.content))) := by
  have hloop := document_loop_chain max_depth [] lines [] hnames hchain hfirst
  simp only [hne, false_or, List.length_nil, Nat.zero_add, List.append_nil] at hloop
  constructor
  · intro hlt
    have : ¬ lines.length ≤ max_depth := by omega
    simp [document_of_lines, document_nodes, hloop, this]
  · intro hle
    cases lines with
    | nil => exact absurd rfl hne
    | cons l ls =>
      obtain ⟨cur, below, h1, h2⟩ := cook_nodes_chain l ls _ rfl
      rw [← List.map_reverse] at hloop
      simp only [document_of_lines, document_nodes, hloop, hle, if_true, h1, document_finish, h2]

/-- C12, on the three lines `a`, ` b`, `  c`: rejected with `max_depth` 2, accepted
with `max_depth` 3. -/
theorem C12_depth_bound_witness :
    document_of_lines [⟨"a".toList, []⟩, ⟨" b".toList, []⟩, ⟨"  c".toList, []⟩] 2 =
        .error (.thrown "Document too deep") ∧
      document_of_lines [⟨"a".toList, []⟩, ⟨" b".toList, []⟩, ⟨"  c".toList, []⟩] 3 =
        .ok (.mk "a".toList [] (.mk "b".toList [] (.mk "c".toList [] .null .null) .null)
          .null) :=
  ⟨(C12_depth_bound 2 [⟨"a".toList, []⟩, ⟨" b".toList, []⟩, ⟨"  c".toList, []⟩]
      (by decide) (by decide) (by decide)
      (by simp only [List.chain'_cons, List.chain'_singleton, and_true]; decide)).1
      (by decide),
    (C12_depth_bound 3 [⟨"a".toList, []⟩, ⟨" b".toList, []⟩, ⟨"  c".toList, []⟩]
      (by decide) (by decide) (by decide)
      (by simp only [List.chain'_cons, List.chain'_singleton, and_true]; decide)).2
      (by decide)⟩

/-- C13. The bound `max_depth` is exceeded by at most one.  Whenever the constructor
succeeds on the lines of an input, its root list is the forest of the node lines (one
tree node per node line, in document order, as in C1; the own children of every node
line are its inline attributes, which have no children), and
* every node created from its own line lies at depth at most `max_depth`: no tree of
  the forest is higher than `max_depth`;
* every node of the output, the inline attribute nodes included, lies at depth at most
  `max_depth + 1`, the root nodes counted as depth 1. -/
theorem C13_depth_exceeded_by_one (lines : List Line) (max_depth : Nat)
    (roots : List node_being_parsed) (h : document_nodes lines max_depth = .ok roots) :
    ∃ forest : List Tree, roots = forest.map Tree.to_node ∧
      (Tree.preorder_all forest).map Except.ok = entries lines ∧
      (∀ x ∈ Tree.preorder_all forest, ∀ c ∈ x.children, c.children = []) ∧
      (∀ t ∈ forest, t.height ≤ max_depth) ∧
      (cook_nodes roots).height ≤ max_depth + 1 ∧
      document_of_lines lines max_depth = .ok (cook_nodes roots) := by
  obtain ⟨forest, h1, h2, h3, h4, h5⟩ := document_nodes_forest_depth lines max_depth roots h
  refine ⟨forest, by rw [h1, Tree.to_nodes_eq_map], h3, fun x hx c hc => (h4 x hx c hc).2, h5,
    ?_, by simp [document_of_lines, h]⟩
  rw [h1]
  have h6 := node.height_cook_trees forest (fun t ht => node.height_cook_tree t
    (fun x hx => h4 x (Tree.mem_preorder_all_of_mem forest t x ht hx)))
  have h7 := Tree.height_all_le forest max_depth h5
  omega

/-- C13, on the line `a b` with `max_depth` 1: the root `a` lies at depth 1, its inline
attribute `b` at depth 2. -/
theorem C13_depth_exceeded_by_one_witness :
    ∃ forest : List Tree,
      [(⟨"a".toList, [], 0, [⟨"b".toList, [], 0, []⟩]⟩ : node_being_parsed)] =
        forest.map Tree.to_node ∧
      (Tree.preorder_all forest).map Except.ok = entries [⟨"a b".toList, []⟩] ∧
      (∀ x ∈ Tree.preorder_all forest, ∀ c ∈ x.children, c.children = []) ∧
      (∀ t ∈ forest, t.height ≤ 1) ∧
      (cook_nodes [(⟨"a".toList, [], 0, [⟨"b".toList, [], 0, []⟩]⟩ :
        node_being_parsed)]).height ≤ 1 + 1 ∧
      document_of_lines [⟨"a b".toList, []⟩] 1 =
        .ok (cook_nodes [⟨"a".toList, [], 0, [⟨"b".toList, [], 0, []⟩]⟩]) :=
  C13_depth_exceeded_by_one [⟨"a b".toList, []⟩] 1 _ (by rfl)

/-- C14. Unterminated quote is rejected.  Let `n` be a non-empty name over
`[A-Za-z0-9.-]` and `s` a byte string without `"`.
* The line `n="s` without a closing quote makes `parse_node` fail with "Unterminated
  quoted data", for an attribute node and for any other node.
* On the line `n="s"rest` the header is parsed into the name `n` and the data `s`, the
  bytes between the two quotes, and parsing goes on at `rest`, the bytes behind the
  closing quote: an attribute node is returned with the data `s` and the position
  `rest`; for another node the loop over the inline attributes is entered at `rest`, and
  when it returns the node has the name `n` and the data `s` followed by the line break
  that `close_node` takes away. -/
theorem C14_unterminated_quote (in_node : node_being_parsed) (n s rest after : Bytes)
    (attr : Bool) (hne : n ≠ []) (hn : ∀ c ∈ n, is_valid_name_char c = true)
    (hs : '"' ∉ s) :
    parse_node in_node (n ++ '=' :: '"' :: s) after attr =
        .error (.thrown "Unterminated quoted data") ∧
      parse_node in_node (n ++ '=' :: '"' :: (s ++ '"' :: rest)) after true =
        .ok ({ in_node with name := n, data := s }, rest) ∧
      parse_node in_node (n ++ '=' :: '"' :: (s ++ '"' :: rest)) after false =
        parse_attributes (rest.length + 1) { in_node with name := n, data := s ++ ['\n'] }
          rest after ∧
      (∀ r, parse_node in_node (n ++ '=' :: '"' :: (s ++ '"' :: rest)) after false = .ok r →
        r.1.name = n ∧ r.1.data = s ++ ['\n'] ∧ (close_node r.1).data = s) ∧
      parse_node in_node (n ++ '=' :: '"' :: (s ++ ['"'])) after false =
        .ok ({ in_node with name := n, data := s ++ ['\n'] }, []) := by
  have hs' : ∀ c ∈ s, (fun c => c != '"') c = true := by
    intro c hc
    simp only [bne_iff_ne, ne_eq]
    intro h
    exact hs (h ▸ hc)
  have hfalse : parse_node in_node (n ++ '=' :: '"' :: (s ++ '"' :: rest)) after false =
      parse_attributes (rest.length + 1) { in_node with name := n, data := s ++ ['\n'] }
        rest after := by
    simp [parse_node, parse_header_quoted in_node n s rest after false hne hn hs]
  refine ⟨?_, ?_, hfalse, ?_, ?_⟩
  · have hph : parse_header in_node (n ++ '=' :: '"' :: s) after attr =
        .error (.thrown "Unterminated quoted data") := by
      rw [parse_header_name in_node n _ after attr hne hn (by simp; decide)]
      simp [parse_data, (scan_all (fun c => c != '"') s hs').2]
    simp [parse_node, hph]
  · simp [parse_node, parse_header_quoted in_node n s rest after true hne hn hs]
  · intro r hr
    rw [hfalse] at hr
    have h1 := parse_attributes_data _ _ _ _ _ hr
    have h2 := (parse_attributes_level _ _ _ _ _ hr).2
    simp only at h1 h2
    refine ⟨h2, h1, ?_⟩
    simp [close_node, h1]
  · simp [parse_node, parse_header_quoted in_node n s [] after false hne hn hs,
      parse_attributes]

/-- C14, on `name="a b` and on `name="a b" x`. -/
theorem C14_unterminated_quote_witness :
    parse_node node_being_parsed.fresh ("name".toList ++ '=' :: '"' :: "a b".toList) [] false =
        .error (.thrown "Unterminated quoted data") ∧
      parse_node node_being_parsed.fresh
          ("name".toList ++ '=' :: '"' :: ("a b".toList ++ '"' :: " x".toList)) [] true =
        .ok ({ node_being_parsed.fresh with name := "name".toList, data := "a b".toList },
          " x".toList) ∧
      parse_node node_being_parsed.fresh
          ("name".toList ++ '=' :: '"' :: ("a b".toList ++ '"' :: " x".toList)) [] false =
        parse_attributes (" x".toList.length + 1)
          { node_being_parsed.fresh with name := "name".toList,
                                         data := "a b".toList ++ ['\n'] }
          " x".toList [] ∧
      (∀ r, parse_node node_being_parsed.fresh
          ("name".toList ++ '=' :: '"' :: ("a b".toList ++ '"' :: " x".toList)) [] false =
            .ok r →
        r.1.name = "name".toList ∧ r.1.data = "a b".toList ++ ['\n'] ∧
          (close_node r.1).data = "a b".toList) ∧
      parse_node node_being_parsed.fresh
          ("name".toList ++ '=' :: '"' :: ("a b".toList ++ ['"'])) [] false =
        .ok ({ node_being_parsed.fresh with name := "name".toList,
                                            data := "a b".toList ++ ['\n'] }, []) :=
  C14_unterminated_quote node_being_parsed.fresh "name".toList "a b".toList " x".toList []
    false (by decide) (by decide) (by decide)

/-- C15. Invalid node name is rejected.  On a line whose first byte `c` is not in
`[A-Za-z0-9.-]`, `parse_node` (for an attribute node and for any other node) fails with
"Invalid node name" and so produces no node.  On a line whose first byte is in that set
the name is assigned before anything else is parsed (`parse_header` goes on with
`parse_data` on a node that carries the name), and whenever `parse_node` returns, the
name of the node is the longest prefix of the line made only of bytes of that set: it is
a prefix of the line, it is not empty, its bytes are in the set, and every prefix of the
line whose bytes are in the set is a prefix of it. -/
theorem C15_invalid_node_name (in_node : node_being_parsed) (c : Char) (rest after : Bytes)
    (attr : Bool) :
    (is_valid_name_char c = false →
      parse_node in_node (c :: rest) after attr = .error (.thrown "Invalid node name")) ∧
    (is_valid_name_char c = true →
      parse_header in_node (c :: rest) after attr =
        parse_data { in_node with name := (c :: rest).takeWhile is_valid_name_char }
          ((c :: rest).dropWhile is_valid_name_char) attr ∧
      (∀ r, parse_node in_node (c :: rest) after attr = .ok r →
        r.1.name = (c :: rest).takeWhile is_valid_name_char) ∧
      (c :: rest).takeWhile is_valid_name_char ≠ [] ∧
      (c :: rest).takeWhile is_valid_name_char <+: c :: rest ∧
      (∀ x ∈ (c :: rest).takeWhile is_valid_name_char, is_valid_name_char x = true) ∧
      ∀ pre, pre <+: c :: rest → (∀ x ∈ pre, is_valid_name_char x = true) →
        pre <+: (c :: rest).takeWhile is_valid_name_char) := by
  constructor
  · intro hc
    simp [parse_node, parse_header_invalid in_node c rest after attr hc]
  · intro hc
    refine ⟨parse_header_valid in_node c rest after attr hc,
      fun r hr => parse_node_name _ _ _ _ _ hr, ?_, List.takeWhile_prefix _,
      takeWhile_all _ _, fun pre h1 h2 => takeWhile_longest _ _ pre h1 h2⟩
    simp [List.takeWhile_cons, hc]

/-- C15, on the lines `_a` and `ab_c d`. -/
theorem C15_invalid_node_name_witness :
    parse_node node_being_parsed.fresh ('_' :: "a".toList) [] false =
        .error (.thrown "Invalid node name") ∧
      ∀ r, parse_node node_being_parsed.fresh ('a' :: "b=c d".toList) [] false = .ok r →
        r.1.name = ('a' :: "b=c d".toList).takeWhile is_valid_name_char :=
  ⟨(C15_invalid_node_name node_being_parsed.fresh '_' "a".toList [] false).1 (by decide),
    ((C15_invalid_node_name node_being_parsed.fresh 'a' "b=c d".toList [] false).2
      (by decide)).2.1⟩

/-- C16. An indented first node has no parent: when the first line handed out by
`get_line` has an indentation greater than 0 and some content behind it, the
constructor fails with "Indented node has no parent", whatever the content and the
later lines are.  And after any non-empty sequence of accepted lines the stack of open
nodes is not empty and its bottom entry `open_nodes[0]` (the last of the list, which is
kept innermost first) has `indentation_level` 0. -/
theorem C16_indented_first_line (max_depth : Nat) (l : Line) (rest : List Line) :
    (0 < l.indentation → l.content ≠ [] →
      document_of_lines (l :: rest) max_depth =
        .error (.thrown "Indented node has no parent")) ∧
    (∀ v, document_loop max_depth ⟨[], []⟩ (l :: rest) = .ok v →
      ∃ bottom, v.open_nodes.getLast? = some bottom ∧ bottom.indentation_level = 0) := by
  constructor
  · intro hind hcontent
    have hl : document_line max_depth ⟨[], []⟩ l =
        .error (.thrown "Indented node has no parent") := by
      unfold document_line
      have hlev : (parse_indentation l.text).1 = l.indentation := rfl
      have hcon : (parse_indentation l.text).2 = l.content := rfl
      simp only
      rw [hlev, hcon]
      have h0 : l.indentation ≠ 0 := by omega
      simp [hcontent, h0]
    exact document_of_lines_prefix max_depth [] rest _ l _ rfl hl
  · intro v hv
    obtain ⟨fs, finished, hfr, hne⟩ := document_loop_reachable max_depth (l :: rest) v hv
    obtain ⟨hv1, hst, _⟩ := hfr
    subst hv1
    have hfs := hne (by simp)
    obtain ⟨f, hf⟩ : ∃ f, fs.getLast? = some f := by
      cases h : fs.getLast? with
      | none => exact absurd (List.getLast?_eq_none_iff.mp h) hfs
      | some f => exact ⟨f, rfl⟩
    refine ⟨f.to_open, ?_, stack_ok_bottom fs none hst f hf⟩
    simp [List.getLast?_map, hf]

/-- C16, on the first line `  :x` and on the accepted lines `a`, `  b`, `    c`. -/
theorem C16_indented_first_line_witness :
    document_of_lines [⟨"  :x".toList, []⟩, ⟨"a".toList, []⟩] 50 =
        .error (.thrown "Indented node has no parent") ∧
      ∃ bottom,
        (⟨[⟨"c".toList, [], 4, []⟩, ⟨"b".toList, [], 2, []⟩, ⟨"a".toList, [], 0, []⟩],
          []⟩ : Vectors).open_nodes.getLast? = some bottom ∧ bottom.indentation_level = 0 :=
  ⟨(C16_indented_first_line 50 ⟨"  :x".toList, []⟩ [⟨"a".toList, []⟩]).1
      (by decide) (by decide),
    (C16_indented_first_line 50 ⟨"a".toList, []⟩
      [⟨"  b".toList, []⟩, ⟨"    c".toList, []⟩]).2 _ (by rfl)⟩

/-- C17. Blank indented lines are rejected: a line made only of spaces and tabs is
rejected with "Blank indented line." in every state of the constructor, whatever its
width and whatever the open nodes are; so when the lines `pre` are accepted, the
constructor fails with this error on every input that continues `pre` with such a
line.  (The lines of `get_line` are not empty, so such a line has at least one space or
tab; the statement does not depend on it.) -/
theorem C17_blank_indented_line (max_depth : Nat) (pre rest : List Line) (v : Vectors)
    (ws after : Bytes)
    (hpre : document_loop max_depth ⟨[], []⟩ pre = .ok v)
    (hws : ∀ c ∈ ws, c = ' ' ∨ c = '\t') :
    (∀ v2 : Vectors, document_line max_depth v2 ⟨ws, after⟩ =
      .error (.thrown "Blank indented line.")) ∧
    document_of_lines (pre ++ ⟨ws, after⟩ :: rest) max_depth =
      .error (.thrown "Blank indented line.") :=
  ⟨fun v2 => document_line_blank max_depth v2 ws after hws,
    document_of_lines_prefix max_depth pre rest v _ _ hpre
      (document_line_blank max_depth v ws after hws)⟩

/-- C17, on the lines `a`, `  b` followed by a line of one space and one tab. -/
theorem C17_blank_indented_line_witness :
    (∀ v2 : Vectors, document_line 50 v2 ⟨" \t".toList, "\nc".toList⟩ =
      .error (.thrown "Blank indented line.")) ∧
    document_of_lines ([⟨"a".toList, []⟩, ⟨"  b".toList, []⟩] ++
        ⟨" \t".toList, "\nc".toList⟩ :: [⟨"c".toList, []⟩]) 50 =
      .error (.thrown "Blank indented line.") :=
  C17_blank_indented_line 50 [⟨"a".toList, []⟩, ⟨"  b".toList, []⟩] [⟨"c".toList, []⟩]
    ⟨[⟨"b".toList, [], 2, []⟩, ⟨"a".toList, [], 0, []⟩], []⟩ " \t".toList "\nc".toList
    (by rfl) (by decide)

/-- C18, amended.  The indentation invariant of the nodes under construction: after
every sequence of accepted lines, every open node and every finished root, and in the
finished forest every root, satisfies `node_being_parsed.well_indented`, at every depth:
the `children` of a node are its inline attributes, which have `indentation_level` 0
and no children, followed by the nodes of the lines nested under it, which all have
the same `indentation_level`, strictly greater than that of the node. -/
theorem C18_children_indentation (max_depth : Nat) (pre : List Line) (v : Vectors)
    (hpre : document_loop max_depth ⟨[], []⟩ pre = .ok v) :
    (∀ n ∈ v.open_nodes ++ v.document_nodes, n.well_indented) ∧
    ∀ roots, document_nodes pre max_depth = .ok roots → ∀ n ∈ roots, n.well_indented := by
  obtain ⟨fs, finished, hfr, _⟩ := document_loop_reachable max_depth pre v hpre
  refine ⟨frames_of_well_indented max_depth v fs finished hfr, ?_⟩
  intro roots hroots n hn
  obtain ⟨forest, h1, h2, _, h4, _⟩ := document_nodes_forest_depth pre max_depth roots hroots
  rw [h1, Tree.to_nodes_eq_map] at hn
  obtain ⟨t, ht, htn⟩ := List.mem_map.mp hn
  rw [← htn]
  exact Tree.to_node_well_indented t (h2 t ht).2
    (fun x hx => h4 x (Tree.mem_preorder_all_of_mem forest t x ht hx))

/-- C18, on the lines `a x=1`, `  b`, `  c`: the root `a` has the inline attribute `x`
and the nested nodes `b` and `c`. -/
theorem C18_children_indentation_witness :
    (∀ n ∈ (⟨[⟨"c".toList, [], 2, []⟩,
          ⟨"a".toList, [], 0, [⟨"x".toList, "1".toList, 0, []⟩, ⟨"b".toList, [], 2, []⟩]⟩],
        []⟩ : Vectors).open_nodes ++
        (⟨[⟨"c".toList, [], 2, []⟩,
          ⟨"a".toList, [], 0, [⟨"x".toList, "1".toList, 0, []⟩, ⟨"b".toList, [], 2, []⟩]⟩],
        []⟩ : Vectors).document_nodes, n.well_indented) ∧
    ∀ roots, document_nodes [⟨"a x=1".toList, []⟩, ⟨"  b".toList, []⟩, ⟨"  c".toList, []⟩]
        50 = .ok roots → ∀ n ∈ roots, n.well_indented :=
  C18_children_indentation 50 [⟨"a x=1".toList, []⟩, ⟨"  b".toList, []⟩, ⟨"  c".toList, []⟩]
    _ (by rfl)

/-- C18 as it was stated fails on the line `a b`: the inline attribute `b` is a child
of `a` and has `indentation_level` 0, which is not greater than that of `a`; and on the
lines `a b`, ` c` the children `b` and `c` of `a` have different indentation levels. -/
theorem C18_counterexample :
    (∃ roots, document_nodes [⟨"a b".toList, []⟩] 50 = .ok roots ∧
      ∃ n ∈ roots, ∃ c ∈ n.children, ¬ n.indentation_level < c.indentation_level) ∧
    ∃ roots, document_nodes [⟨"a b".toList, []⟩, ⟨" c".toList, []⟩] 50 = .ok roots ∧
      ∃ n ∈ roots, ∃ c ∈ n.children, ∃ d ∈ n.children,
        c.indentation_level ≠ d.indentation_level :=
  ⟨⟨[⟨"a".toList, [], 0, [⟨"b".toList, [], 0, []⟩]⟩], by rfl, _, List.mem_cons_self _ _,
      ⟨"b".toList, [], 0, []⟩, List.mem_cons_self _ _, by decide⟩,
    ⟨[⟨"a".toList, [], 0, [⟨"b".toList, [], 0, []⟩, ⟨"c".toList, [], 1, []⟩]⟩], by rfl,
      _, List.mem_cons_self _ _, ⟨"b".toList, [], 0, []⟩, List.mem_cons_self _ _,
      ⟨"c".toList, [], 1, []⟩, List.mem_cons_of_mem _ (List.mem_cons_self _ _), by decide⟩⟩

/-- C19. The tree freezer preserves order and content: for every list of
`node_being_parsed`, `cook_nodes` returns a chain of siblings whose nodes, along the
`next` links, are those of the list in order, each with the name and the data of its
list element and with `cook_nodes` of the element's `children` as its child chain; the
chain has as many nodes as the list has elements, it is the null chain for the empty
list, and a traversal of the frozen chain (every node before its children, the children
before the next sibling) meets the same names and data in the same order as the same
traversal of the list. -/
theorem C19_cook_nodes_preserves (list : List node_being_parsed) :
    (cook_nodes list).chain =
        list.map (fun it => (it.name, it.data, cook_nodes it.children)) ∧
      (cook_nodes list).chain.length = list.length ∧
      cook_nodes ([] : List node_being_parsed) = .null ∧
      (cook_nodes list).traversal = node_being_parsed.traversal_all list :=
  ⟨cook_nodes_chain_map list, by rw [cook_nodes_chain_map, List.length_map], rfl,
    cook_nodes_traversal list⟩

/-- C20 fails: `parse_node` reads the byte at `end`.  On the line `a`, space, space the
loop over the inline attributes skips the spaces up to `end` and then tests `p[0]` with
`p == end`, and `parse_node` for the attribute reads `*begin` there.  The outcome
depends on what is stored behind the line: nothing of the buffer (the read leaves the
buffer), a line terminator ("Invalid node name" is thrown for a line that only has
trailing spaces), or `//` (the node is returned).  The same happens with one space
behind `=` data, as on `a=b` followed by a space.  A single space behind a name and a
single `/` at the end of the line are parsed without such a read. -/
theorem C20_reads_at_end :
    parse_node node_being_parsed.fresh "a  ".toList [] false = .error .out_of_bounds ∧
      parse_node node_being_parsed.fresh "a  ".toList "\nb".toList false =
        .error (.thrown "Invalid node name") ∧
      parse_node node_being_parsed.fresh "a  ".toList "//".toList false =
        .ok (⟨"a".toList, [], 0, []⟩, []) ∧
      parse_node node_being_parsed.fresh "a=b ".toList [] false = .error .out_of_bounds ∧
      parse_node node_being_parsed.fresh "a=b ".toList "\nc".toList false =
        .error (.thrown "Invalid node name") ∧
      parse_node node_being_parsed.fresh "a ".toList [] false =
        .ok (⟨"a".toList, [], 0, []⟩, []) ∧
      parse_node node_being_parsed.fresh "a /".toList [] false =
        .error (.thrown "Invalid node name") :=
  ⟨by rfl, by rfl, by rfl, by rfl, by rfl, by rfl, by rfl⟩

end byuuML
